import Mathlib

/-!
Verification of the `kleeners` regex-to-minimal-DFA pipeline.

Rust `HashMap`s are embedded as association lists with first-occurrence
lookup semantics (a `HashMap` has unique keys, so first- and last-occurrence
semantics coincide on any value reachable from the Rust code); `HashSet` /
`BTreeSet` values are embedded as `Finset`s, iterated in sorted order where
iteration order is observable.  `while let Some(x) = queue.pop_front()` loops
are embedded as fuel-indexed iteration (`iterFuel`) together with theorems
showing the prescribed fuel always suffices (the halt condition holds at the
result), so the fueled function agrees with the Rust loop on every input.
-/

namespace Kleeners

/-- Association-list lookup keyed by decidable equality (models `HashMap::get`,
first occurrence wins). -/
def alLookup {α β : Type} [DecidableEq α] : List (α × β) → α → Option β
  | [], _ => none
  | (k, v) :: rest, k' => if k' = k then some v else alLookup rest k'

/-- Update the first entry with the given key by `f`, or append
`(k, f none)` if the key is absent (models `HashMap::entry(..).or_..`). -/
def alUpdate {α β : Type} [DecidableEq α] (l : List (α × β)) (k : α)
    (f : Option β → β) : List (α × β) :=
  match l with
  | [] => [(k, f none)]
  | (k', v) :: rest =>
      if k = k' then (k', f (some v)) :: rest else (k', v) :: alUpdate rest k f

/-- Fuel-indexed iteration of a loop body: runs `step` until `halt` or the
fuel is exhausted.  Models a Rust `while` loop; a separate theorem per loop
shows the fuel chosen in each definition suffices. -/
def iterFuel {α : Type} (step : α → α) (halt : α → Bool) : Nat → α → α
  | 0, a => a
  | f + 1, a => if halt a then a else iterFuel step halt f (step a)

theorem iterFuel_invariant {α : Type} (step : α → α) (halt : α → Bool)
    (P : α → Prop) (hstep : ∀ a, P a → halt a = false → P (step a)) :
    ∀ (f : Nat) (a : α), P a → P (iterFuel step halt f a) := by
  intro f
  induction f with
  | zero => intro a h; exact h
  | succ f ih =>
      intro a h
      unfold iterFuel
      by_cases hh : halt a
      · simp [hh, h]
      · simp only [hh, if_neg]
        simp only [Bool.not_eq_true] at hh
        exact ih _ (hstep a h hh)

theorem iterFuel_halts {α : Type} (step : α → α) (halt : α → Bool)
    (P : α → Prop) (μ : α → Nat)
    (hstep : ∀ a, P a → halt a = false → P (step a))
    (hdec : ∀ a, P a → halt a = false → μ (step a) < μ a) :
    ∀ (f : Nat) (a : α), P a → μ a < f →
      halt (iterFuel step halt f a) = true := by
  intro f
  induction f with
  | zero => intro a _ h; omega
  | succ f ih =>
      intro a hP hμ
      unfold iterFuel
      by_cases hh : halt a
      · simp [hh]
      · simp only [hh, if_neg]
        simp only [Bool.not_eq_true] at hh
        exact ih (step a) (hstep a hP hh) (by have := hdec a hP hh; omega)

theorem iterFuel_halted {α : Type} (step : α → α) (halt : α → Bool)
    (f : Nat) (a : α) (h : halt a = true) : iterFuel step halt f a = a := by
  cases f with
  | zero => rfl
  | succ f => unfold iterFuel; simp [h]

theorem alLookup_mem {α β : Type} [DecidableEq α] {l : List (α × β)} {k : α}
    {v : β} (h : alLookup l k = some v) : (k, v) ∈ l := by
  induction l with
  | nil => simp [alLookup] at h
  | cons p rest ih =>
      obtain ⟨k', v'⟩ := p
      simp only [alLookup] at h
      by_cases hk : k = k'
      · subst hk; simp at h; subst h; exact List.mem_cons_self _ _
      · simp [hk] at h; exact List.mem_cons_of_mem _ (ih h)

theorem alLookup_eq_none {α β : Type} [DecidableEq α] {l : List (α × β)}
    {k : α} : alLookup l k = none ↔ k ∉ l.map Prod.fst := by
  induction l with
  | nil => simp [alLookup]
  | cons p rest ih =>
      obtain ⟨k', v'⟩ := p
      simp only [alLookup, List.map_cons, List.mem_cons]
      by_cases hk : k = k'
      · subst hk; simp
      · simp [hk, ih]

theorem alLookup_append {α β : Type} [DecidableEq α] (l₁ l₂ : List (α × β))
    (k : α) :
    alLookup (l₁ ++ l₂) k =
      match alLookup l₁ k with
      | some v => some v
      | none => alLookup l₂ k := by
  induction l₁ with
  | nil => simp [alLookup]
  | cons p rest ih =>
      obtain ⟨k', v'⟩ := p
      by_cases hk : k = k'
      · simp [alLookup, hk]
      · simp [alLookup, hk, ih]

/-- Modify the first entry with key `k` by `f` (no entry: unchanged; models
`HashMap::get_mut(&k).unwrap()` at call sites where the key is present). -/
def alModify {α β : Type} [DecidableEq α] (l : List (α × β)) (k : α)
    (f : β → β) : List (α × β) :=
  match l with
  | [] => []
  | (k', v) :: rest =>
      if k = k' then (k', f v) :: rest else (k', v) :: alModify rest k f

theorem alModify_map_fst {α β : Type} [DecidableEq α] (l : List (α × β))
    (k : α) (f : β → β) : (alModify l k f).map Prod.fst = l.map Prod.fst := by
  induction l with
  | nil => rfl
  | cons p rest ih =>
      obtain ⟨k', v'⟩ := p
      by_cases hk : k = k'
      · simp [alModify, hk]
      · simp [alModify, hk, ih]

theorem alLookup_alModify_self {α β : Type} [DecidableEq α] (l : List (α × β))
    (k : α) (f : β → β) :
    alLookup (alModify l k f) k = (alLookup l k).map f := by
  induction l with
  | nil => simp [alModify, alLookup]
  | cons p rest ih =>
      obtain ⟨k', v'⟩ := p
      by_cases hk : k = k'
      · subst hk; simp [alModify, alLookup]
      · simp [alModify, alLookup, hk, ih]

theorem alLookup_alModify_ne {α β : Type} [DecidableEq α] (l : List (α × β))
    {s k : α} (f : β → β) (h : s ≠ k) :
    alLookup (alModify l k f) s = alLookup l s := by
  induction l with
  | nil => simp [alModify]
  | cons p rest ih =>
      obtain ⟨k', v'⟩ := p
      by_cases hk : k = k'
      · subst hk
        simp [alModify, alLookup, h]
      · by_cases hs : s = k'
        · subst hs; simp [alModify, alLookup, hk]
        · simp [alModify, alLookup, hs, hk, ih]

/-- Insertion of `x` into a list kept in ascending order.  Used to iterate
`HashSet`/`BTreeSet` contents in ascending order with structurally recursive
(kernel-reducible) code. -/
def insSorted {α : Type} [LinearOrder α] (x : α) : List α → List α
  | [] => [x]
  | y :: ys => if x ≤ y then x :: y :: ys else y :: insSorted x ys

theorem insSorted_comm {α : Type} [LinearOrder α] (a b : α) (l : List α) :
    insSorted a (insSorted b l) = insSorted b (insSorted a l) := by
  induction l with
  | nil =>
      by_cases h1 : a ≤ b
      · by_cases h2 : b ≤ a
        · have heq : a = b := le_antisymm h1 h2
          subst heq
          rfl
        · simp [insSorted, h1, h2]
      · simp [insSorted, h1, le_of_not_le h1]
  | cons z zs ih =>
      by_cases haz : a ≤ z <;> by_cases hbz : b ≤ z
      · by_cases hab : a ≤ b
        · by_cases hba : b ≤ a
          · have heq : a = b := le_antisymm hab hba
            subst heq
            rfl
          · simp [insSorted, haz, hbz, hab, hba]
        · have hba : b ≤ a := le_of_not_le hab
          simp [insSorted, haz, hbz, hab, hba]
      · have hab : a ≤ b := le_trans haz (le_of_not_le hbz)
        have hba : ¬ b ≤ a := fun h => hbz (le_trans h haz)
        simp [insSorted, haz, hbz, hab, hba]
      · have hba : b ≤ a := le_trans hbz (le_of_not_le haz)
        have hab : ¬ a ≤ b := fun h => haz (le_trans h hbz)
        simp [insSorted, haz, hbz, hab, hba]
      · simp [insSorted, haz, hbz, ih]

instance {α : Type} [LinearOrder α] : LeftCommutative (insSorted (α := α)) :=
  ⟨fun a b l => insSorted_comm a b l⟩

theorem mem_insSorted {α : Type} [LinearOrder α] {a x : α} :
    ∀ {l : List α}, a ∈ insSorted x l ↔ a = x ∨ a ∈ l := by
  intro l
  induction l with
  | nil => simp [insSorted]
  | cons y ys ih =>
      by_cases h : x ≤ y
      · simp [insSorted, h]
      · simp only [insSorted, if_neg h, List.mem_cons, ih]
        tauto

theorem nodup_insSorted {α : Type} [LinearOrder α] (x : α) :
    ∀ (l : List α), l.Nodup → x ∉ l → (insSorted x l).Nodup := by
  intro l
  induction l with
  | nil => intro _ _; simp [insSorted]
  | cons y ys ih =>
      intro hnd hx
      rw [List.nodup_cons] at hnd
      by_cases h : x ≤ y
      · rw [show insSorted x (y :: ys) = x :: y :: ys by
          simp [insSorted, h]]
        rw [List.nodup_cons]
        exact ⟨hx, List.nodup_cons.mpr hnd⟩
      · rw [show insSorted x (y :: ys) = y :: insSorted x ys by
          simp [insSorted, h]]
        rw [List.nodup_cons]
        constructor
        · rw [mem_insSorted]
          rintro (heq | hmem)
          · exact hx (by rw [heq]; exact List.mem_cons_self _ _)
          · exact hnd.1 hmem
        · exact ih hnd.2 (fun hmem => hx (List.mem_cons_of_mem _ hmem))

/-- The elements of a finite set listed in ascending order (models sorted
iteration of a `BTreeSet`, and fixes an iteration order for `HashSet`s). -/
def finList {α : Type} [LinearOrder α] (s : Finset α) : List α :=
  Multiset.foldr insSorted [] s.val

theorem mem_foldr_insSorted {α : Type} [LinearOrder α] {a : α}
    (m : Multiset α) :
    a ∈ Multiset.foldr insSorted [] m ↔ a ∈ m := by
  induction m using Multiset.induction_on with
  | empty => simp
  | cons x t ih =>
      rw [Multiset.foldr_cons, mem_insSorted, ih]
      simp

theorem mem_finList {α : Type} [LinearOrder α] {s : Finset α} {a : α} :
    a ∈ finList s ↔ a ∈ s := by
  unfold finList
  rw [mem_foldr_insSorted]
  rfl

theorem finList_nodup {α : Type} [LinearOrder α] (s : Finset α) :
    (finList s).Nodup := by
  unfold finList
  have main : ∀ m : Multiset α, m.Nodup →
      (Multiset.foldr insSorted [] m).Nodup := by
    intro m
    induction m using Multiset.induction_on with
    | empty => intro _; simp
    | cons x t ih =>
        intro hnd
        rw [Multiset.nodup_cons] at hnd
        rw [Multiset.foldr_cons]
        refine nodup_insSorted x _ (ih hnd.2) ?_
        rw [mem_foldr_insSorted]
        exact hnd.1
  exact main s.val s.nodup

/-! ### Data model (`nfa/nfa.rs`, `dfa/dfa.rs`, `regex/ast.rs`) -/

/-- `TransitionLabel` from `nfa/nfa.rs`. -/
inductive TransitionLabel : Type
  | Char (c : Char)
  | Epsilon
deriving DecidableEq, Repr

/-- `NFA` from `nfa/nfa.rs`: start state, accept list and transition map
(state → ordered edge list). -/
structure NFA : Type where
  start : Nat
  accept : List Nat
  transitions : List (Nat × List (TransitionLabel × Nat))
deriving DecidableEq, Repr

/-- Edge list of a state (`nfa.transitions.get(&s)`, defaulting to no edges
where the Rust code skips an absent entry). -/
def NFA.edges (n : NFA) (s : Nat) : List (TransitionLabel × Nat) :=
  (alLookup n.transitions s).getD []

/-- `DFA` from `dfa/dfa.rs`. -/
structure DFA : Type where
  start : Nat
  accepts : Finset Nat
  transitions : List (Nat × List (Char × Nat))
deriving DecidableEq

/-- One deterministic step:
`self.transitions.get(&state).and_then(|m| m.get(&ch))`. -/
def DFA.stepD (d : DFA) (s : Nat) (c : Char) : Option Nat :=
  (alLookup d.transitions s).bind fun m => alLookup m c

/-- The loop body of `DFA::accepts`, walking from an arbitrary current
state. -/
def DFA.acceptsFrom (d : DFA) : Nat → List Char → Bool
  | s, [] => decide (s ∈ d.accepts)
  | s, c :: cs =>
      match d.stepD s c with
      | some next => d.acceptsFrom next cs
      | none => false

/-- `DFA::accepts` from `dfa/dfa.rs`: fold the transition map over the input
from the start state, rejecting at the first missing transition. -/
def DFA.acceptsInput (d : DFA) (input : List Char) : Bool :=
  d.acceptsFrom d.start input

/-- The state reached after consuming a string, when every symbol has a
transition (`none` when the walk falls off the transition map). -/
def DFA.runFrom (d : DFA) : Nat → List Char → Option Nat
  | s, [] => some s
  | s, c :: cs =>
      match d.stepD s c with
      | some next => d.runFrom next cs
      | none => none

theorem acceptsFrom_eq_runFrom (d : DFA) (s : Nat) (w : List Char) :
    d.acceptsFrom s w =
      match d.runFrom s w with
      | some t => decide (t ∈ d.accepts)
      | none => false := by
  induction w generalizing s with
  | nil => simp [DFA.acceptsFrom, DFA.runFrom]
  | cons c cs ih =>
      simp only [DFA.acceptsFrom, DFA.runFrom]
      cases d.stepD s c with
      | none => simp
      | some next => simpa using ih next

theorem runFrom_append (d : DFA) (s : Nat) (u v : List Char) :
    d.runFrom s (u ++ v) = (d.runFrom s u).bind fun t => d.runFrom t v := by
  induction u generalizing s with
  | nil => simp [DFA.runFrom]
  | cons c cs ih =>
      simp only [List.cons_append, DFA.runFrom]
      cases d.stepD s c with
      | none => simp
      | some next => simpa using ih next

/-- **C4.** `DFA::accepts` walks the transition map symbol by symbol from the
start state: (1) if some prefix leads to a state with no transition on the
next symbol, the whole input is rejected whatever the remaining symbols are;
(2) if every symbol has a transition, the result is exactly membership of the
final state in the accept set; (3) on the empty string the result is whether
the start state is accepting. -/
theorem C4_accepts_is_transition_fold :
    (∀ (d : DFA) (pre : List Char) (c : Char) (suf : List Char) (s : Nat),
        d.runFrom d.start pre = some s → d.stepD s c = none →
        d.acceptsInput (pre ++ c :: suf) = false) ∧
    (∀ (d : DFA) (w : List Char) (s : Nat),
        d.runFrom d.start w = some s →
        d.acceptsInput w = decide (s ∈ d.accepts)) ∧
    (∀ d : DFA, d.acceptsInput [] = decide (d.start ∈ d.accepts)) := by
  refine ⟨?_, ?_, ?_⟩
  · intro d pre c suf s hrun hstep
    unfold DFA.acceptsInput
    rw [acceptsFrom_eq_runFrom, runFrom_append, hrun]
    simp [DFA.runFrom, hstep]
  · intro d w s hrun
    unfold DFA.acceptsInput
    rw [acceptsFrom_eq_runFrom, hrun]
  · intro d
    simp [DFA.acceptsInput, DFA.acceptsFrom]

/-- Concrete DFA accepting exactly `"a"`: used to instantiate hypotheses of
theorems about `DFA::accepts` and minimization. -/
def dfaJustA : DFA := ⟨0, {1}, [(0, [('a', 1)]), (1, [])]⟩

theorem C4_accepts_is_transition_fold_witness :
    dfaJustA.acceptsInput ['a', 'b', 'c'] = false ∧
    dfaJustA.acceptsInput ['a'] = true ∧
    dfaJustA.acceptsInput [] = false := by
  refine ⟨?_, ?_, ?_⟩
  · exact C4_accepts_is_transition_fold.1 dfaJustA ['a'] 'b' ['c'] 1
      (by decide) (by decide)
  · have h := C4_accepts_is_transition_fold.2.1 dfaJustA ['a'] 1 (by decide)
    simpa using h
  · have h := C4_accepts_is_transition_fold.2.2 dfaJustA
    simpa using h

/-! ### Thompson construction (`regex/ast.rs`, `nfa/thompson.rs`) -/

/-- `RegexAST` from `regex/ast.rs`. -/
inductive RegexAST : Type
  | Char (c : Char)
  | Concat (a b : RegexAST)
  | Union (a b : RegexAST)
  | Star (a : RegexAST)
deriving DecidableEq, Repr

/-- `Fragment` from `nfa/thompson.rs`: a sub-automaton with one start and one
accept state. -/
structure Fragment : Type where
  start : Nat
  accept : Nat
deriving DecidableEq, Repr

/-- `NFA::new`. -/
def NFA.new : NFA := ⟨0, [], []⟩

/-- `NFA::add_state`: the fresh id is the current size of the transition
map. -/
def NFA.add_state (n : NFA) : Nat × NFA :=
  let id := n.transitions.length
  (id, { n with transitions := n.transitions ++ [(id, [])] })

/-- `NFA::add_edge` (the Rust code unwraps the entry for `src`; the builder
only ever passes already-allocated states, so the entry is present). -/
def NFA.add_edge (n : NFA) (src : Nat) (lab : TransitionLabel) (dst : Nat) :
    NFA :=
  { n with transitions := alModify n.transitions src (fun es => es ++ [(lab, dst)]) }

/-- `Thompson::add_epsilon`. -/
def Thompson.add_epsilon (n : NFA) (src dst : Nat) : NFA :=
  n.add_edge src TransitionLabel.Epsilon dst

/-- `Thompson::add_char`. -/
def Thompson.add_char (n : NFA) (src : Nat) (c : Char) (dst : Nat) : NFA :=
  n.add_edge src (TransitionLabel.Char c) dst

/-- `Thompson::char_frag`. -/
def Thompson.char_frag (c : Char) (nfa : NFA) : Fragment × NFA :=
  let p1 := nfa.add_state
  let p2 := p1.2.add_state
  (⟨p1.1, p2.1⟩, Thompson.add_char p2.2 p1.1 c p2.1)

/-- `Thompson::build`: recursively compile an AST node into a fragment,
threading the growing automaton. -/
def Thompson.build : RegexAST → NFA → Fragment × NFA
  | .Char c, nfa => Thompson.char_frag c nfa
  | .Concat a b, nfa =>
      let pl := Thompson.build a nfa
      let pr := Thompson.build b pl.2
      let nfa' := Thompson.add_epsilon pr.2 pl.1.accept pr.1.start
      (⟨pl.1.start, pr.1.accept⟩, nfa')
  | .Union a b, nfa =>
      let pl := Thompson.build a nfa
      let pr := Thompson.build b pl.2
      let ps := pr.2.add_state
      let pt := ps.2.add_state
      let n1 := Thompson.add_epsilon pt.2 ps.1 pl.1.start
      let n2 := Thompson.add_epsilon n1 ps.1 pr.1.start
      let n3 := Thompson.add_epsilon n2 pl.1.accept pt.1
      let n4 := Thompson.add_epsilon n3 pr.1.accept pt.1
      (⟨ps.1, pt.1⟩, n4)
  | .Star a, nfa =>
      let pi := Thompson.build a nfa
      let ps := pi.2.add_state
      let pt := ps.2.add_state
      let n1 := Thompson.add_epsilon pt.2 ps.1 pi.1.start
      let n2 := Thompson.add_epsilon n1 pi.1.accept pi.1.start
      let n3 := Thompson.add_epsilon n2 ps.1 pt.1
      let n4 := Thompson.add_epsilon n3 pi.1.accept pt.1
      (⟨ps.1, pt.1⟩, n4)

/-- `Thompson::from_ast` / `enfa_from_ast`: compile the root fragment and
record its endpoints as the automaton's start/accept. -/
def enfa_from_ast (ast : RegexAST) : NFA :=
  let p := Thompson.build ast NFA.new
  { p.2 with start := p.1.start, accept := [p.1.accept] }

/-- Well-formedness of the builder-owned automaton: the transition map's keys
are exactly `0 .. len-1` in allocation order, and every edge targets an
allocated state.  Holds for `NFA::new` and is preserved by the builder. -/
def BuilderWF (σ : NFA) : Prop :=
  σ.transitions.map Prod.fst = List.range σ.transitions.length ∧
  ∀ s, ∀ e ∈ σ.edges s, e.2 < σ.transitions.length

theorem edges_of_ge (σ : NFA) (h : BuilderWF σ) (s : Nat)
    (hs : σ.transitions.length ≤ s) : σ.edges s = [] := by
  unfold NFA.edges
  have : alLookup σ.transitions s = none := by
    rw [alLookup_eq_none, h.1, List.mem_range]
    omega
  simp [this]

theorem add_state_spec (σ : NFA) (h : BuilderWF σ) :
    BuilderWF (σ.add_state).2 ∧
    (σ.add_state).1 = σ.transitions.length ∧
    (σ.add_state).2.transitions.length = σ.transitions.length + 1 ∧
    (∀ s, (σ.add_state).2.edges s = σ.edges s) := by
  have hedges : ∀ s, (σ.add_state).2.edges s = σ.edges s := by
    intro s
    unfold NFA.add_state NFA.edges
    simp only
    rw [alLookup_append]
    cases hl : alLookup σ.transitions s with
    | some es => simp
    | none =>
        simp only
        have hs : σ.transitions.length ≤ s := by
          rw [alLookup_eq_none, h.1, List.mem_range] at hl
          omega
        by_cases hse : s = σ.transitions.length
        · subst hse; simp [alLookup]
        · simp [alLookup, hse]
  refine ⟨⟨?_, ?_⟩, rfl, by simp [NFA.add_state], hedges⟩
  · show (σ.transitions ++ [(σ.transitions.length, [])]).map Prod.fst =
      List.range (σ.transitions ++ [(σ.transitions.length, [])]).length
    rw [List.map_append, h.1]
    simp [List.range_succ]
  · intro s e he
    rw [hedges s] at he
    have := h.2 s e he
    simp only [NFA.add_state, List.length_append, List.length_singleton]
    omega

theorem add_edge_spec (σ : NFA) (src : Nat) (lab : TransitionLabel)
    (dst : Nat) (h : BuilderWF σ) (hsrc : src < σ.transitions.length)
    (hdst : dst < σ.transitions.length) :
    BuilderWF (σ.add_edge src lab dst) ∧
    (σ.add_edge src lab dst).transitions.length = σ.transitions.length ∧
    (∀ s, (σ.add_edge src lab dst).edges s =
      if s = src then σ.edges src ++ [(lab, dst)] else σ.edges s) := by
  have hlen : (σ.add_edge src lab dst).transitions.length =
      σ.transitions.length := by
    unfold NFA.add_edge
    have := alModify_map_fst σ.transitions src (fun es => es ++ [(lab, dst)])
    calc (alModify σ.transitions src _).length
        = ((alModify σ.transitions src _).map Prod.fst).length := by
          rw [List.length_map]
      _ = (σ.transitions.map Prod.fst).length := by rw [this]
      _ = σ.transitions.length := by rw [List.length_map]
  have hsome : ∃ es, alLookup σ.transitions src = some es := by
    cases hl : alLookup σ.transitions src with
    | some es => exact ⟨es, rfl⟩
    | none =>
        rw [alLookup_eq_none, h.1, List.mem_range] at hl
        omega
  have hedges : ∀ s, (σ.add_edge src lab dst).edges s =
      if s = src then σ.edges src ++ [(lab, dst)] else σ.edges s := by
    intro s
    unfold NFA.add_edge NFA.edges
    simp only
    by_cases hs : s = src
    · subst hs
      rw [alLookup_alModify_self]
      obtain ⟨es, hes⟩ := hsome
      simp [hes]
    · rw [alLookup_alModify_ne _ _ hs]
      simp [hs]
  refine ⟨⟨?_, ?_⟩, hlen, hedges⟩
  · show (alModify σ.transitions src _).map Prod.fst =
      List.range (alModify σ.transitions src _).length
    rw [alModify_map_fst, h.1]
    congr 1
    have := hlen
    unfold NFA.add_edge at this
    simp only at this
    omega
  · intro s e he
    rw [hedges s] at he
    rw [hlen]
    by_cases hs : s = src
    · rw [if_pos hs] at he
      rcases List.mem_append.mp he with h1 | h2
      · exact h.2 src e h1
      · simp at h2; subst h2; exact hdst
    · rw [if_neg hs] at he
      exact h.2 s e he

/-- The dangling-pair invariant of `Thompson::build`, stated over the calling
state `σ` and the returned fragment/state `frag, σ'`: the fragment's states
are the freshly allocated ones, its accept state has no outgoing edge, its
start state has no incoming edge, already-built states are untouched, and
edges of fresh states stay inside the fragment. -/
structure BuildSpec (σ : NFA) (frag : Fragment) (σ' : NFA) : Prop where
  wf : BuilderWF σ'
  mono : σ.transitions.length ≤ σ'.transitions.length
  old_unchanged : ∀ s, s < σ.transitions.length → σ'.edges s = σ.edges s
  new_targets : ∀ s e, e ∈ σ'.edges s → σ.transitions.length ≤ s →
    σ.transitions.length ≤ e.2
  start_lb : σ.transitions.length ≤ frag.start
  start_ub : frag.start < σ'.transitions.length
  accept_lb : σ.transitions.length ≤ frag.accept
  accept_ub : frag.accept < σ'.transitions.length
  start_ne_accept : frag.start ≠ frag.accept
  accept_no_out : σ'.edges frag.accept = []
  start_no_in : ∀ s e, e ∈ σ'.edges s → e.2 ≠ frag.start

theorem buildSpec_concat {σ σ1 σ2 : NFA} {fl fr : Fragment}
    (S1 : BuildSpec σ fl σ1) (S2 : BuildSpec σ1 fr σ2) :
    BuildSpec σ ⟨fl.start, fr.accept⟩
      (Thompson.add_epsilon σ2 fl.accept fr.start) := by
  obtain ⟨wfE, lenE, edgesE⟩ := add_edge_spec σ2 fl.accept
    TransitionLabel.Epsilon fr.start S2.wf
    (lt_of_lt_of_le S1.accept_ub S2.mono) S2.start_ub
  have hAE : Thompson.add_epsilon σ2 fl.accept fr.start =
      σ2.add_edge fl.accept TransitionLabel.Epsilon fr.start := rfl
  rw [← hAE] at wfE lenE edgesE
  have hacc2 : σ2.edges fl.accept = [] := by
    rw [S2.old_unchanged _ S1.accept_ub]; exact S1.accept_no_out
  refine ⟨wfE, ?_, ?_, ?_, S1.start_lb, ?_, ?_, ?_, ?_, ?_, ?_⟩
  · rw [lenE]
    exact le_trans S1.mono S2.mono
  · intro s hs
    rw [edgesE s, if_neg (show ¬ s = fl.accept by
        have := S1.accept_lb; omega),
      S2.old_unchanged s (lt_of_lt_of_le hs S1.mono), S1.old_unchanged s hs]
  · intro s e he hs
    rw [edgesE s] at he
    by_cases hsa : s = fl.accept
    · rw [if_pos hsa, hacc2] at he
      simp at he
      subst he
      exact le_trans S1.mono S2.start_lb
    · rw [if_neg hsa] at he
      by_cases hs1 : σ1.transitions.length ≤ s
      · exact le_trans S1.mono (S2.new_targets s e he hs1)
      · rw [S2.old_unchanged s (by omega)] at he
        exact S1.new_targets s e he hs
  · show fl.start < _
    rw [lenE]
    exact lt_of_lt_of_le S1.start_ub S2.mono
  · exact le_trans S1.mono S2.accept_lb
  · show fr.accept < _
    rw [lenE]
    exact S2.accept_ub
  · show fl.start ≠ fr.accept
    have := S1.start_ub
    have := S2.accept_lb
    omega
  · show (Thompson.add_epsilon σ2 fl.accept fr.start).edges fr.accept = []
    rw [edgesE, if_neg (show ¬ fr.accept = fl.accept by
      have := S1.accept_ub
      have := S2.accept_lb
      omega)]
    exact S2.accept_no_out
  · intro s e he
    show e.2 ≠ fl.start
    rw [edgesE s] at he
    by_cases hsa : s = fl.accept
    · rw [if_pos hsa, hacc2] at he
      simp at he
      subst he
      show fr.start ≠ fl.start
      have := S1.start_ub
      have := S2.start_lb
      omega
    · rw [if_neg hsa] at he
      by_cases hs1 : σ1.transitions.length ≤ s
      · have := S2.new_targets s e he hs1
        have := S1.start_ub
        omega
      · rw [S2.old_unchanged s (by omega)] at he
        exact S1.start_no_in s e he

theorem buildSpec_union {σ σ1 σ2 : NFA} {fl fr : Fragment}
    (S1 : BuildSpec σ fl σ1) (S2 : BuildSpec σ1 fr σ2) :
    BuildSpec σ ⟨(σ2.add_state).1, ((σ2.add_state).2.add_state).1⟩
      (Thompson.add_epsilon
        (Thompson.add_epsilon
          (Thompson.add_epsilon
            (Thompson.add_epsilon ((σ2.add_state).2.add_state).2
              (σ2.add_state).1 fl.start)
            (σ2.add_state).1 fr.start)
          fl.accept ((σ2.add_state).2.add_state).1)
        fr.accept ((σ2.add_state).2.add_state).1) := by
  have hn01 : σ.transitions.length ≤ σ1.transitions.length := S1.mono
  have hn12 : σ1.transitions.length ≤ σ2.transitions.length := S2.mono
  obtain ⟨wfA, -, hlenA, hedA⟩ := add_state_spec σ2 S2.wf
  obtain ⟨wfB, -, hlenB0, hedB0⟩ := add_state_spec (σ2.add_state).2 wfA
  have his : (σ2.add_state).1 = σ2.transitions.length := rfl
  have hit : ((σ2.add_state).2.add_state).1 =
      σ2.transitions.length + 1 := by
    show (σ2.add_state).2.transitions.length = _
    rw [hlenA]
  have hlenB : ((σ2.add_state).2.add_state).2.transitions.length =
      σ2.transitions.length + 2 := by rw [hlenB0, hlenA]
  have hedB : ∀ s, ((σ2.add_state).2.add_state).2.edges s = σ2.edges s := by
    intro s; rw [hedB0, hedA]
  -- distinctness and bound facts
  have hfla : fl.accept < σ1.transitions.length := S1.accept_ub
  have hfra1 : σ1.transitions.length ≤ fr.accept := S2.accept_lb
  have hfra2 : fr.accept < σ2.transitions.length := S2.accept_ub
  have hfls : fl.start < σ1.transitions.length := S1.start_ub
  have hfrs1 : σ1.transitions.length ≤ fr.start := S2.start_lb
  have hfrs2 : fr.start < σ2.transitions.length := S2.start_ub
  -- the four add_edge applications
  obtain ⟨wf1, len1, ed1⟩ := add_edge_spec ((σ2.add_state).2.add_state).2
    (σ2.add_state).1 TransitionLabel.Epsilon fl.start wfB
    (by rw [hlenB, his]; omega) (by rw [hlenB]; omega)
  obtain ⟨wf2, len2, ed2⟩ := add_edge_spec _
    (σ2.add_state).1 TransitionLabel.Epsilon fr.start wf1
    (by rw [len1, hlenB, his]; omega) (by rw [len1, hlenB]; omega)
  obtain ⟨wf3, len3, ed3⟩ := add_edge_spec _
    fl.accept TransitionLabel.Epsilon ((σ2.add_state).2.add_state).1 wf2
    (by rw [len2, len1, hlenB]; omega)
    (by rw [len2, len1, hlenB, hit]; omega)
  obtain ⟨wf4, len4, ed4⟩ := add_edge_spec _
    fr.accept TransitionLabel.Epsilon ((σ2.add_state).2.add_state).1 wf3
    (by rw [len3, len2, len1, hlenB]; omega)
    (by rw [len3, len2, len1, hlenB, hit]; omega)
  have hlenF : (Thompson.add_epsilon
      (Thompson.add_epsilon
        (Thompson.add_epsilon
          (Thompson.add_epsilon ((σ2.add_state).2.add_state).2
            (σ2.add_state).1 fl.start)
          (σ2.add_state).1 fr.start)
        fl.accept ((σ2.add_state).2.add_state).1)
      fr.accept
      ((σ2.add_state).2.add_state).1).transitions.length =
      σ2.transitions.length + 2 := by
    simp only [Thompson.add_epsilon]
    rw [len4, len3, len2, len1, hlenB]
  -- base edge-list facts
  have hemp_is : σ2.edges (σ2.add_state).1 = [] :=
    edges_of_ge σ2 S2.wf _ (le_of_eq his.symm)
  have hemp_fla : σ2.edges fl.accept = [] := by
    rw [S2.old_unchanged _ S1.accept_ub]; exact S1.accept_no_out
  have hemp_fra : σ2.edges fr.accept = [] := S2.accept_no_out
  -- composite edges characterisation
  have hedges : ∀ s,
      (Thompson.add_epsilon
        (Thompson.add_epsilon
          (Thompson.add_epsilon
            (Thompson.add_epsilon ((σ2.add_state).2.add_state).2
              (σ2.add_state).1 fl.start)
            (σ2.add_state).1 fr.start)
          fl.accept ((σ2.add_state).2.add_state).1)
        fr.accept ((σ2.add_state).2.add_state).1).edges s =
      if s = (σ2.add_state).1 then
        [(TransitionLabel.Epsilon, fl.start), (TransitionLabel.Epsilon, fr.start)]
      else if s = fl.accept then
        [(TransitionLabel.Epsilon, ((σ2.add_state).2.add_state).1)]
      else if s = fr.accept then
        [(TransitionLabel.Epsilon, ((σ2.add_state).2.add_state).1)]
      else σ2.edges s := by
    intro s
    simp only [Thompson.add_epsilon]
    by_cases h1 : s = (σ2.add_state).1
    · rw [if_pos h1]
      rw [ed4 s, if_neg (show ¬ s = fr.accept by rw [h1, his]; omega),
        ed3 s, if_neg (show ¬ s = fl.accept by rw [h1, his]; omega),
        ed2 s, if_pos h1, ed1 ((σ2.add_state).1), if_pos rfl, hedB, hemp_is]
      simp
    · rw [if_neg h1]
      by_cases h2 : s = fl.accept
      · rw [if_pos h2]
        rw [ed4 s, if_neg (show ¬ s = fr.accept by rw [h2]; omega),
          ed3 s, if_pos h2, ed2 fl.accept,
          if_neg (show ¬ fl.accept = (σ2.add_state).1 by rw [his]; omega),
          ed1 fl.accept,
          if_neg (show ¬ fl.accept = (σ2.add_state).1 by rw [his]; omega),
          hedB, hemp_fla]
        simp
      · rw [if_neg h2]
        by_cases h3 : s = fr.accept
        · rw [if_pos h3]
          rw [ed4 s, if_pos h3, ed3 fr.accept,
            if_neg (show ¬ fr.accept = fl.accept by omega),
            ed2 fr.accept,
            if_neg (show ¬ fr.accept = (σ2.add_state).1 by rw [his]; omega),
            ed1 fr.accept,
            if_neg (show ¬ fr.accept = (σ2.add_state).1 by rw [his]; omega),
            hedB, hemp_fra]
          simp
        · rw [if_neg h3]
          rw [ed4 s, if_neg h3, ed3 s, if_neg h2, ed2 s, if_neg h1, ed1 s,
            if_neg h1, hedB]
  refine ⟨wf4, ?_, ?_, ?_, ?_, ?_, ?_, ?_, ?_, ?_, ?_⟩
  · rw [hlenF]; omega
  · intro s hs
    have hfla0 := S1.accept_lb
    have c1 : ¬ s = (σ2.add_state).1 := by rw [his]; omega
    have c2 : ¬ s = fl.accept := by omega
    have c3 : ¬ s = fr.accept := by omega
    rw [hedges s, if_neg c1, if_neg c2, if_neg c3,
      S2.old_unchanged s (by omega), S1.old_unchanged s hs]
  · intro s e he hs
    rw [hedges s] at he
    by_cases h1 : s = (σ2.add_state).1
    · rw [if_pos h1] at he
      simp at he
      rcases he with he | he
      · rw [he]; exact S1.start_lb
      · rw [he]; show σ.transitions.length ≤ fr.start; omega
    · rw [if_neg h1] at he
      by_cases h2 : s = fl.accept
      · rw [if_pos h2] at he
        simp at he
        rw [he]
        show σ.transitions.length ≤ ((σ2.add_state).2.add_state).1
        rw [hit]; omega
      · rw [if_neg h2] at he
        by_cases h3 : s = fr.accept
        · rw [if_pos h3] at he
          simp at he
          rw [he]
          show σ.transitions.length ≤ ((σ2.add_state).2.add_state).1
          rw [hit]; omega
        · rw [if_neg h3] at he
          by_cases hs1 : σ1.transitions.length ≤ s
          · exact le_trans hn01 (S2.new_targets s e he hs1)
          · rw [S2.old_unchanged s (by omega)] at he
            exact S1.new_targets s e he hs
  · show σ.transitions.length ≤ (σ2.add_state).1
    rw [his]; omega
  · show (σ2.add_state).1 < _
    rw [hlenF, his]; omega
  · show σ.transitions.length ≤ ((σ2.add_state).2.add_state).1
    rw [hit]; omega
  · show ((σ2.add_state).2.add_state).1 < _
    rw [hlenF, hit]; omega
  · show (σ2.add_state).1 ≠ ((σ2.add_state).2.add_state).1
    rw [his, hit]; omega
  · have c1 : ¬ ((σ2.add_state).2.add_state).1 = (σ2.add_state).1 := by
      rw [hit, his]; omega
    have c2 : ¬ ((σ2.add_state).2.add_state).1 = fl.accept := by
      rw [hit]; omega
    have c3 : ¬ ((σ2.add_state).2.add_state).1 = fr.accept := by
      rw [hit]; omega
    rw [hedges, if_neg c1, if_neg c2, if_neg c3]
    exact edges_of_ge σ2 S2.wf ((σ2.add_state).2.add_state).1
      (by rw [hit]; omega)
  · intro s e he
    show e.2 ≠ (σ2.add_state).1
    rw [hedges s] at he
    by_cases h1 : s = (σ2.add_state).1
    · rw [if_pos h1] at he
      simp at he
      rcases he with he | he
      · rw [he]; show fl.start ≠ (σ2.add_state).1; rw [his]; omega
      · rw [he]; show fr.start ≠ (σ2.add_state).1; rw [his]; omega
    · rw [if_neg h1] at he
      by_cases h2 : s = fl.accept
      · rw [if_pos h2] at he
        simp at he
        rw [he]
        show ((σ2.add_state).2.add_state).1 ≠ (σ2.add_state).1
        rw [hit, his]; omega
      · rw [if_neg h2] at he
        by_cases h3 : s = fr.accept
        · rw [if_pos h3] at he
          simp at he
          rw [he]
          show ((σ2.add_state).2.add_state).1 ≠ (σ2.add_state).1
          rw [hit, his]; omega
        · rw [if_neg h3] at he
          have := S2.wf.2 s e he
          rw [his]; omega

theorem buildSpec_star {σ σ1 : NFA} {fi : Fragment}
    (S1 : BuildSpec σ fi σ1) :
    BuildSpec σ ⟨(σ1.add_state).1, ((σ1.add_state).2.add_state).1⟩
      (Thompson.add_epsilon
        (Thompson.add_epsilon
          (Thompson.add_epsilon
            (Thompson.add_epsilon ((σ1.add_state).2.add_state).2
              (σ1.add_state).1 fi.start)
            fi.accept fi.start)
          (σ1.add_state).1 ((σ1.add_state).2.add_state).1)
        fi.accept ((σ1.add_state).2.add_state).1) := by
  have hn01 : σ.transitions.length ≤ σ1.transitions.length := S1.mono
  obtain ⟨wfA, -, hlenA, hedA⟩ := add_state_spec σ1 S1.wf
  obtain ⟨wfB, -, hlenB0, hedB0⟩ := add_state_spec (σ1.add_state).2 wfA
  have his : (σ1.add_state).1 = σ1.transitions.length := rfl
  have hit : ((σ1.add_state).2.add_state).1 = σ1.transitions.length + 1 := by
    show (σ1.add_state).2.transitions.length = _
    rw [hlenA]
  have hlenB : ((σ1.add_state).2.add_state).2.transitions.length =
      σ1.transitions.length + 2 := by rw [hlenB0, hlenA]
  have hedB : ∀ s, ((σ1.add_state).2.add_state).2.edges s = σ1.edges s := by
    intro s; rw [hedB0, hedA]
  have hfia : fi.accept < σ1.transitions.length := S1.accept_ub
  have hfis : fi.start < σ1.transitions.length := S1.start_ub
  obtain ⟨wf1, len1, ed1⟩ := add_edge_spec ((σ1.add_state).2.add_state).2
    (σ1.add_state).1 TransitionLabel.Epsilon fi.start wfB
    (by rw [hlenB, his]; omega) (by rw [hlenB]; omega)
  obtain ⟨wf2, len2, ed2⟩ := add_edge_spec _
    fi.accept TransitionLabel.Epsilon fi.start wf1
    (by rw [len1, hlenB]; omega) (by rw [len1, hlenB]; omega)
  obtain ⟨wf3, len3, ed3⟩ := add_edge_spec _
    (σ1.add_state).1 TransitionLabel.Epsilon ((σ1.add_state).2.add_state).1 wf2
    (by rw [len2, len1, hlenB, his]; omega)
    (by rw [len2, len1, hlenB, hit]; omega)
  obtain ⟨wf4, len4, ed4⟩ := add_edge_spec _
    fi.accept TransitionLabel.Epsilon ((σ1.add_state).2.add_state).1 wf3
    (by rw [len3, len2, len1, hlenB]; omega)
    (by rw [len3, len2, len1, hlenB, hit]; omega)
  have hlenF : (Thompson.add_epsilon
      (Thompson.add_epsilon
        (Thompson.add_epsilon
          (Thompson.add_epsilon ((σ1.add_state).2.add_state).2
            (σ1.add_state).1 fi.start)
          fi.accept fi.start)
        (σ1.add_state).1 ((σ1.add_state).2.add_state).1)
      fi.accept
      ((σ1.add_state).2.add_state).1).transitions.length =
      σ1.transitions.length + 2 := by
    simp only [Thompson.add_epsilon]
    rw [len4, len3, len2, len1, hlenB]
  have hemp_is : σ1.edges (σ1.add_state).1 = [] :=
    edges_of_ge σ1 S1.wf _ (le_of_eq his.symm)
  have hemp_fia : σ1.edges fi.accept = [] := S1.accept_no_out
  have hedges : ∀ s,
      (Thompson.add_epsilon
        (Thompson.add_epsilon
          (Thompson.add_epsilon
            (Thompson.add_epsilon ((σ1.add_state).2.add_state).2
              (σ1.add_state).1 fi.start)
            fi.accept fi.start)
          (σ1.add_state).1 ((σ1.add_state).2.add_state).1)
        fi.accept ((σ1.add_state).2.add_state).1).edges s =
      if s = (σ1.add_state).1 then
        [(TransitionLabel.Epsilon, fi.start),
         (TransitionLabel.Epsilon, ((σ1.add_state).2.add_state).1)]
      else if s = fi.accept then
        [(TransitionLabel.Epsilon, fi.start),
         (TransitionLabel.Epsilon, ((σ1.add_state).2.add_state).1)]
      else σ1.edges s := by
    intro s
    simp only [Thompson.add_epsilon]
    by_cases h1 : s = (σ1.add_state).1
    · rw [if_pos h1]
      rw [ed4 s, if_neg (show ¬ s = fi.accept by rw [h1, his]; omega),
        ed3 s, if_pos h1, ed2 ((σ1.add_state).1),
        if_neg (show ¬ (σ1.add_state).1 = fi.accept by rw [his]; omega),
        ed1 ((σ1.add_state).1), if_pos rfl, hedB, hemp_is]
      simp
    · rw [if_neg h1]
      by_cases h2 : s = fi.accept
      · rw [if_pos h2]
        rw [ed4 s, if_pos h2, ed3 fi.accept,
          if_neg (show ¬ fi.accept = (σ1.add_state).1 by rw [his]; omega),
          ed2 fi.accept, if_pos rfl, ed1 fi.accept,
          if_neg (show ¬ fi.accept = (σ1.add_state).1 by rw [his]; omega),
          hedB, hemp_fia]
        simp
      · rw [if_neg h2]
        rw [ed4 s, if_neg h2, ed3 s, if_neg h1, ed2 s, if_neg h2, ed1 s,
          if_neg h1, hedB]
  refine ⟨wf4, ?_, ?_, ?_, ?_, ?_, ?_, ?_, ?_, ?_, ?_⟩
  · rw [hlenF]; omega
  · intro s hs
    have hfia0 := S1.accept_lb
    have c1 : ¬ s = (σ1.add_state).1 := by rw [his]; omega
    have c2 : ¬ s = fi.accept := by omega
    rw [hedges s, if_neg c1, if_neg c2, S1.old_unchanged s hs]
  · intro s e he hs
    rw [hedges s] at he
    by_cases h1 : s = (σ1.add_state).1
    · rw [if_pos h1] at he
      simp at he
      rcases he with he | he
      · rw [he]; exact S1.start_lb
      · rw [he]
        show σ.transitions.length ≤ ((σ1.add_state).2.add_state).1
        rw [hit]; omega
    · rw [if_neg h1] at he
      by_cases h2 : s = fi.accept
      · rw [if_pos h2] at he
        simp at he
        rcases he with he | he
        · rw [he]; exact S1.start_lb
        · rw [he]
          show σ.transitions.length ≤ ((σ1.add_state).2.add_state).1
          rw [hit]; omega
      · rw [if_neg h2] at he
        exact S1.new_targets s e he hs
  · show σ.transitions.length ≤ (σ1.add_state).1
    rw [his]; omega
  · show (σ1.add_state).1 < _
    rw [hlenF, his]; omega
  · show σ.transitions.length ≤ ((σ1.add_state).2.add_state).1
    rw [hit]; omega
  · show ((σ1.add_state).2.add_state).1 < _
    rw [hlenF, hit]; omega
  · show (σ1.add_state).1 ≠ ((σ1.add_state).2.add_state).1
    rw [his, hit]; omega
  · have c1 : ¬ ((σ1.add_state).2.add_state).1 = (σ1.add_state).1 := by
      rw [hit, his]; omega
    have c2 : ¬ ((σ1.add_state).2.add_state).1 = fi.accept := by
      rw [hit]; omega
    rw [hedges, if_neg c1, if_neg c2]
    exact edges_of_ge σ1 S1.wf ((σ1.add_state).2.add_state).1
      (by rw [hit]; omega)
  · intro s e he
    show e.2 ≠ (σ1.add_state).1
    rw [hedges s] at he
    by_cases h1 : s = (σ1.add_state).1
    · rw [if_pos h1] at he
      simp at he
      rcases he with he | he
      · rw [he]; show fi.start ≠ (σ1.add_state).1; rw [his]; omega
      · rw [he]
        show ((σ1.add_state).2.add_state).1 ≠ (σ1.add_state).1
        rw [hit, his]; omega
    · rw [if_neg h1] at he
      by_cases h2 : s = fi.accept
      · rw [if_pos h2] at he
        simp at he
        rcases he with he | he
        · rw [he]; show fi.start ≠ (σ1.add_state).1; rw [his]; omega
        · rw [he]
          show ((σ1.add_state).2.add_state).1 ≠ (σ1.add_state).1
          rw [hit, his]; omega
      · rw [if_neg h2] at he
        have := S1.wf.2 s e he
        rw [his]; omega

theorem buildSpec_char (c : Char) (σ : NFA) (h : BuilderWF σ) :
    BuildSpec σ ⟨(σ.add_state).1, ((σ.add_state).2.add_state).1⟩
      (Thompson.add_char ((σ.add_state).2.add_state).2 (σ.add_state).1 c
        ((σ.add_state).2.add_state).1) := by
  obtain ⟨wfA, -, hlenA, hedA⟩ := add_state_spec σ h
  obtain ⟨wfB, -, hlenB0, hedB0⟩ := add_state_spec (σ.add_state).2 wfA
  have his : (σ.add_state).1 = σ.transitions.length := rfl
  have hit : ((σ.add_state).2.add_state).1 = σ.transitions.length + 1 := by
    show (σ.add_state).2.transitions.length = _
    rw [hlenA]
  have hlenB : ((σ.add_state).2.add_state).2.transitions.length =
      σ.transitions.length + 2 := by rw [hlenB0, hlenA]
  have hedB : ∀ s, ((σ.add_state).2.add_state).2.edges s = σ.edges s := by
    intro s; rw [hedB0, hedA]
  obtain ⟨wf1, len1, ed1⟩ := add_edge_spec ((σ.add_state).2.add_state).2
    (σ.add_state).1 (TransitionLabel.Char c) ((σ.add_state).2.add_state).1 wfB
    (by rw [hlenB, his]; omega) (by rw [hlenB, hit]; omega)
  have hemp_is : σ.edges (σ.add_state).1 = [] :=
    edges_of_ge σ h _ (le_of_eq his.symm)
  have hedges : ∀ s,
      (Thompson.add_char ((σ.add_state).2.add_state).2 (σ.add_state).1 c
        ((σ.add_state).2.add_state).1).edges s =
      if s = (σ.add_state).1 then
        [(TransitionLabel.Char c, ((σ.add_state).2.add_state).1)]
      else σ.edges s := by
    intro s
    simp only [Thompson.add_char]
    by_cases h1 : s = (σ.add_state).1
    · rw [if_pos h1, ed1 s, if_pos h1, hedB, hemp_is]; simp
    · rw [if_neg h1, ed1 s, if_neg h1, hedB]
  have hlenF : (Thompson.add_char ((σ.add_state).2.add_state).2
      (σ.add_state).1 c ((σ.add_state).2.add_state).1).transitions.length =
      σ.transitions.length + 2 := by
    simp only [Thompson.add_char]
    rw [len1, hlenB]
  refine ⟨wf1, ?_, ?_, ?_, ?_, ?_, ?_, ?_, ?_, ?_, ?_⟩
  · rw [hlenF]; omega
  · intro s hs
    rw [hedges s, if_neg (show ¬ s = (σ.add_state).1 by rw [his]; omega)]
  · intro s e he hs
    rw [hedges s] at he
    by_cases h1 : s = (σ.add_state).1
    · rw [if_pos h1] at he
      simp at he
      rw [he]
      show σ.transitions.length ≤ ((σ.add_state).2.add_state).1
      rw [hit]; omega
    · rw [if_neg h1] at he
      rw [edges_of_ge σ h s hs] at he
      cases he
  · show σ.transitions.length ≤ (σ.add_state).1
    rw [his]
  · show (σ.add_state).1 < _
    rw [hlenF, his]; omega
  · show σ.transitions.length ≤ ((σ.add_state).2.add_state).1
    rw [hit]; omega
  · show ((σ.add_state).2.add_state).1 < _
    rw [hlenF, hit]; omega
  · show (σ.add_state).1 ≠ ((σ.add_state).2.add_state).1
    rw [his, hit]; omega
  · rw [hedges, if_neg (show ¬ ((σ.add_state).2.add_state).1 = (σ.add_state).1
      by rw [hit, his]; omega)]
    exact edges_of_ge σ h ((σ.add_state).2.add_state).1 (by rw [hit]; omega)
  · intro s e he
    show e.2 ≠ (σ.add_state).1
    rw [hedges s] at he
    by_cases h1 : s = (σ.add_state).1
    · rw [if_pos h1] at he
      simp at he
      rw [he]
      show ((σ.add_state).2.add_state).1 ≠ (σ.add_state).1
      rw [hit, his]; omega
    · rw [if_neg h1] at he
      have := h.2 s e he
      rw [his]; omega

theorem build_spec (ast : RegexAST) :
    ∀ σ : NFA, BuilderWF σ →
      BuildSpec σ (Thompson.build ast σ).1 (Thompson.build ast σ).2 := by
  induction ast with
  | Char c =>
      intro σ h
      have hc := buildSpec_char c σ h
      simp only [Thompson.build, Thompson.char_frag]
      exact hc
  | Concat a b iha ihb =>
      intro σ h
      have S1 := iha σ h
      have S2 := ihb (Thompson.build a σ).2 S1.wf
      have hc := buildSpec_concat S1 S2
      simp only [Thompson.build]
      exact hc
  | Union a b iha ihb =>
      intro σ h
      have S1 := iha σ h
      have S2 := ihb (Thompson.build a σ).2 S1.wf
      have hu := buildSpec_union S1 S2
      simp only [Thompson.build]
      exact hu
  | Star a iha =>
      intro σ h
      have S1 := iha σ h
      have hs := buildSpec_star S1
      simp only [Thompson.build]
      exact hs

theorem builderWF_new : BuilderWF NFA.new := by
  constructor
  · rfl
  · intro s e he
    simp [NFA.edges, NFA.new, alLookup] at he

/-- **C6.** Dangling-pair invariant of the recursive Thompson builder: for
every AST node, at the moment `Thompson::build` returns that node's fragment
the fragment consists of the states allocated during the call, its single
accept state has no outgoing edges, and its single start state has no
incoming edges at all (in particular none from states outside the fragment);
the fragment's one start and one accept state are distinct. -/
theorem C6_dangling_pair (ast : RegexAST) (σ : NFA) (h : BuilderWF σ) :
    (σ.transitions.length ≤ (Thompson.build ast σ).1.start ∧
      (Thompson.build ast σ).1.start <
        (Thompson.build ast σ).2.transitions.length) ∧
    (σ.transitions.length ≤ (Thompson.build ast σ).1.accept ∧
      (Thompson.build ast σ).1.accept <
        (Thompson.build ast σ).2.transitions.length) ∧
    (Thompson.build ast σ).1.start ≠ (Thompson.build ast σ).1.accept ∧
    (Thompson.build ast σ).2.edges (Thompson.build ast σ).1.accept = [] ∧
    ∀ s, ∀ e ∈ (Thompson.build ast σ).2.edges s,
      e.2 ≠ (Thompson.build ast σ).1.start := by
  have S := build_spec ast σ h
  exact ⟨⟨S.start_lb, S.start_ub⟩, ⟨S.accept_lb, S.accept_ub⟩,
    S.start_ne_accept, S.accept_no_out, fun s e he => S.start_no_in s e he⟩

theorem C6_dangling_pair_witness :
    (Thompson.build (RegexAST.Star (RegexAST.Char 'a')) NFA.new).2.edges
        (Thompson.build (RegexAST.Star (RegexAST.Char 'a')) NFA.new).1.accept
      = [] ∧
    (Thompson.build (RegexAST.Star (RegexAST.Char 'a')) NFA.new).1.start ≠
      (Thompson.build (RegexAST.Star (RegexAST.Char 'a')) NFA.new).1.accept :=
  ⟨(C6_dangling_pair (RegexAST.Star (RegexAST.Char 'a')) NFA.new
      builderWF_new).2.2.2.1,
   (C6_dangling_pair (RegexAST.Star (RegexAST.Char 'a')) NFA.new
      builderWF_new).2.2.1⟩

/-! ### Epsilon closure (`nfa/epsilon_elimination.rs`) -/

/-- All edge targets of the automaton; bounds the growth of the closure
BFS visited set (not part of the source, used only as a fuel bound). -/
def targetsOf (n : NFA) : Finset Nat :=
  ((n.transitions.map (fun p => p.2.map Prod.snd)).join).toFinset

theorem mem_targetsOf {n : NFA} {u : Nat} {e : TransitionLabel × Nat}
    (he : e ∈ n.edges u) : e.2 ∈ targetsOf n := by
  unfold NFA.edges at he
  cases hl : alLookup n.transitions u with
  | none => rw [hl] at he; cases he
  | some es =>
      rw [hl] at he
      simp only [Option.getD_some] at he
      have hmem := alLookup_mem hl
      unfold targetsOf
      rw [List.mem_toFinset, List.mem_join]
      refine ⟨es.map Prod.snd, ?_, List.mem_map_of_mem Prod.snd he⟩
      exact List.mem_map_of_mem _ hmem

/-- An epsilon edge of the automaton. -/
def epsEdge (nfa : NFA) (u v : Nat) : Prop :=
  (TransitionLabel.Epsilon, v) ∈ nfa.edges u

/-- Reachability along zero or more epsilon edges. -/
def EpsReach (nfa : NFA) : Nat → Nat → Prop :=
  Relation.ReflTransGen (epsEdge nfa)

/-- Processing of one edge in the closure BFS: epsilon edges to unvisited
states are marked visited and enqueued. -/
def closVisit (acc : Finset Nat × List Nat) (e : TransitionLabel × Nat) :
    Finset Nat × List Nat :=
  if e.1 = TransitionLabel.Epsilon ∧ e.2 ∉ acc.1 then
    (insert e.2 acc.1, acc.2 ++ [e.2])
  else acc

/-- One iteration of the closure BFS: pop the queue front and process its
edges. -/
def closStep (nfa : NFA) (st : Finset Nat × List Nat) :
    Finset Nat × List Nat :=
  match st.2 with
  | [] => st
  | v :: rest => (nfa.edges v).foldl closVisit (st.1, rest)

def closHalt (st : Finset Nat × List Nat) : Bool := st.2.isEmpty

def closLoop (nfa : NFA) (fuel : Nat) (st : Finset Nat × List Nat) :
    Finset Nat × List Nat :=
  iterFuel (closStep nfa) closHalt fuel st

/-- Fuel sufficient for the closure BFS started from `init`. -/
def closFuel (nfa : NFA) (init : Finset Nat) : Nat :=
  2 * ((targetsOf nfa).card + init.card) + 1

/-- `epsilon_closure_of_state` from `nfa/epsilon_elimination.rs`. -/
def epsilon_closure_of_state (nfa : NFA) (s : Nat) : Finset Nat :=
  (closLoop nfa (closFuel nfa {s}) ({s}, [s])).1

/-- `epsilon_closure_of_set` from `nfa/epsilon_elimination.rs` (the set is
iterated in sorted order; the result is order-independent). -/
def epsilon_closure_of_set (nfa : NFA) (states : Finset Nat) : Finset Nat :=
  (closLoop nfa (closFuel nfa states) (states, finList states)).1

theorem closFold_spec (es : List (TransitionLabel × Nat)) :
    ∀ (vis : Finset Nat) (q : List Nat),
      vis ⊆ (es.foldl closVisit (vis, q)).1 ∧
      (∀ e ∈ es, e.1 = TransitionLabel.Epsilon →
        e.2 ∈ (es.foldl closVisit (vis, q)).1) ∧
      (∀ x ∈ (es.foldl closVisit (vis, q)).1,
        x ∈ vis ∨ ∃ e ∈ es, e.1 = TransitionLabel.Epsilon ∧ e.2 = x) ∧
      (∀ v ∈ q, v ∈ (es.foldl closVisit (vis, q)).2) ∧
      (∀ v ∈ (es.foldl closVisit (vis, q)).2,
        v ∈ q ∨ v ∈ (es.foldl closVisit (vis, q)).1) ∧
      (∀ x ∈ (es.foldl closVisit (vis, q)).1, x ∉ vis →
        x ∈ (es.foldl closVisit (vis, q)).2) ∧
      (es.foldl closVisit (vis, q)).2.length + vis.card =
        q.length + (es.foldl closVisit (vis, q)).1.card := by
  induction es with
  | nil =>
      intro vis q
      exact ⟨Finset.Subset.refl _, by simp, fun x hx => Or.inl hx,
        fun v hv => hv, fun v hv => Or.inl hv, fun x hx hnx => absurd hx hnx,
        by simp⟩
  | cons e rest ih =>
      intro vis q
      simp only [List.foldl_cons]
      by_cases hc : e.1 = TransitionLabel.Epsilon ∧ e.2 ∉ vis
      · have hv : closVisit (vis, q) e = (insert e.2 vis, q ++ [e.2]) := by
          unfold closVisit
          rw [if_pos hc]
        rw [hv]
        obtain ⟨i1, i2, i3, i4, i5, i6, i7⟩ := ih (insert e.2 vis) (q ++ [e.2])
        refine ⟨?_, ?_, ?_, ?_, ?_, ?_, ?_⟩
        · exact fun x hx => i1 (Finset.mem_insert_of_mem hx)
        · intro e' he' heps
          rcases List.mem_cons.mp he' with he' | he'
          · exact i1 (by rw [← he']; exact Finset.mem_insert_self _ _)
          · exact i2 e' he' heps
        · intro x hx
          rcases i3 x hx with h | ⟨e', he', heps, hx'⟩
          · rcases Finset.mem_insert.mp h with h | h
            · exact Or.inr ⟨e, List.mem_cons_self _ _, hc.1, h.symm⟩
            · exact Or.inl h
          · exact Or.inr ⟨e', List.mem_cons_of_mem _ he', heps, hx'⟩
        · intro v hv'
          exact i4 v (List.mem_append_left _ hv')
        · intro v hv'
          rcases i5 v hv' with h | h
          · rcases List.mem_append.mp h with h | h
            · exact Or.inl h
            · simp at h
              exact Or.inr (i1 (by rw [h]; exact Finset.mem_insert_self _ _))
          · exact Or.inr h
        · intro x hx hnx
          by_cases hxe : x = e.2
          · subst hxe
            exact i4 _ (List.mem_append_right _ (List.mem_singleton.mpr rfl))
          · exact i6 x hx (by
              intro hmem
              rcases Finset.mem_insert.mp hmem with h | h
              · exact hxe h
              · exact hnx h)
        · have hcard : (insert e.2 vis).card = vis.card + 1 :=
            Finset.card_insert_of_not_mem hc.2
          rw [hcard] at i7
          simp only [List.length_append, List.length_singleton] at i7
          omega
      · have hv : closVisit (vis, q) e = (vis, q) := by
          unfold closVisit
          rw [if_neg hc]
        rw [hv]
        obtain ⟨i1, i2, i3, i4, i5, i6, i7⟩ := ih vis q
        refine ⟨i1, ?_, ?_, i4, i5, i6, i7⟩
        · intro e' he' heps
          rcases List.mem_cons.mp he' with he' | he'
          · subst he'
            by_cases hmem : e'.2 ∈ vis
            · exact i1 hmem
            · exact absurd ⟨heps, hmem⟩ hc
          · exact i2 e' he' heps
        · intro x hx
          rcases i3 x hx with h | ⟨e', he', heps, hx'⟩
          · exact Or.inl h
          · exact Or.inr ⟨e', List.mem_cons_of_mem _ he', heps, hx'⟩

/-- Invariant of the closure BFS (started from seed set `S`): everything
visited is epsilon-reachable from `S`, the seeds are visited, queued states
are visited, every visited state is either still queued or its epsilon
successors are visited, and the visited set stays inside the seed set plus
the automaton's edge targets. -/
def ClosInv (nfa : NFA) (S : Finset Nat) (st : Finset Nat × List Nat) : Prop :=
  (∀ v ∈ st.1, ∃ s ∈ S, EpsReach nfa s v) ∧
  (∀ s ∈ S, s ∈ st.1) ∧
  (∀ v ∈ st.2, v ∈ st.1) ∧
  (∀ v ∈ st.1, v ∈ st.2 ∨ ∀ w, epsEdge nfa v w → w ∈ st.1) ∧
  st.1 ⊆ S ∪ targetsOf nfa

theorem closStep_inv (nfa : NFA) (S : Finset Nat) :
    ∀ st, ClosInv nfa S st → closHalt st = false →
      ClosInv nfa S (closStep nfa st) := by
  intro st h hhalt
  obtain ⟨h1, h2, h3, h4, h5⟩ := h
  cases hq : st.2 with
  | nil =>
      unfold closHalt at hhalt
      rw [hq] at hhalt
      simp at hhalt
  | cons v rest =>
      have hstep : closStep nfa st = (nfa.edges v).foldl closVisit (st.1, rest) := by
        unfold closStep
        rw [hq]
      obtain ⟨i1, i2, i3, i4, i5, i6, i7⟩ := closFold_spec (nfa.edges v) st.1 rest
      rw [hstep]
      have hv : v ∈ st.1 := h3 v (by rw [hq]; exact List.mem_cons_self _ _)
      refine ⟨?_, ?_, ?_, ?_, ?_⟩
      · intro x hx
        rcases i3 x hx with hx' | ⟨e, he, heps, hex⟩
        · exact h1 x hx'
        · obtain ⟨s, hs, hr⟩ := h1 v hv
          refine ⟨s, hs, ?_⟩
          subst hex
          refine Relation.ReflTransGen.tail hr ?_
          unfold epsEdge
          rw [show (TransitionLabel.Epsilon, e.2) = e from by rw [← heps]]
          exact he
      · intro s hs
        exact i1 (h2 s hs)
      · intro x hx
        rcases i5 x hx with hx' | hx'
        · exact i1 (h3 x (by rw [hq]; exact List.mem_cons_of_mem _ hx'))
        · exact hx'
      · intro x hx
        by_cases hxv : x ∈ st.1
        · rcases h4 x hxv with hq' | hcl
          · rw [hq] at hq'
            rcases List.mem_cons.mp hq' with hxv' | hxv'
            · subst hxv'
              right
              intro w hw
              exact i2 _ hw rfl
            · exact Or.inl (i4 x hxv')
          · right
            intro w hw
            exact i1 (hcl w hw)
        · exact Or.inl (i6 x hx hxv)
      · intro x hx
        rcases i3 x hx with hx' | ⟨e, he, heps, hex⟩
        · exact h5 hx'
        · subst hex
          exact Finset.mem_union_right _ (mem_targetsOf he)

/-- Termination measure of the closure BFS. -/
def closMeasure (nfa : NFA) (S : Finset Nat) (st : Finset Nat × List Nat) :
    Nat :=
  st.2.length + 2 * ((S ∪ targetsOf nfa).card - st.1.card)

theorem closStep_dec (nfa : NFA) (S : Finset Nat) :
    ∀ st, ClosInv nfa S st → closHalt st = false →
      closMeasure nfa S (closStep nfa st) < closMeasure nfa S st := by
  intro st h hhalt
  obtain ⟨h1, h2, h3, h4, h5⟩ := h
  cases hq : st.2 with
  | nil =>
      unfold closHalt at hhalt
      rw [hq] at hhalt
      simp at hhalt
  | cons v rest =>
      have hstep : closStep nfa st = (nfa.edges v).foldl closVisit (st.1, rest) := by
        unfold closStep
        rw [hq]
      obtain ⟨i1, -, i3, -, -, -, i7⟩ := closFold_spec (nfa.edges v) st.1 rest
      have hsub : ((nfa.edges v).foldl closVisit (st.1, rest)).1 ⊆
          S ∪ targetsOf nfa := by
        intro x hx
        rcases i3 x hx with hx' | ⟨e, he, heps, hex⟩
        · exact h5 hx'
        · subst hex
          exact Finset.mem_union_right _ (mem_targetsOf he)
      have hc1 : st.1.card ≤
          ((nfa.edges v).foldl closVisit (st.1, rest)).1.card :=
        Finset.card_le_card i1
      have hc2 : ((nfa.edges v).foldl closVisit (st.1, rest)).1.card ≤
          (S ∪ targetsOf nfa).card := Finset.card_le_card hsub
      unfold closMeasure
      rw [hstep, hq]
      simp only [List.length_cons]
      omega

theorem closLoop_char (nfa : NFA) (S : Finset Nat) (dq0 : List Nat)
    (hdq : ∀ v, v ∈ dq0 ↔ v ∈ S) (hnd : dq0.Nodup) (fuel : Nat)
    (hfuel : 2 * ((targetsOf nfa).card + S.card) < fuel) :
    ∀ t, t ∈ (closLoop nfa fuel (S, dq0)).1 ↔ ∃ s ∈ S, EpsReach nfa s t := by
  have hinv0 : ClosInv nfa S (S, dq0) :=
    ⟨fun v hv => ⟨v, hv, Relation.ReflTransGen.refl⟩,
     fun s hs => hs, fun v hv => (hdq v).mp hv,
     fun v hv => Or.inl ((hdq v).mpr hv), Finset.subset_union_left⟩
  have hlen : dq0.length = S.card := by
    have ht : dq0.toFinset = S := Finset.ext fun a => by
      rw [List.mem_toFinset]
      exact hdq a
    rw [← ht, List.toFinset_card_of_nodup hnd]
  have hμ : closMeasure nfa S (S, dq0) < fuel := by
    unfold closMeasure
    have hu1 : (S ∪ targetsOf nfa).card ≤ S.card + (targetsOf nfa).card :=
      Finset.card_union_le _ _
    have hu2 : S.card ≤ (S ∪ targetsOf nfa).card :=
      Finset.card_le_card Finset.subset_union_left
    simp only
    omega
  have hinv := iterFuel_invariant (closStep nfa) closHalt (ClosInv nfa S)
    (closStep_inv nfa S) fuel (S, dq0) hinv0
  have hhalted := iterFuel_halts (closStep nfa) closHalt (ClosInv nfa S)
    (closMeasure nfa S) (closStep_inv nfa S) (closStep_dec nfa S) fuel
    (S, dq0) hinv0 hμ
  have hqe : (iterFuel (closStep nfa) closHalt fuel (S, dq0)).2 = [] :=
    List.isEmpty_iff.mp hhalted
  obtain ⟨j1, j2, j3, j4, j5⟩ := hinv
  intro t
  constructor
  · intro ht
    exact j1 t ht
  · rintro ⟨s, hs, hr⟩
    unfold EpsReach at hr
    induction hr with
    | refl => exact j2 s hs
    | tail hab hbc ih =>
        rcases j4 _ ih with hq' | hcl
        · rw [hqe] at hq'
          cases hq'
        · exact hcl _ hbc

theorem closure_state_spec (nfa : NFA) (s t : Nat) :
    t ∈ epsilon_closure_of_state nfa s ↔ EpsReach nfa s t := by
  unfold epsilon_closure_of_state
  have h := closLoop_char nfa {s} [s] (by intro v; simp) (by simp)
    (closFuel nfa {s}) (by unfold closFuel; omega)
  rw [h t]
  simp

theorem closure_set_spec (nfa : NFA) (S : Finset Nat) (t : Nat) :
    t ∈ epsilon_closure_of_set nfa S ↔ ∃ s ∈ S, EpsReach nfa s t := by
  unfold epsilon_closure_of_set
  exact closLoop_char nfa S (finList S)
    (fun v => mem_finList) (finList_nodup S) _
    (by unfold closFuel; omega) t

/-- **C7.** Epsilon-closure is extensive and idempotent: every state belongs
to its own closure, and closing an already-closed set changes nothing. -/
theorem C7_closure_extensive_idempotent :
    (∀ (nfa : NFA) (s : Nat), s ∈ epsilon_closure_of_state nfa s) ∧
    (∀ (nfa : NFA) (S : Finset Nat),
      epsilon_closure_of_set nfa (epsilon_closure_of_set nfa S) =
        epsilon_closure_of_set nfa S) := by
  constructor
  · intro nfa s
    rw [closure_state_spec]
    exact Relation.ReflTransGen.refl
  · intro nfa S
    ext t
    rw [closure_set_spec, closure_set_spec]
    constructor
    · rintro ⟨u, hu, hr⟩
      rw [closure_set_spec] at hu
      obtain ⟨s, hs, hr'⟩ := hu
      exact ⟨s, hs, hr'.trans hr⟩
    · rintro ⟨s, hs, hr⟩
      exact ⟨t, (closure_set_spec nfa S t).mpr ⟨s, hs, hr⟩,
        Relation.ReflTransGen.refl⟩

/-! ### Move, path semantics, symbols -/

/-- Processing of one edge in `move_on_char`: collect the target of a
`Char c` edge. -/
def moveVisit (c : Char) (acc : Finset Nat) (e : TransitionLabel × Nat) :
    Finset Nat :=
  match e.1 with
  | TransitionLabel.Char ch => if ch = c then insert e.2 acc else acc
  | TransitionLabel.Epsilon => acc

/-- `move_on_char` from `nfa/epsilon_elimination.rs`: follow `Char c` edges
(never epsilon) from every state of the set.  The same computation appears
inlined in `nfa_to_dfa` (`dfa/dfa.rs`). -/
def move_on_char (nfa : NFA) (states : Finset Nat) (c : Char) : Finset Nat :=
  (finList states).foldl
    (fun acc s => (nfa.edges s).foldl (moveVisit c) acc) ∅

theorem moveVisit_eq (c : Char) (acc : Finset Nat)
    (e : TransitionLabel × Nat) :
    moveVisit c acc e =
      if e.1 = TransitionLabel.Char c then insert e.2 acc else acc := by
  obtain ⟨l, t⟩ := e
  cases l with
  | Char ch =>
      by_cases hch : ch = c
      · subst hch; simp [moveVisit]
      · simp [moveVisit, hch]
  | Epsilon => simp [moveVisit]

theorem moveVisit_fold_mem (c : Char) (es : List (TransitionLabel × Nat)) :
    ∀ (acc : Finset Nat) (x : Nat),
      x ∈ es.foldl (moveVisit c) acc ↔
        x ∈ acc ∨ (TransitionLabel.Char c, x) ∈ es := by
  induction es with
  | nil => intro acc x; simp
  | cons e rest ih =>
      intro acc x
      simp only [List.foldl_cons, List.mem_cons]
      rw [ih, moveVisit_eq]
      by_cases hc : e.1 = TransitionLabel.Char c
      · rw [if_pos hc]
        simp only [Finset.mem_insert]
        constructor
        · rintro ((h | h) | h)
          · exact Or.inr (Or.inl (by rw [h, ← hc]))
          · exact Or.inl h
          · exact Or.inr (Or.inr h)
        · rintro (h | h | h)
          · exact Or.inl (Or.inr h)
          · exact Or.inl (Or.inl (congrArg Prod.snd h))
          · exact Or.inr h
      · rw [if_neg hc]
        constructor
        · rintro (h | h)
          · exact Or.inl h
          · exact Or.inr (Or.inr h)
        · rintro (h | h | h)
          · exact Or.inl h
          · exact absurd (congrArg Prod.fst h).symm hc
          · exact Or.inr h

theorem mem_move_on_char (nfa : NFA) (states : Finset Nat) (c : Char)
    (t : Nat) :
    t ∈ move_on_char nfa states c ↔
      ∃ s ∈ states, (TransitionLabel.Char c, t) ∈ nfa.edges s := by
  unfold move_on_char
  have main : ∀ (l : List Nat) (acc : Finset Nat),
      t ∈ l.foldl (fun acc s => (nfa.edges s).foldl (moveVisit c) acc) acc ↔
        t ∈ acc ∨ ∃ s ∈ l, (TransitionLabel.Char c, t) ∈ nfa.edges s := by
    intro l
    induction l with
    | nil => intro acc; simp
    | cons s rest ih =>
        intro acc
        simp only [List.foldl_cons, List.mem_cons]
        rw [ih, moveVisit_fold_mem]
        constructor
        · rintro ((h | h) | ⟨u, hu, h⟩)
          · exact Or.inl h
          · exact Or.inr ⟨s, Or.inl rfl, h⟩
          · exact Or.inr ⟨u, Or.inr hu, h⟩
        · rintro (h | ⟨u, hu | hu, h⟩)
          · exact Or.inl (Or.inl h)
          · subst hu
            exact Or.inl (Or.inr h)
          · exact Or.inr ⟨u, hu, h⟩
  rw [main]
  simp [mem_finList]

/-- A nondeterministic path: `NfaPath nfa s w t` holds when some sequence of
`Char`-labelled edges spells `w` from `s` to `t` (epsilon edges never
participate). -/
def NfaPath (nfa : NFA) : Nat → List Char → Nat → Prop
  | s, [], t => s = t
  | s, c :: cs, t =>
      ∃ u, (TransitionLabel.Char c, u) ∈ nfa.edges s ∧ NfaPath nfa u cs t

/-- Nondeterministic acceptance of an (epsilon-free) NFA: some path from the
start state consuming `w` ends in an accept state. -/
def NfaAccepts (nfa : NFA) (w : List Char) : Prop :=
  ∃ t, t ∈ nfa.accept ∧ NfaPath nfa nfa.start w t

/-- The subset simulation of an NFA: repeatedly `move` on each symbol. -/
def setRun (nfa : NFA) : Finset Nat → List Char → Finset Nat
  | S, [] => S
  | S, c :: cs => setRun nfa (move_on_char nfa S c) cs

theorem setRun_mem (nfa : NFA) (w : List Char) :
    ∀ (S : Finset Nat) (t : Nat),
      t ∈ setRun nfa S w ↔ ∃ s ∈ S, NfaPath nfa s w t := by
  induction w with
  | nil =>
      intro S t
      unfold setRun
      constructor
      · intro h; exact ⟨t, h, rfl⟩
      · rintro ⟨s, hs, h⟩
        unfold NfaPath at h
        subst h
        exact hs
  | cons c cs ih =>
      intro S t
      show t ∈ setRun nfa (move_on_char nfa S c) cs ↔ _
      rw [ih]
      constructor
      · rintro ⟨u, hu, hpath⟩
        rw [mem_move_on_char] at hu
        obtain ⟨s, hs, hedge⟩ := hu
        exact ⟨s, hs, u, hedge, hpath⟩
      · rintro ⟨s, hs, u, hedge, hpath⟩
        exact ⟨u, (mem_move_on_char nfa S c u).mpr ⟨s, hs, hedge⟩, hpath⟩

/-- All characters labelling some edge of the automaton (source: the symbol
collection loops in `remove_epsilon` and `nfa_to_dfa`). -/
def NFA.symbols (n : NFA) : Finset Char :=
  ((n.transitions.map (fun p => p.2.filterMap (fun e =>
      match e.1 with
      | TransitionLabel.Char c => some c
      | TransitionLabel.Epsilon => none))).join).toFinset

theorem mem_symbols_of_edge {nfa : NFA} {s : Nat} {c : Char} {t : Nat}
    (h : (TransitionLabel.Char c, t) ∈ nfa.edges s) : c ∈ nfa.symbols := by
  unfold NFA.edges at h
  cases hl : alLookup nfa.transitions s with
  | none => rw [hl] at h; cases h
  | some es =>
      rw [hl] at h
      simp only [Option.getD_some] at h
      have hmem := alLookup_mem hl
      unfold NFA.symbols
      rw [List.mem_toFinset, List.mem_join]
      refine ⟨es.filterMap _, List.mem_map_of_mem _ hmem, ?_⟩
      rw [List.mem_filterMap]
      exact ⟨(TransitionLabel.Char c, t), h, rfl⟩

theorem move_empty_of_not_symbol (nfa : NFA) (S : Finset Nat) (c : Char)
    (h : c ∉ nfa.symbols) : move_on_char nfa S c = ∅ := by
  rw [Finset.eq_empty_iff_forall_not_mem]
  intro t ht
  rw [mem_move_on_char] at ht
  obtain ⟨s, -, hedge⟩ := ht
  exact h (mem_symbols_of_edge hedge)

/-! ### Subset construction (`dfa/dfa.rs`, `nfa_to_dfa`) -/

/-- Loop state of the subset construction.  The queue carries each pending
DFA id together with its subset (the Rust code queues ids and indexes
`id_to_subset`, which holds the same pairs by construction). -/
structure SubsetState : Type where
  subset_to_id : List (Finset Nat × Nat)
  id_to_subset : List (Finset Nat)
  queue : List (Nat × Finset Nat)
  transitions : List (Nat × List (Char × Nat))
  accepts : Finset Nat
deriving DecidableEq

/-- Body of the symbol loop of `nfa_to_dfa`: compute the target subset on
`c`, drop it if empty, register it (allocating the next DFA id, recording
acceptance, enqueueing) when new, and record the transition. -/
def subsetChar (nfa : NFA) (subset : Finset Nat) (dfa_state : Nat)
    (st : SubsetState) (c : Char) : SubsetState :=
  let target := move_on_char nfa subset c
  if target = ∅ then st
  else
    let reg :=
      match alLookup st.subset_to_id target with
      | some id => (st, id)
      | none =>
          let new_id := st.id_to_subset.length
          ({ st with
              subset_to_id := st.subset_to_id ++ [(target, new_id)],
              id_to_subset := st.id_to_subset ++ [target],
              queue := st.queue ++ [(new_id, target)],
              accepts :=
                if nfa.accept.any (fun a => decide (a ∈ target)) then
                  insert new_id st.accepts
                else st.accepts }, new_id)
    { reg.1 with
        transitions := alUpdate reg.1.transitions dfa_state
          (fun old => alUpdate (old.getD []) c (fun _ => reg.2)) }

/-- One iteration of the subset-construction BFS: pop a DFA state and
process every symbol (the Rust code iterates a `BTreeSet`, i.e. in sorted
order). -/
def subsetStep (nfa : NFA) (st : SubsetState) : SubsetState :=
  match st.queue with
  | [] => st
  | (dfa_state, subset) :: rest =>
      (finList nfa.symbols).foldl (subsetChar nfa subset dfa_state)
        { st with queue := rest }

def subsetHalt (st : SubsetState) : Bool := st.queue.isEmpty

/-- Initial state of the subset construction: the start subset
`{nfa.start}` with id 0. -/
def subsetInit (nfa : NFA) : SubsetState :=
  { subset_to_id := [({nfa.start}, 0)],
    id_to_subset := [{nfa.start}],
    queue := [(0, {nfa.start})],
    transitions := [],
    accepts :=
      if nfa.accept.any (fun a => decide (a ∈ ({nfa.start} : Finset Nat)))
      then {0} else ∅ }

/-- Fuel sufficient for the subset construction: every registered subset is
a subset of the start state plus all edge targets. -/
def subsetFuel (nfa : NFA) : Nat :=
  2 * 2 ^ (insert nfa.start (targetsOf nfa)).card + 1

/-- `nfa_to_dfa` from `dfa/dfa.rs`. -/
def nfa_to_dfa (nfa : NFA) : DFA :=
  let final := iterFuel (subsetStep nfa) subsetHalt (subsetFuel nfa)
    (subsetInit nfa)
  { start := 0, accepts := final.accepts, transitions := final.transitions }

theorem alLookup_append_some {α β : Type} [DecidableEq α]
    {l l' : List (α × β)} {k : α} {v : β} (h : alLookup l k = some v) :
    alLookup (l ++ l') k = some v := by
  rw [alLookup_append, h]

theorem alLookup_append_none {α β : Type} [DecidableEq α]
    {l l' : List (α × β)} {k : α} (h : alLookup l k = none) :
    alLookup (l ++ l') k = alLookup l' k := by
  rw [alLookup_append, h]

theorem alLookup_of_mem_nodup {α β : Type} [DecidableEq α]
    (l : List (α × β)) :
    ∀ {k : α} {v : β}, (l.map Prod.fst).Nodup → (k, v) ∈ l →
      alLookup l k = some v := by
  induction l with
  | nil => intro k v _ h; cases h
  | cons p rest ih =>
      intro k v hnd h
      obtain ⟨k', v'⟩ := p
      simp only [List.map_cons, List.nodup_cons] at hnd
      rcases List.mem_cons.mp h with heq | hmem
      · rw [show k = k' from congrArg Prod.fst heq,
          show v = v' from congrArg Prod.snd heq]
        simp [alLookup]
      · have hk : ¬ k = k' := by
          intro hkk
          subst hkk
          exact hnd.1 (List.mem_map.mpr ⟨(k, v), hmem, rfl⟩)
        show (if k = k' then some v' else alLookup rest k) = some v
        rw [if_neg hk]
        exact ih hnd.2 hmem

theorem alLookup_alUpdate_self {α β : Type} [DecidableEq α]
    (l : List (α × β)) (k : α) (f : Option β → β) :
    alLookup (alUpdate l k f) k = some (f (alLookup l k)) := by
  induction l with
  | nil => simp [alUpdate, alLookup]
  | cons p rest ih =>
      obtain ⟨k', v'⟩ := p
      by_cases hk : k = k'
      · subst hk
        simp [alUpdate, alLookup]
      · simp [alUpdate, alLookup, hk, ih]

theorem alLookup_alUpdate_ne {α β : Type} [DecidableEq α]
    (l : List (α × β)) {j k : α} (f : Option β → β) (h : j ≠ k) :
    alLookup (alUpdate l k f) j = alLookup l j := by
  induction l with
  | nil => simp [alUpdate, alLookup, h]
  | cons p rest ih =>
      obtain ⟨k', v'⟩ := p
      by_cases hk : k = k'
      · subst hk
        simp [alUpdate, alLookup, h]
      · by_cases hj : j = k'
        · subst hj
          simp [alUpdate, alLookup, hk]
        · simp [alUpdate, alLookup, hj, hk, ih]

theorem nodup_subsets_length_le {U : Finset Nat} {l : List (Finset Nat)}
    (hnd : l.Nodup) (hU : ∀ S ∈ l, S ⊆ U) : l.length ≤ 2 ^ U.card := by
  have h1 : l.toFinset ⊆ U.powerset := by
    intro S hS
    rw [List.mem_toFinset] at hS
    rw [Finset.mem_powerset]
    exact hU S hS
  have h2 := Finset.card_le_card h1
  rw [Finset.card_powerset] at h2
  rw [← List.toFinset_card_of_nodup hnd]
  exact h2

theorem setRun_empty (nfa : NFA) (w : List Char) : setRun nfa ∅ w = ∅ := by
  induction w with
  | nil => rfl
  | cons c cs ih =>
      show setRun nfa (move_on_char nfa ∅ c) cs = ∅
      have hm : move_on_char nfa ∅ c = ∅ := by
        rw [Finset.eq_empty_iff_forall_not_mem]
        intro t ht
        rw [mem_move_on_char] at ht
        obtain ⟨s, hs, -⟩ := ht
        exact absurd hs (Finset.not_mem_empty s)
      rw [hm]
      exact ih

theorem move_subset_targets (nfa : NFA) (S : Finset Nat) (c : Char) :
    move_on_char nfa S c ⊆ targetsOf nfa := by
  intro t ht
  rw [mem_move_on_char] at ht
  obtain ⟨s, -, hedge⟩ := ht
  exact mem_targetsOf hedge

/-- The transition recorded in the loop state for DFA state `i` on `c`. -/
def subStepOf (st : SubsetState) (i : Nat) (c : Char) : Option Nat :=
  (alLookup st.transitions i).bind fun m => alLookup m c

/-- Contract of a fully processed DFA state `i` with subset `S`: its
recorded transition on each symbol is exactly the registered id of the move
target, and absent when the move is empty. -/
def TransSpec (nfa : NFA) (st : SubsetState) (i : Nat) (S : Finset Nat) :
    Prop :=
  ∀ c, (subStepOf st i c =
      if move_on_char nfa S c = ∅ then none
      else alLookup st.subset_to_id (move_on_char nfa S c)) ∧
    (move_on_char nfa S c ≠ ∅ →
      (alLookup st.subset_to_id (move_on_char nfa S c)).isSome = true)

/-- Structural invariant of the subset-construction loop state. -/
structure SubCore (nfa : NFA) (st : SubsetState) : Prop where
  keys_eq : st.subset_to_id.map Prod.fst = st.id_to_subset
  ids_eq : st.subset_to_id.map Prod.snd = List.range st.id_to_subset.length
  nodup : st.id_to_subset.Nodup
  inU : ∀ S ∈ st.id_to_subset, S ⊆ insert nfa.start (targetsOf nfa)
  accspec : ∀ p ∈ st.subset_to_id,
    (p.2 ∈ st.accepts ↔ ∃ a ∈ nfa.accept, a ∈ p.1)
  acc_lt : ∀ i ∈ st.accepts, i < st.id_to_subset.length
  fresh : ∀ i, st.id_to_subset.length ≤ i → alLookup st.transitions i = none

theorem reg_lt {nfa : NFA} {st : SubsetState} (hc : SubCore nfa st)
    {p : Finset Nat × Nat} (hp : p ∈ st.subset_to_id) :
    p.2 < st.id_to_subset.length := by
  have h : p.2 ∈ st.subset_to_id.map Prod.snd :=
    List.mem_map_of_mem Prod.snd hp
  rw [hc.ids_eq, List.mem_range] at h
  exact h

theorem reg_lookup {nfa : NFA} {st : SubsetState} (hc : SubCore nfa st)
    {p : Finset Nat × Nat} (hp : p ∈ st.subset_to_id) :
    alLookup st.subset_to_id p.1 = some p.2 :=
  alLookup_of_mem_nodup _ (by rw [hc.keys_eq]; exact hc.nodup) hp

theorem reg_unique {nfa : NFA} {st : SubsetState} (hc : SubCore nfa st)
    {p q : Finset Nat × Nat} (hp : p ∈ st.subset_to_id)
    (hq : q ∈ st.subset_to_id) (h : p.1 = q.1) : p = q := by
  have h1 := reg_lookup hc hp
  have h2 := reg_lookup hc hq
  rw [h] at h1
  rw [h1] at h2
  have : p.2 = q.2 := by injection h2
  calc p = (p.1, p.2) := rfl
    _ = (q.1, q.2) := by rw [h, this]
    _ = q := rfl

/-- Full invariant of the subset-construction loop. -/
structure SubInv (nfa : NFA) (st : SubsetState) : Prop where
  core : SubCore nfa st
  start_mem : (({nfa.start} : Finset Nat), 0) ∈ st.subset_to_id
  qreg : ∀ p ∈ st.queue, (p.2, p.1) ∈ st.subset_to_id ∧
    alLookup st.transitions p.1 = none
  qnodup : (st.queue.map Prod.fst).Nodup
  regspec : ∀ p ∈ st.subset_to_id,
    (p.2, p.1) ∈ st.queue ∨ TransSpec nfa st p.2 p.1

theorem subsetChar_cases (nfa : NFA) (subset : Finset Nat) (dfa_state : Nat)
    (st0 : SubsetState) (c : Char) :
    (move_on_char nfa subset c = ∅ ∧
      subsetChar nfa subset dfa_state st0 c = st0) ∨
    (∃ id, move_on_char nfa subset c ≠ ∅ ∧
      alLookup st0.subset_to_id (move_on_char nfa subset c) = some id ∧
      subsetChar nfa subset dfa_state st0 c =
        { st0 with transitions := (alUpdate st0.transitions dfa_state
            (fun old => alUpdate (old.getD []) c (fun _ => id))) }) ∨
    (move_on_char nfa subset c ≠ ∅ ∧
      alLookup st0.subset_to_id (move_on_char nfa subset c) = none ∧
      subsetChar nfa subset dfa_state st0 c =
        { subset_to_id := st0.subset_to_id ++
            [(move_on_char nfa subset c, st0.id_to_subset.length)],
          id_to_subset := st0.id_to_subset ++ [move_on_char nfa subset c],
          queue := st0.queue ++
            [(st0.id_to_subset.length, move_on_char nfa subset c)],
          transitions := (alUpdate st0.transitions dfa_state
            (fun old => alUpdate (old.getD []) c
              (fun _ => st0.id_to_subset.length))),
          accepts :=
            if nfa.accept.any
                (fun a => decide (a ∈ move_on_char nfa subset c)) then
              insert st0.id_to_subset.length st0.accepts
            else st0.accepts }) := by
  by_cases h0 : move_on_char nfa subset c = ∅
  · left
    refine ⟨h0, ?_⟩
    unfold subsetChar
    rw [if_pos h0]
  · cases hl : alLookup st0.subset_to_id (move_on_char nfa subset c) with
    | some id =>
        right; left
        refine ⟨id, h0, rfl, ?_⟩
        unfold subsetChar
        rw [if_neg h0]
        simp only [hl]
    | none =>
        right; right
        refine ⟨h0, rfl, ?_⟩
        unfold subsetChar
        rw [if_neg h0]
        simp only [hl]

theorem stepOf_update_same (tr : List (Nat × List (Char × Nat))) (ds : Nat)
    (c : Char) (id : Nat) :
    (alLookup (alUpdate tr ds
        (fun old => alUpdate (old.getD []) c (fun _ => id))) ds).bind
      (fun m => alLookup m c) = some id := by
  rw [alLookup_alUpdate_self]
  show alLookup (alUpdate ((alLookup tr ds).getD []) c (fun _ => id)) c = _
  rw [alLookup_alUpdate_self]

theorem stepOf_update_other (tr : List (Nat × List (Char × Nat))) (ds : Nat)
    (c : Char) (id : Nat) (c' : Char) (h : c' ≠ c) :
    (alLookup (alUpdate tr ds
        (fun old => alUpdate (old.getD []) c (fun _ => id))) ds).bind
      (fun m => alLookup m c') =
    (alLookup tr ds).bind (fun m => alLookup m c') := by
  rw [alLookup_alUpdate_self]
  show alLookup (alUpdate ((alLookup tr ds).getD []) c (fun _ => id)) c' = _
  rw [alLookup_alUpdate_ne _ _ h]
  cases h0 : alLookup tr ds with
  | none => simp [alLookup]
  | some m => simp

/-- What the symbol loop of one `nfa_to_dfa` BFS iteration establishes,
relating the state before the loop (`st0`, with the current pair already
popped) to the state after it (`stF`). -/
structure FoldSpec (nfa : NFA) (subset : Finset Nat) (dfa_state : Nat)
    (cs : List Char) (st0 stF : SubsetState) : Prop where
  core : SubCore nfa stF
  reg_mono : ∀ p ∈ st0.subset_to_id, p ∈ stF.subset_to_id
  lookup_mono : ∀ S i, alLookup st0.subset_to_id S = some i →
    alLookup stF.subset_to_id S = some i
  len_mono : st0.id_to_subset.length ≤ stF.id_to_subset.length
  trans_other : ∀ j, j ≠ dfa_state →
    alLookup stF.transitions j = alLookup st0.transitions j
  qpre : ∀ p ∈ stF.queue, (p.2, p.1) ∈ stF.subset_to_id ∧
    alLookup stF.transitions p.1 = none ∧ p.1 ≠ dfa_state
  qnodup : (stF.queue.map Prod.fst).Nodup
  queue_mono : ∀ p ∈ st0.queue, p ∈ stF.queue
  reg_new : ∀ p ∈ stF.subset_to_id,
    p ∈ st0.subset_to_id ∨ (p.2, p.1) ∈ stF.queue
  spec_in : ∀ c ∈ cs,
    subStepOf stF dfa_state c =
      (if move_on_char nfa subset c = ∅ then none
       else alLookup stF.subset_to_id (move_on_char nfa subset c)) ∧
    (move_on_char nfa subset c ≠ ∅ →
      (alLookup stF.subset_to_id (move_on_char nfa subset c)).isSome = true)
  spec_out : ∀ c, c ∉ cs →
    subStepOf stF dfa_state c = subStepOf st0 dfa_state c
  count_eq : stF.queue.length + st0.id_to_subset.length =
    st0.queue.length + stF.id_to_subset.length

theorem subsetChar_fold_spec (nfa : NFA) (subset : Finset Nat)
    (dfa_state : Nat) (cs : List Char) :
    ∀ st0 : SubsetState, SubCore nfa st0 → cs.Nodup →
      dfa_state < st0.id_to_subset.length →
      (∀ c ∈ cs, subStepOf st0 dfa_state c = none) →
      (∀ p ∈ st0.queue, (p.2, p.1) ∈ st0.subset_to_id ∧
        alLookup st0.transitions p.1 = none ∧ p.1 ≠ dfa_state) →
      (st0.queue.map Prod.fst).Nodup →
      FoldSpec nfa subset dfa_state cs st0
        (cs.foldl (subsetChar nfa subset dfa_state) st0) := by
  induction cs with
  | nil =>
      intro st0 hcore hnd hds hnone hq hqnd
      exact ⟨hcore, fun p hp => hp, fun S i h => h, le_refl _,
        fun j _ => rfl, hq, hqnd, fun p hp => hp, fun p hp => Or.inl hp,
        fun c hc => absurd hc (List.not_mem_nil c),
        fun c _ => rfl, rfl⟩
  | cons c rest ih =>
      intro st0 hcore hnd hds hnone hq hqnd
      simp only [List.foldl_cons]
      have hcnr : c ∉ rest := (List.nodup_cons.mp hnd).1
      have hndr : rest.Nodup := (List.nodup_cons.mp hnd).2
      rcases subsetChar_cases nfa subset dfa_state st0 c with
        ⟨hmv, heq⟩ | ⟨id, hmv, hl, heq⟩ | ⟨hmv, hl, heq⟩
      · -- empty move: state unchanged
        rw [heq]
        have F := ih st0 hcore hndr hds
          (fun c' hc' => hnone c' (List.mem_cons_of_mem _ hc')) hq hqnd
        refine ⟨F.core, F.reg_mono, F.lookup_mono, F.len_mono, F.trans_other,
          F.qpre, F.qnodup, F.queue_mono, F.reg_new, ?_, ?_, F.count_eq⟩
        · intro c' hc'
          rcases List.mem_cons.mp hc' with hc' | hc'
          · subst hc'
            refine ⟨?_, fun hne => absurd hmv hne⟩
            rw [F.spec_out c' hcnr, hnone c' (List.mem_cons_self _ _),
              if_pos hmv]
          · exact F.spec_in c' hc'
        · intro c' hc'
          exact F.spec_out c' (fun h => hc' (List.mem_cons_of_mem _ h))
      · -- existing target id: only the transition entry changes
        have hstq : (subsetChar nfa subset dfa_state st0 c).subset_to_id =
            st0.subset_to_id := by rw [heq]
        have hidq : (subsetChar nfa subset dfa_state st0 c).id_to_subset =
            st0.id_to_subset := by rw [heq]
        have hquq : (subsetChar nfa subset dfa_state st0 c).queue =
            st0.queue := by rw [heq]
        have hacq : (subsetChar nfa subset dfa_state st0 c).accepts =
            st0.accepts := by rw [heq]
        have htrq : (subsetChar nfa subset dfa_state st0 c).transitions =
            alUpdate st0.transitions dfa_state
              (fun old => alUpdate (old.getD []) c (fun _ => id)) := by
          rw [heq]
        have hcore1 : SubCore nfa (subsetChar nfa subset dfa_state st0 c) := by
          refine ⟨?_, ?_, ?_, ?_, ?_, ?_, ?_⟩
          · rw [hstq, hidq]; exact hcore.keys_eq
          · rw [hstq, hidq]; exact hcore.ids_eq
          · rw [hidq]; exact hcore.nodup
          · rw [hidq]; exact hcore.inU
          · rw [hstq, hacq]; exact hcore.accspec
          · rw [hacq, hidq]; exact hcore.acc_lt
          · rw [htrq, hidq]
            intro i hi
            rw [alLookup_alUpdate_ne _ _ (by omega : i ≠ dfa_state)]
            exact hcore.fresh i hi
        have hnone1 : ∀ c' ∈ rest,
            subStepOf (subsetChar nfa subset dfa_state st0 c) dfa_state c' =
              none := by
          intro c' hc'
          unfold subStepOf
          rw [htrq, stepOf_update_other _ _ _ _ _
            (fun h => hcnr (by rw [← h]; exact hc'))]
          exact hnone c' (List.mem_cons_of_mem _ hc')
        have hq1 : ∀ p ∈ (subsetChar nfa subset dfa_state st0 c).queue,
            (p.2, p.1) ∈ (subsetChar nfa subset dfa_state st0 c).subset_to_id ∧
            alLookup (subsetChar nfa subset dfa_state st0 c).transitions p.1 =
              none ∧ p.1 ≠ dfa_state := by
          rw [hstq, hquq, htrq]
          intro p hp
          obtain ⟨h1, h2, h3⟩ := hq p hp
          refine ⟨h1, ?_, h3⟩
          rw [alLookup_alUpdate_ne _ _ h3]
          exact h2
        have F := ih (subsetChar nfa subset dfa_state st0 c) hcore1 hndr
          (by rw [hidq]; exact hds) hnone1 hq1 (by rw [hquq]; exact hqnd)
        refine ⟨F.core, ?_, ?_, ?_, ?_, F.qpre, F.qnodup, ?_, ?_, ?_, ?_, ?_⟩
        · intro p hp
          exact F.reg_mono p (by rw [hstq]; exact hp)
        · intro S i h
          exact F.lookup_mono S i (by rw [hstq]; exact h)
        · have h1 := F.len_mono
          rw [hidq] at h1
          exact h1
        · intro j hj
          rw [F.trans_other j hj, htrq, alLookup_alUpdate_ne _ _ hj]
        · intro p hp
          exact F.queue_mono p (by rw [hquq]; exact hp)
        · intro p hp
          rcases F.reg_new p hp with h | h
          · rw [hstq] at h
            exact Or.inl h
          · exact Or.inr h
        · intro c' hc'
          rcases List.mem_cons.mp hc' with hc' | hc'
          · subst hc'
            have h2 : alLookup
                (subsetChar nfa subset dfa_state st0 c').subset_to_id
                (move_on_char nfa subset c') = some id := by
              rw [hstq]
              exact hl
            refine ⟨?_, fun _ => ?_⟩
            · rw [F.spec_out c' hcnr]
              have h1 : subStepOf (subsetChar nfa subset dfa_state st0 c')
                  dfa_state c' = some id := by
                unfold subStepOf
                rw [htrq]
                exact stepOf_update_same st0.transitions dfa_state c' id
              rw [h1, if_neg hmv, F.lookup_mono _ _ h2]
            · rw [F.lookup_mono _ _ h2]
              rfl
          · exact F.spec_in c' hc'
        · intro c' hc'
          have h1 : c' ∉ rest := fun h => hc' (List.mem_cons_of_mem _ h)
          have h2 : c' ≠ c := fun h => hc' (by rw [h]; exact List.mem_cons_self _ _)
          rw [F.spec_out c' h1]
          unfold subStepOf
          rw [htrq, stepOf_update_other _ _ _ _ _ h2]
        · have h1 := F.count_eq
          rw [hidq, hquq] at h1
          exact h1
      · -- new registration
        have hds1 : dfa_state < st0.id_to_subset.length + 1 := by omega
        have hmvU : move_on_char nfa subset c ⊆
            insert nfa.start (targetsOf nfa) :=
          fun t ht => Finset.mem_insert_of_mem (move_subset_targets _ _ _ ht)
        have hmvnew : move_on_char nfa subset c ∉ st0.id_to_subset := by
          rw [alLookup_eq_none] at hl
          rw [← hcore.keys_eq]
          exact hl
        have hstq : (subsetChar nfa subset dfa_state st0 c).subset_to_id =
            st0.subset_to_id ++
              [(move_on_char nfa subset c, st0.id_to_subset.length)] := by
          rw [heq]
        have hidq : (subsetChar nfa subset dfa_state st0 c).id_to_subset =
            st0.id_to_subset ++ [move_on_char nfa subset c] := by rw [heq]
        have hquq : (subsetChar nfa subset dfa_state st0 c).queue =
            st0.queue ++
              [(st0.id_to_subset.length, move_on_char nfa subset c)] := by
          rw [heq]
        have hacq : (subsetChar nfa subset dfa_state st0 c).accepts =
            (if nfa.accept.any
                (fun a => decide (a ∈ move_on_char nfa subset c)) then
              insert st0.id_to_subset.length st0.accepts
            else st0.accepts) := by rw [heq]
        have htrq : (subsetChar nfa subset dfa_state st0 c).transitions =
            alUpdate st0.transitions dfa_state
              (fun old => alUpdate (old.getD []) c
                (fun _ => st0.id_to_subset.length)) := by rw [heq]
        have hidlen : (subsetChar nfa subset dfa_state st0 c).id_to_subset.length =
            st0.id_to_subset.length + 1 := by
          rw [hidq]
          simp
        have hqulen : (subsetChar nfa subset dfa_state st0 c).queue.length =
            st0.queue.length + 1 := by
          rw [hquq]
          simp
        have hcore1 : SubCore nfa (subsetChar nfa subset dfa_state st0 c) := by
          refine ⟨?_, ?_, ?_, ?_, ?_, ?_, ?_⟩
          · rw [hstq, hidq, List.map_append, hcore.keys_eq]
            rfl
          · rw [hstq, hidq, List.map_append, hcore.ids_eq]
            simp [List.range_succ]
          · rw [hidq, List.nodup_append]
            exact ⟨hcore.nodup, List.nodup_singleton _,
              fun a ha hb => by
                rw [List.mem_singleton] at hb
                subst hb
                exact hmvnew ha⟩
          · rw [hidq]
            intro S hS
            rcases List.mem_append.mp hS with h | h
            · exact hcore.inU S h
            · rw [List.mem_singleton] at h
              subst h
              exact hmvU
          · rw [hstq, hacq]
            intro p hp
            rcases List.mem_append.mp hp with h | h
            · have hlt := reg_lt hcore h
              have hiff : p.2 ∈ (if nfa.accept.any
                  (fun a => decide (a ∈ move_on_char nfa subset c)) then
                    insert st0.id_to_subset.length st0.accepts
                  else st0.accepts) ↔ p.2 ∈ st0.accepts := by
                by_cases hacc : nfa.accept.any
                    (fun a => decide (a ∈ move_on_char nfa subset c))
                · rw [if_pos hacc, Finset.mem_insert]
                  constructor
                  · rintro (h' | h')
                    · omega
                    · exact h'
                  · exact Or.inr
                · rw [if_neg hacc]
              rw [hiff]
              exact hcore.accspec p h
            · rw [List.mem_singleton] at h
              subst h
              show st0.id_to_subset.length ∈ _ ↔
                ∃ a ∈ nfa.accept, a ∈ move_on_char nfa subset c
              by_cases hacc : nfa.accept.any
                  (fun a => decide (a ∈ move_on_char nfa subset c))
              · rw [if_pos hacc]
                simp only [Finset.mem_insert]
                rw [List.any_eq_true] at hacc
                obtain ⟨a, ha, ha2⟩ := hacc
                refine ⟨fun _ => ⟨a, ha, of_decide_eq_true ha2⟩, fun _ => ?_⟩
                simp
              · rw [if_neg hacc]
                constructor
                · intro h'
                  exact absurd (hcore.acc_lt _ h') (by omega)
                · rintro ⟨a, ha, ha2⟩
                  exact absurd (List.any_eq_true.mpr
                    ⟨a, ha, decide_eq_true ha2⟩) hacc
          · rw [hacq, hidlen]
            intro i hi
            by_cases hacc : nfa.accept.any
                (fun a => decide (a ∈ move_on_char nfa subset c))
            · rw [if_pos hacc] at hi
              rcases Finset.mem_insert.mp hi with h | h
              · omega
              · have := hcore.acc_lt i h
                omega
            · rw [if_neg hacc] at hi
              have := hcore.acc_lt i hi
              omega
          · rw [htrq, hidlen]
            intro i hi
            rw [alLookup_alUpdate_ne _ _ (by omega : i ≠ dfa_state)]
            exact hcore.fresh i (by omega)
        have hnone1 : ∀ c' ∈ rest,
            subStepOf (subsetChar nfa subset dfa_state st0 c) dfa_state c' =
              none := by
          intro c' hc'
          unfold subStepOf
          rw [htrq, stepOf_update_other _ _ _ _ _
            (fun h => hcnr (by rw [← h]; exact hc'))]
          exact hnone c' (List.mem_cons_of_mem _ hc')
        have hq1 : ∀ p ∈ (subsetChar nfa subset dfa_state st0 c).queue,
            (p.2, p.1) ∈ (subsetChar nfa subset dfa_state st0 c).subset_to_id ∧
            alLookup (subsetChar nfa subset dfa_state st0 c).transitions p.1 =
              none ∧ p.1 ≠ dfa_state := by
          rw [hstq, hquq, htrq]
          intro p hp
          rcases List.mem_append.mp hp with hp | hp
          · obtain ⟨h1, h2, h3⟩ := hq p hp
            refine ⟨List.mem_append_left _ h1, ?_, h3⟩
            rw [alLookup_alUpdate_ne _ _ h3]
            exact h2
          · rw [List.mem_singleton] at hp
            subst hp
            refine ⟨List.mem_append_right _ (List.mem_singleton.mpr rfl),
              ?_, by show st0.id_to_subset.length ≠ dfa_state; omega⟩
            show alLookup (alUpdate st0.transitions dfa_state _)
              st0.id_to_subset.length = none
            rw [alLookup_alUpdate_ne _ _
              (by omega : st0.id_to_subset.length ≠ dfa_state)]
            exact hcore.fresh _ (le_refl _)
        have hqnd1 : ((subsetChar nfa subset dfa_state st0 c).queue.map
            Prod.fst).Nodup := by
          rw [hquq, List.map_append, List.nodup_append]
          refine ⟨hqnd, List.nodup_singleton _, ?_⟩
          intro a ha hb
          simp only [List.map_cons, List.map_nil, List.mem_singleton] at hb
          subst hb
          rw [List.mem_map] at ha
          obtain ⟨p, hp, hpa⟩ := ha
          have := reg_lt hcore (hq p hp).1
          omega
        have F := ih (subsetChar nfa subset dfa_state st0 c) hcore1 hndr
          (by rw [hidlen]; omega) hnone1 hq1 hqnd1
        refine ⟨F.core, ?_, ?_, ?_, ?_, F.qpre, F.qnodup, ?_, ?_, ?_, ?_, ?_⟩
        · intro p hp
          refine F.reg_mono p ?_
          rw [hstq]
          exact List.mem_append_left _ hp
        · intro S i h
          refine F.lookup_mono S i ?_
          rw [hstq]
          exact alLookup_append_some h
        · have h1 := F.len_mono
          rw [hidlen] at h1
          omega
        · intro j hj
          rw [F.trans_other j hj, htrq, alLookup_alUpdate_ne _ _ hj]
        · intro p hp
          refine F.queue_mono p ?_
          rw [hquq]
          exact List.mem_append_left _ hp
        · intro p hp
          rcases F.reg_new p hp with h | h
          · rw [hstq] at h
            rcases List.mem_append.mp h with h | h
            · exact Or.inl h
            · rw [List.mem_singleton] at h
              subst h
              refine Or.inr (F.queue_mono _ ?_)
              rw [hquq]
              exact List.mem_append_right _ (List.mem_singleton.mpr rfl)
          · exact Or.inr h
        · intro c' hc'
          rcases List.mem_cons.mp hc' with hc' | hc'
          · subst hc'
            have h2 : alLookup
                (subsetChar nfa subset dfa_state st0 c').subset_to_id
                (move_on_char nfa subset c') =
                some st0.id_to_subset.length := by
              rw [hstq, alLookup_append_none hl]
              simp [alLookup]
            refine ⟨?_, fun _ => ?_⟩
            · rw [F.spec_out c' hcnr]
              have h1 : subStepOf (subsetChar nfa subset dfa_state st0 c')
                  dfa_state c' = some st0.id_to_subset.length := by
                unfold subStepOf
                rw [htrq]
                exact stepOf_update_same st0.transitions dfa_state c' _
              rw [h1, if_neg hmv, F.lookup_mono _ _ h2]
            · rw [F.lookup_mono _ _ h2]
              rfl
          · exact F.spec_in c' hc'
        · intro c' hc'
          have h1 : c' ∉ rest := fun h => hc' (List.mem_cons_of_mem _ h)
          have h2 : c' ≠ c := fun h => hc' (by rw [h]; exact List.mem_cons_self _ _)
          rw [F.spec_out c' h1]
          unfold subStepOf
          rw [htrq, stepOf_update_other _ _ _ _ _ h2]
        · have h1 := F.count_eq
          rw [hidlen, hqulen] at h1
          omega

theorem mem_eq_of_map_nodup {α β : Type} {f : α → β} :
    ∀ {l : List α}, (l.map f).Nodup →
      ∀ {p q : α}, p ∈ l → q ∈ l → f p = f q → p = q := by
  intro l
  induction l with
  | nil => intro _ p q hp; cases hp
  | cons a rest ih =>
      intro hnd p q hp hq hf
      simp only [List.map_cons, List.nodup_cons] at hnd
      rcases List.mem_cons.mp hp with hp1 | hp1 <;>
        rcases List.mem_cons.mp hq with hq1 | hq1
      · rw [hp1, hq1]
      · exfalso
        apply hnd.1
        rw [List.mem_map]
        refine ⟨q, hq1, ?_⟩
        rw [← hf, hp1]
      · exfalso
        apply hnd.1
        rw [List.mem_map]
        refine ⟨p, hp1, ?_⟩
        rw [hf, hq1]
      · exact ih hnd.2 hp1 hq1 hf

theorem reg_unique_id {nfa : NFA} {st : SubsetState} (hc : SubCore nfa st)
    {p q : Finset Nat × Nat} (hp : p ∈ st.subset_to_id)
    (hq : q ∈ st.subset_to_id) (h : p.2 = q.2) : p = q := by
  have hnd : (st.subset_to_id.map Prod.snd).Nodup := by
    rw [hc.ids_eq]
    exact List.nodup_range _
  exact mem_eq_of_map_nodup hnd hp hq h

theorem subsetStep_inv (nfa : NFA) :
    ∀ st, SubInv nfa st → subsetHalt st = false →
      SubInv nfa (subsetStep nfa st) := by
  intro st hinv hhalt
  obtain ⟨hcore, hstart, hqreg, hqnd, hregspec⟩ := hinv
  cases hq : st.queue with
  | nil =>
      unfold subsetHalt at hhalt
      rw [hq] at hhalt
      simp at hhalt
  | cons hd rest =>
      obtain ⟨dfa_state, subset⟩ := hd
      have hstep : subsetStep nfa st =
          (finList nfa.symbols).foldl (subsetChar nfa subset dfa_state)
            { st with queue := rest } := by
        unfold subsetStep
        rw [hq]
      have hhd : ((dfa_state, subset) : Nat × Finset Nat) ∈ st.queue := by
        rw [hq]
        exact List.mem_cons_self _ _
      have hreg0 : (subset, dfa_state) ∈ st.subset_to_id := (hqreg _ hhd).1
      have htr_ds : alLookup st.transitions dfa_state = none := (hqreg _ hhd).2
      have hds : dfa_state < st.id_to_subset.length := reg_lt hcore hreg0
      have hcore0 : SubCore nfa { st with queue := rest } :=
        ⟨hcore.keys_eq, hcore.ids_eq, hcore.nodup, hcore.inU, hcore.accspec,
         hcore.acc_lt, hcore.fresh⟩
      have hqnd' : dfa_state ∉ rest.map Prod.fst ∧
          (rest.map Prod.fst).Nodup := by
        have h := hqnd
        rw [hq] at h
        simp only [List.map_cons, List.nodup_cons] at h
        exact h
      have hnone : ∀ c ∈ finList nfa.symbols,
          subStepOf { st with queue := rest } dfa_state c = none := by
        intro c _
        unfold subStepOf
        show (alLookup st.transitions dfa_state).bind _ = none
        rw [htr_ds]
        rfl
      have hq0 : ∀ p ∈ ({ st with queue := rest } : SubsetState).queue,
          (p.2, p.1) ∈ ({ st with queue := rest } : SubsetState).subset_to_id ∧
          alLookup ({ st with queue := rest } : SubsetState).transitions p.1 =
            none ∧ p.1 ≠ dfa_state := by
        intro p hp
        have hp' : p ∈ st.queue := by
          rw [hq]
          exact List.mem_cons_of_mem _ hp
        obtain ⟨h1, h2⟩ := hqreg p hp'
        refine ⟨h1, h2, ?_⟩
        intro hcon
        exact hqnd'.1 (hcon ▸ List.mem_map_of_mem Prod.fst hp)
      have F := subsetChar_fold_spec nfa subset dfa_state
        (finList nfa.symbols) { st with queue := rest } hcore0
        (finList_nodup _) hds hnone hq0 hqnd'.2
      rw [hstep]
      have htspec : TransSpec nfa
          ((finList nfa.symbols).foldl (subsetChar nfa subset dfa_state)
            { st with queue := rest }) dfa_state subset := by
        intro c
        by_cases hc : c ∈ finList nfa.symbols
        · exact F.spec_in c hc
        · have hmv : move_on_char nfa subset c = ∅ := by
            refine move_empty_of_not_symbol nfa subset c ?_
            intro hmem
            exact hc (mem_finList.mpr hmem)
          refine ⟨?_, fun hne => absurd hmv hne⟩
          rw [F.spec_out c hc, if_pos hmv]
          unfold subStepOf
          show (alLookup st.transitions dfa_state).bind _ = none
          rw [htr_ds]
          rfl
      refine ⟨F.core, ?_, ?_, F.qnodup, ?_⟩
      · exact F.reg_mono _ hstart
      · intro p hp
        exact ⟨(F.qpre p hp).1, (F.qpre p hp).2.1⟩
      · intro p hp
        rcases F.reg_new p hp with hold | hnew
        · rcases hregspec p hold with hque | hts
          · rw [hq] at hque
            rcases List.mem_cons.mp hque with hh | hh
            · have hpp : p = (subset, dfa_state) := by
                have h1 : p.2 = dfa_state := by
                  have := congrArg Prod.fst hh
                  exact this
                have h2 : p.1 = subset := by
                  have := congrArg Prod.snd hh
                  exact this
                calc p = (p.1, p.2) := rfl
                  _ = (subset, dfa_state) := by rw [h1, h2]
              rw [hpp]
              exact Or.inr htspec
            · exact Or.inl (F.queue_mono (p.2, p.1) hh)
          · by_cases hpd : p.2 = dfa_state
            · have hpp : p = (subset, dfa_state) :=
                reg_unique_id hcore hold hreg0 hpd
              rw [hpp]
              exact Or.inr htspec
            · right
              intro c
              obtain ⟨he, hs⟩ := hts c
              by_cases hmv : move_on_char nfa p.1 c = ∅
              · refine ⟨?_, fun hne => absurd hmv hne⟩
                rw [if_pos hmv] at he ⊢
                unfold subStepOf
                rw [F.trans_other p.2 hpd]
                exact he
              · have hsome := hs hmv
                rw [if_neg hmv] at he
                cases hl : alLookup st.subset_to_id (move_on_char nfa p.1 c) with
                | none => rw [hl] at hsome; cases hsome
                | some j =>
                    rw [hl] at he
                    have hl' := F.lookup_mono _ _
                      (show alLookup ({ st with queue := rest } :
                        SubsetState).subset_to_id _ = some j from hl)
                    refine ⟨?_, fun _ => ?_⟩
                    · rw [if_neg hmv, hl']
                      unfold subStepOf
                      rw [F.trans_other p.2 hpd]
                      exact he
                    · rw [hl']
                      rfl
        · exact Or.inl hnew

/-- Termination measure of the subset construction. -/
def subMeasure (nfa : NFA) (st : SubsetState) : Nat :=
  st.queue.length +
    2 * (2 ^ (insert nfa.start (targetsOf nfa)).card - st.id_to_subset.length)

theorem subsetStep_dec (nfa : NFA) :
    ∀ st, SubInv nfa st → subsetHalt st = false →
      subMeasure nfa (subsetStep nfa st) < subMeasure nfa st := by
  intro st hinv hhalt
  obtain ⟨hcore, hstart, hqreg, hqnd, hregspec⟩ := hinv
  cases hq : st.queue with
  | nil =>
      unfold subsetHalt at hhalt
      rw [hq] at hhalt
      simp at hhalt
  | cons hd rest =>
      obtain ⟨dfa_state, subset⟩ := hd
      have hstep : subsetStep nfa st =
          (finList nfa.symbols).foldl (subsetChar nfa subset dfa_state)
            { st with queue := rest } := by
        unfold subsetStep
        rw [hq]
      have hhd : ((dfa_state, subset) : Nat × Finset Nat) ∈ st.queue := by
        rw [hq]
        exact List.mem_cons_self _ _
      have hreg0 : (subset, dfa_state) ∈ st.subset_to_id := (hqreg _ hhd).1
      have htr_ds : alLookup st.transitions dfa_state = none := (hqreg _ hhd).2
      have hds : dfa_state < st.id_to_subset.length := reg_lt hcore hreg0
      have hcore0 : SubCore nfa { st with queue := rest } :=
        ⟨hcore.keys_eq, hcore.ids_eq, hcore.nodup, hcore.inU, hcore.accspec,
         hcore.acc_lt, hcore.fresh⟩
      have hqnd' : dfa_state ∉ rest.map Prod.fst ∧
          (rest.map Prod.fst).Nodup := by
        have h := hqnd
        rw [hq] at h
        simp only [List.map_cons, List.nodup_cons] at h
        exact h
      have hnone : ∀ c ∈ finList nfa.symbols,
          subStepOf { st with queue := rest } dfa_state c = none := by
        intro c _
        unfold subStepOf
        show (alLookup st.transitions dfa_state).bind _ = none
        rw [htr_ds]
        rfl
      have hq0 : ∀ p ∈ ({ st with queue := rest } : SubsetState).queue,
          (p.2, p.1) ∈ ({ st with queue := rest } : SubsetState).subset_to_id ∧
          alLookup ({ st with queue := rest } : SubsetState).transitions p.1 =
            none ∧ p.1 ≠ dfa_state := by
        intro p hp
        have hp' : p ∈ st.queue := by
          rw [hq]
          exact List.mem_cons_of_mem _ hp
        obtain ⟨h1, h2⟩ := hqreg p hp'
        refine ⟨h1, h2, ?_⟩
        intro hcon
        exact hqnd'.1 (hcon ▸ List.mem_map_of_mem Prod.fst hp)
      have F := subsetChar_fold_spec nfa subset dfa_state
        (finList nfa.symbols) { st with queue := rest } hcore0
        (finList_nodup _) hds hnone hq0 hqnd'.2
      rw [hstep]
      have hcnt := F.count_eq
      have hlen := F.len_mono
      have hbound := nodup_subsets_length_le F.core.nodup F.core.inU
      have hid0 : ({ st with queue := rest } : SubsetState).id_to_subset =
          st.id_to_subset := rfl
      have hqr : ({ st with queue := rest } : SubsetState).queue = rest := rfl
      rw [hid0, hqr] at hcnt
      rw [hid0] at hlen
      have hqlen : st.queue.length = rest.length + 1 := by
        rw [hq]
        rfl
      unfold subMeasure
      show ((finList nfa.symbols).foldl (subsetChar nfa subset dfa_state)
          { st with queue := rest }).queue.length + _ < _
      omega

theorem subsetInit_inv (nfa : NFA) : SubInv nfa (subsetInit nfa) := by
  have hsid : (subsetInit nfa).subset_to_id =
      [(({nfa.start} : Finset Nat), 0)] := rfl
  have hid : (subsetInit nfa).id_to_subset = [({nfa.start} : Finset Nat)] :=
    rfl
  have hqu : (subsetInit nfa).queue = [(0, ({nfa.start} : Finset Nat))] := rfl
  have htr : (subsetInit nfa).transitions = [] := rfl
  have haccspec : ∀ i : Nat, i ∈ (subsetInit nfa).accepts ↔
      (i = 0 ∧ ∃ a ∈ nfa.accept, a ∈ ({nfa.start} : Finset Nat)) := by
    intro i
    show i ∈ (if nfa.accept.any
        (fun a => decide (a ∈ ({nfa.start} : Finset Nat))) then
          ({0} : Finset Nat) else ∅) ↔ _
    by_cases hacc : nfa.accept.any
        (fun a => decide (a ∈ ({nfa.start} : Finset Nat)))
    · rw [if_pos hacc, Finset.mem_singleton]
      rw [List.any_eq_true] at hacc
      obtain ⟨a, ha, ha2⟩ := hacc
      exact ⟨fun h => ⟨h, a, ha, of_decide_eq_true ha2⟩, fun h => h.1⟩
    · rw [if_neg hacc]
      simp only [Finset.not_mem_empty, false_iff, not_and]
      intro _
      rintro ⟨a, ha, ha2⟩
      exact absurd (List.any_eq_true.mpr ⟨a, ha, decide_eq_true ha2⟩) hacc
  refine ⟨⟨?_, ?_, ?_, ?_, ?_, ?_, ?_⟩, ?_, ?_, ?_, ?_⟩
  · rw [hsid, hid]; rfl
  · rw [hsid, hid]; rfl
  · rw [hid]; exact List.nodup_singleton _
  · rw [hid]
    intro S hS
    rw [List.mem_singleton] at hS
    subst hS
    intro x hx
    rw [Finset.mem_singleton] at hx
    subst hx
    exact Finset.mem_insert_self _ _
  · rw [hsid]
    intro p hp
    rw [List.mem_singleton] at hp
    subst hp
    rw [haccspec]
    show (0 = 0 ∧ _) ↔ _
    simp
  · intro i hi
    rw [haccspec] at hi
    rw [hid, hi.1]
    show 0 < 1
    omega
  · intro i _
    rw [htr]
    rfl
  · rw [hsid]
    exact List.mem_singleton.mpr rfl
  · rw [hqu, hsid, htr]
    intro p hp
    rw [List.mem_singleton] at hp
    subst hp
    exact ⟨List.mem_singleton.mpr rfl, rfl⟩
  · rw [hqu]
    exact List.nodup_singleton _
  · rw [hsid, hqu]
    intro p hp
    rw [List.mem_singleton] at hp
    subst hp
    left
    show ((0 : Nat), ({nfa.start} : Finset Nat)) ∈ _
    exact List.mem_singleton.mpr rfl

theorem subset_loop_inv (nfa : NFA) :
    SubInv nfa (iterFuel (subsetStep nfa) subsetHalt (subsetFuel nfa)
      (subsetInit nfa)) :=
  iterFuel_invariant (subsetStep nfa) subsetHalt (SubInv nfa)
    (subsetStep_inv nfa) (subsetFuel nfa) (subsetInit nfa)
    (subsetInit_inv nfa)

theorem subset_loop_halts (nfa : NFA) :
    subsetHalt (iterFuel (subsetStep nfa) subsetHalt (subsetFuel nfa)
      (subsetInit nfa)) = true := by
  refine iterFuel_halts (subsetStep nfa) subsetHalt (SubInv nfa)
    (subMeasure nfa) (subsetStep_inv nfa) (subsetStep_dec nfa)
    (subsetFuel nfa) (subsetInit nfa) (subsetInit_inv nfa) ?_
  unfold subMeasure subsetFuel
  have hpos : 0 < 2 ^ (insert nfa.start (targetsOf nfa)).card :=
    pow_pos (by norm_num) _
  show (1 : Nat) + 2 * (2 ^ (insert nfa.start (targetsOf nfa)).card - 1) < _
  omega

theorem subset_run_bisim (nfa : NFA) (stF : SubsetState)
    (hinv : SubInv nfa stF) (hempty : stF.queue = []) (w : List Char) :
    ∀ (S : Finset Nat) (i : Nat), (S, i) ∈ stF.subset_to_id →
      ((DFA.mk 0 stF.accepts stF.transitions).acceptsFrom i w = true ↔
        ∃ a ∈ nfa.accept, a ∈ setRun nfa S w) := by
  induction w with
  | nil =>
      intro S i hreg
      show decide (i ∈ stF.accepts) = true ↔ _
      rw [decide_eq_true_iff]
      exact hinv.core.accspec (S, i) hreg
  | cons c cs ih =>
      intro S i hreg
      have hts : TransSpec nfa stF i S := by
        rcases hinv.regspec (S, i) hreg with h | h
        · rw [hempty] at h
          cases h
        · exact h
      obtain ⟨he, hs⟩ := hts c
      have hacc : (DFA.mk 0 stF.accepts stF.transitions).acceptsFrom i
          (c :: cs) =
          match subStepOf stF i c with
          | some next =>
              (DFA.mk 0 stF.accepts stF.transitions).acceptsFrom next cs
          | none => false := rfl
      rw [hacc, he]
      have hrun : setRun nfa S (c :: cs) =
          setRun nfa (move_on_char nfa S c) cs := rfl
      by_cases hmv : move_on_char nfa S c = ∅
      · rw [if_pos hmv]
        show (false = true) ↔ _
        rw [hrun, hmv, setRun_empty]
        simp
      · rw [if_neg hmv]
        have hsome := hs hmv
        cases hl : alLookup stF.subset_to_id (move_on_char nfa S c) with
        | none =>
            rw [hl] at hsome
            simp at hsome
        | some j =>
            show ((DFA.mk 0 stF.accepts stF.transitions).acceptsFrom j cs =
              true) ↔ _
            rw [hrun]
            exact ih (move_on_char nfa S c) j (alLookup_mem hl)

/-- **C2.** Subset construction preserves the language: for every
epsilon-free NFA and every string, the NFA accepts the string (some
`Char`-labelled path from the start state consuming it ends in an accept
state) iff the DFA produced by `nfa_to_dfa` accepts it. -/
theorem C2_determinization_preserves_language (nfa : NFA) (w : List Char)
    (heps : ∀ p ∈ nfa.transitions, ∀ e ∈ p.2,
      e.1 ≠ TransitionLabel.Epsilon) :
    ((nfa_to_dfa nfa).acceptsInput w = true) ↔ NfaAccepts nfa w := by
  have hinv := subset_loop_inv nfa
  have hhalt := subset_loop_halts nfa
  have hempty : (iterFuel (subsetStep nfa) subsetHalt (subsetFuel nfa)
      (subsetInit nfa)).queue = [] := List.isEmpty_iff.mp hhalt
  have hbisim := subset_run_bisim nfa _ hinv hempty w {nfa.start} 0
    hinv.start_mem
  have hrw : (nfa_to_dfa nfa).acceptsInput w =
      (DFA.mk 0 (iterFuel (subsetStep nfa) subsetHalt (subsetFuel nfa)
          (subsetInit nfa)).accepts
        (iterFuel (subsetStep nfa) subsetHalt (subsetFuel nfa)
          (subsetInit nfa)).transitions).acceptsFrom 0 w := rfl
  rw [hrw, hbisim]
  unfold NfaAccepts
  constructor
  · rintro ⟨a, ha, hrun⟩
    rw [setRun_mem] at hrun
    obtain ⟨s, hs, hpath⟩ := hrun
    rw [Finset.mem_singleton] at hs
    subst hs
    exact ⟨a, ha, hpath⟩
  · rintro ⟨t, ht, hpath⟩
    refine ⟨t, ht, ?_⟩
    rw [setRun_mem]
    exact ⟨nfa.start, Finset.mem_singleton_self _, hpath⟩

theorem C2_determinization_preserves_language_witness :
    NfaAccepts ⟨0, [1], [(0, [(TransitionLabel.Char 'a', 1)]), (1, [])]⟩
      ['a'] :=
  (C2_determinization_preserves_language
    ⟨0, [1], [(0, [(TransitionLabel.Char 'a', 1)]), (1, [])]⟩ ['a']
    (by decide)).mp (by decide)

/-! ### Epsilon elimination (`nfa/epsilon_elimination.rs`, `remove_epsilon`) -/

/-- Sort a list of state ids ascending (models `sort_unstable`). -/
def sortList (l : List Nat) : List Nat := l.foldr insSorted []

theorem mem_sortList {l : List Nat} {a : Nat} : a ∈ sortList l ↔ a ∈ l := by
  unfold sortList
  induction l with
  | nil => simp
  | cons x xs ih =>
      simp only [List.foldr_cons, mem_insSorted, List.mem_cons, ih]

/-- Loop state of `remove_epsilon`.  The queue carries each pending closure
together with its id (the Rust code queues the closure set and re-derives
the id from `state_map` via the sorted key; the pair is the same by
construction). -/
structure ElimState : Type where
  state_map : List (List Nat × Nat)
  next_id : Nat
  queue : List (Finset Nat × Nat)
  new_transitions : List (Nat × List (TransitionLabel × Nat))
deriving DecidableEq

/-- Body of the symbol loop of `remove_epsilon`: move on `c` from the
current closure, skip if empty, close the result, register the closure
(keyed by its sorted id list) if new, and record the target id for `c` in
`transitions_by_char`. -/
def elimChar (nfa : NFA) (closure : Finset Nat)
    (acc : ElimState × List (Char × Finset Nat)) (c : Char) :
    ElimState × List (Char × Finset Nat) :=
  let moved := move_on_char nfa closure c
  if moved = ∅ then acc
  else
    let target_closure := epsilon_closure_of_set nfa moved
    let target_sorted := finList target_closure
    match alLookup acc.1.state_map target_sorted with
    | some id =>
        (acc.1, alUpdate acc.2 c (fun old => insert id (old.getD ∅)))
    | none =>
        ({ state_map := acc.1.state_map ++ [(target_sorted, acc.1.next_id)],
           next_id := acc.1.next_id + 1,
           queue := acc.1.queue ++ [(target_closure, acc.1.next_id)],
           new_transitions := acc.1.new_transitions ++
             [(acc.1.next_id, [])] },
         alUpdate acc.2 c (fun old => insert acc.1.next_id (old.getD ∅)))

/-- One iteration of the `remove_epsilon` BFS: pop a closure, process every
symbol, then append the deduplicated `(Char c, target)` edges (chars in
ascending order, targets of each char in ascending order) to the current
id's edge list. -/
def elimStep (nfa : NFA) (st : ElimState) : ElimState :=
  match st.queue with
  | [] => st
  | (closure, current_id) :: rest =>
      let res := (finList nfa.symbols).foldl (elimChar nfa closure)
        ({ st with queue := rest }, [])
      { res.1 with new_transitions :=
          (alModify res.1.new_transitions current_id
            (fun es => es ++ (res.2.map (fun p =>
              (finList p.2).map
                (fun t => (TransitionLabel.Char p.1, t)))).join)) }

def elimHalt (st : ElimState) : Bool := st.queue.isEmpty

/-- Initial state of `remove_epsilon`: the epsilon closure of the original
start state, with new id 0. -/
def elimInit (nfa : NFA) : ElimState :=
  { state_map := [(finList (epsilon_closure_of_state nfa nfa.start), 0)],
    next_id := 1,
    queue := [(epsilon_closure_of_state nfa nfa.start, 0)],
    new_transitions := [(0, [])] }

/-- Fuel sufficient for the `remove_epsilon` BFS: each registered closure is
a distinct subset of the start state plus all edge targets. -/
def elimFuel (nfa : NFA) : Nat :=
  2 * 2 ^ (insert nfa.start (targetsOf nfa)).card + 1

/-- `remove_epsilon` from `nfa/epsilon_elimination.rs`. -/
def remove_epsilon (nfa : NFA) : NFA :=
  let final := iterFuel (elimStep nfa) elimHalt (elimFuel nfa) (elimInit nfa)
  { start := 0,
    accept := sortList (final.state_map.filterMap (fun p =>
      if nfa.accept.any (fun a => decide (a ∈ p.1)) then some p.2 else none)),
    transitions := final.new_transitions }

/-- The epsilon-closure-augmented simulation of an epsilon automaton:
alternate `move` and closure. -/
def epsSimRun (nfa : NFA) : Finset Nat → List Char → Finset Nat
  | S, [] => S
  | S, c :: cs =>
      epsSimRun nfa (epsilon_closure_of_set nfa (move_on_char nfa S c)) cs

/-- Acceptance of an epsilon automaton under closure-augmented simulation:
start from the closure of the start state, alternate move and closure, and
accept iff the final state set meets the accept set. -/
def EpsAccepts (nfa : NFA) (w : List Char) : Prop :=
  ∃ a ∈ nfa.accept,
    a ∈ epsSimRun nfa (epsilon_closure_of_state nfa nfa.start) w

theorem closure_set_subset_union (nfa : NFA) (S : Finset Nat) :
    epsilon_closure_of_set nfa S ⊆ S ∪ targetsOf nfa := by
  intro t ht
  rw [closure_set_spec] at ht
  obtain ⟨s, hs, hr⟩ := ht
  rcases Relation.ReflTransGen.cases_tail hr with he | ⟨u, -, hedge⟩
  · rw [he]
    exact Finset.mem_union_left _ hs
  · exact Finset.mem_union_right _ (mem_targetsOf hedge)

theorem closure_state_subset_union (nfa : NFA) (s : Nat) :
    epsilon_closure_of_state nfa s ⊆ insert s (targetsOf nfa) := by
  intro t ht
  rw [closure_state_spec] at ht
  rcases Relation.ReflTransGen.cases_tail ht with he | ⟨u, -, hedge⟩
  · rw [he]
    exact Finset.mem_insert_self _ _
  · exact Finset.mem_insert_of_mem (mem_targetsOf hedge)

theorem closure_set_empty (nfa : NFA) :
    epsilon_closure_of_set nfa ∅ = ∅ := by
  rw [Finset.eq_empty_iff_forall_not_mem]
  intro t ht
  rw [closure_set_spec] at ht
  obtain ⟨s, hs, -⟩ := ht
  exact absurd hs (Finset.not_mem_empty s)

theorem move_on_char_empty (nfa : NFA) (c : Char) :
    move_on_char nfa ∅ c = ∅ := by
  rw [Finset.eq_empty_iff_forall_not_mem]
  intro t ht
  rw [mem_move_on_char] at ht
  obtain ⟨s, hs, -⟩ := ht
  exact absurd hs (Finset.not_mem_empty s)

theorem epsSimRun_empty (nfa : NFA) (w : List Char) :
    epsSimRun nfa ∅ w = ∅ := by
  induction w with
  | nil => rfl
  | cons c cs ih =>
      show epsSimRun nfa
        (epsilon_closure_of_set nfa (move_on_char nfa ∅ c)) cs = ∅
      rw [move_on_char_empty, closure_set_empty]
      exact ih

theorem finList_inj {S T : Finset Nat} (h : finList S = finList T) :
    S = T := by
  ext a
  constructor
  · intro ha
    exact mem_finList.mp (h ▸ mem_finList.mpr ha)
  · intro ha
    exact mem_finList.mp (h.symm ▸ mem_finList.mpr ha)

theorem finList_toFinset (S : Finset Nat) : (finList S).toFinset = S := by
  ext a
  rw [List.mem_toFinset, mem_finList]

theorem mem_alUpdate {α β : Type} [DecidableEq α] {l : List (α × β)} {k : α}
    {f : Option β → β} {p : α × β} :
    p ∈ alUpdate l k f → p ∈ l ∨ p.1 = k := by
  induction l with
  | nil =>
      intro h
      rw [show alUpdate [] k f = [(k, f none)] from rfl,
        List.mem_singleton] at h
      right
      rw [h]
  | cons q rest ih =>
      obtain ⟨k', v⟩ := q
      intro h
      by_cases hk : k = k'
      · rw [show alUpdate ((k', v) :: rest) k f =
            (k', f (some v)) :: rest from by
          show (if k = k' then (k', f (some v)) :: rest
            else (k', v) :: alUpdate rest k f) = _
          rw [if_pos hk]] at h
        rcases List.mem_cons.mp h with h1 | h1
        · right
          rw [h1, hk]
        · exact Or.inl (List.mem_cons_of_mem _ h1)
      · rw [show alUpdate ((k', v) :: rest) k f =
            (k', v) :: alUpdate rest k f from by
          show (if k = k' then (k', f (some v)) :: rest
            else (k', v) :: alUpdate rest k f) = _
          rw [if_neg hk]] at h
        rcases List.mem_cons.mp h with h1 | h1
        · exact Or.inl (by rw [h1]; exact List.mem_cons_self _ _)
        · rcases ih h1 with h2 | h2
          · exact Or.inl (List.mem_cons_of_mem _ h2)
          · exact Or.inr h2

theorem alUpdate_map_fst_nodup {α β : Type} [DecidableEq α]
    {l : List (α × β)} (k : α) (f : Option β → β)
    (h : (l.map Prod.fst).Nodup) :
    ((alUpdate l k f).map Prod.fst).Nodup := by
  induction l with
  | nil =>
      rw [show alUpdate [] k f = [(k, f none)] from rfl]
      exact List.nodup_singleton _
  | cons q rest ih =>
      obtain ⟨k', v⟩ := q
      rw [List.map_cons, List.nodup_cons] at h
      by_cases hk : k = k'
      · rw [show alUpdate ((k', v) :: rest) k f =
            (k', f (some v)) :: rest from by
          show (if k = k' then (k', f (some v)) :: rest
            else (k', v) :: alUpdate rest k f) = _
          rw [if_pos hk], List.map_cons, List.nodup_cons]
        exact h
      · rw [show alUpdate ((k', v) :: rest) k f =
            (k', v) :: alUpdate rest k f from by
          show (if k = k' then (k', f (some v)) :: rest
            else (k', v) :: alUpdate rest k f) = _
          rw [if_neg hk], List.map_cons, List.nodup_cons]
        refine ⟨?_, ih h.2⟩
        intro hmem
        rw [List.mem_map] at hmem
        obtain ⟨p, hp, hpk⟩ := hmem
        rcases mem_alUpdate hp with h1 | h1
        · exact h.1 (hpk ▸ List.mem_map_of_mem Prod.fst h1)
        · rw [h1] at hpk
          exact hk (by rw [hpk])

/-- Contract of a fully processed id `i` of `remove_epsilon` with closure
set `S`: its recorded edges are exactly the `Char c` edges to the
registered id of the closure of the move on `c`, for the symbols whose move
is nonempty. -/
def EdgesSpecE (nfa : NFA) (st : ElimState) (i : Nat) (S : Finset Nat) :
    Prop :=
  (∀ e, e ∈ (alLookup st.new_transitions i).getD [] ↔
    ∃ c t, e = (TransitionLabel.Char c, t) ∧
      move_on_char nfa S c ≠ ∅ ∧
      alLookup st.state_map
        (finList (epsilon_closure_of_set nfa (move_on_char nfa S c))) =
          some t) ∧
  (∀ c, move_on_char nfa S c ≠ ∅ →
    (alLookup st.state_map
      (finList (epsilon_closure_of_set nfa (move_on_char nfa S c)))).isSome =
        true)

/-- Structural invariant of the `remove_epsilon` loop state. -/
structure ElimCore (nfa : NFA) (st : ElimState) : Prop where
  keys_nodup : (st.state_map.map Prod.fst).Nodup
  ids_eq : st.state_map.map Prod.snd = List.range st.next_id
  keys_canon : ∀ p ∈ st.state_map, p.1 = finList p.1.toFinset
  keys_inU : ∀ p ∈ st.state_map,
    p.1.toFinset ⊆ insert nfa.start (targetsOf nfa)
  trans_some : ∀ p ∈ st.state_map,
    (alLookup st.new_transitions p.2).isSome = true
  trans_none : ∀ i, st.next_id ≤ i → alLookup st.new_transitions i = none

theorem ereg_lt {nfa : NFA} {st : ElimState} (hc : ElimCore nfa st)
    {p : List Nat × Nat} (hp : p ∈ st.state_map) : p.2 < st.next_id := by
  have h : p.2 ∈ st.state_map.map Prod.snd := List.mem_map_of_mem Prod.snd hp
  rw [hc.ids_eq, List.mem_range] at h
  exact h

theorem ereg_lookup {nfa : NFA} {st : ElimState} (hc : ElimCore nfa st)
    {p : List Nat × Nat} (hp : p ∈ st.state_map) :
    alLookup st.state_map p.1 = some p.2 :=
  alLookup_of_mem_nodup _ hc.keys_nodup hp

theorem ereg_unique_id {nfa : NFA} {st : ElimState} (hc : ElimCore nfa st)
    {p q : List Nat × Nat} (hp : p ∈ st.state_map)
    (hq : q ∈ st.state_map) (h : p.2 = q.2) : p = q := by
  have hnd : (st.state_map.map Prod.snd).Nodup := by
    rw [hc.ids_eq]
    exact List.nodup_range _
  exact mem_eq_of_map_nodup hnd hp hq h

/-- Full invariant of the `remove_epsilon` loop. -/
structure ElimInv (nfa : NFA) (st : ElimState) : Prop where
  core : ElimCore nfa st
  start_mem : (finList (epsilon_closure_of_state nfa nfa.start), 0) ∈
    st.state_map
  qreg : ∀ p ∈ st.queue, (finList p.1, p.2) ∈ st.state_map ∧
    (alLookup st.new_transitions p.2).getD [] = []
  qnodup : (st.queue.map Prod.snd).Nodup
  regspec : ∀ p ∈ st.state_map, (p.1.toFinset, p.2) ∈ st.queue ∨
    EdgesSpecE nfa st p.2 p.1.toFinset

theorem finList_singleton (a : Nat) : finList ({a} : Finset Nat) = [a] :=
  rfl

theorem elim_next_id_le {nfa : NFA} {st : ElimState}
    (hc : ElimCore nfa st) :
    st.next_id ≤ 2 ^ (insert nfa.start (targetsOf nfa)).card := by
  have hlen : st.state_map.length = st.next_id := by
    have h := congrArg List.length hc.ids_eq
    rw [List.length_map, List.length_range] at h
    exact h
  have hnd : ((st.state_map.map Prod.fst).map List.toFinset).Nodup := by
    refine List.Nodup.map_on ?_ hc.keys_nodup
    intro x hx y hy hxy
    rw [List.mem_map] at hx hy
    obtain ⟨p, hp, hpx⟩ := hx
    obtain ⟨q, hq, hqy⟩ := hy
    rw [← hpx, ← hqy] at hxy ⊢
    rw [hc.keys_canon p hp, hc.keys_canon q hq, hxy]
  have hU : ∀ S ∈ (st.state_map.map Prod.fst).map List.toFinset,
      S ⊆ insert nfa.start (targetsOf nfa) := by
    intro S hS
    rw [List.mem_map] at hS
    obtain ⟨x, hx, hxS⟩ := hS
    rw [List.mem_map] at hx
    obtain ⟨p, hp, hpx⟩ := hx
    rw [← hxS, ← hpx]
    exact hc.keys_inU p hp
  have h := nodup_subsets_length_le hnd hU
  rw [List.length_map, List.length_map, hlen] at h
  exact h

theorem elimChar_cases (nfa : NFA) (closure : Finset Nat)
    (acc : ElimState × List (Char × Finset Nat)) (c : Char) :
    (move_on_char nfa closure c = ∅ ∧ elimChar nfa closure acc c = acc) ∨
    (∃ id, move_on_char nfa closure c ≠ ∅ ∧
      alLookup acc.1.state_map
        (finList (epsilon_closure_of_set nfa
          (move_on_char nfa closure c))) = some id ∧
      elimChar nfa closure acc c =
        (acc.1, alUpdate acc.2 c (fun old => insert id (old.getD ∅)))) ∨
    (move_on_char nfa closure c ≠ ∅ ∧
      alLookup acc.1.state_map
        (finList (epsilon_closure_of_set nfa
          (move_on_char nfa closure c))) = none ∧
      elimChar nfa closure acc c =
        ({ state_map := acc.1.state_map ++
             [(finList (epsilon_closure_of_set nfa
                 (move_on_char nfa closure c)), acc.1.next_id)],
           next_id := acc.1.next_id + 1,
           queue := acc.1.queue ++
             [(epsilon_closure_of_set nfa (move_on_char nfa closure c),
               acc.1.next_id)],
           new_transitions := acc.1.new_transitions ++
             [(acc.1.next_id, [])] },
         alUpdate acc.2 c (fun old => insert acc.1.next_id (old.getD ∅)))) := by
  by_cases h0 : move_on_char nfa closure c = ∅
  · left
    refine ⟨h0, ?_⟩
    unfold elimChar
    rw [if_pos h0]
  · cases hl : alLookup acc.1.state_map
        (finList (epsilon_closure_of_set nfa
          (move_on_char nfa closure c))) with
    | some id =>
        right; left
        refine ⟨id, h0, rfl, ?_⟩
        unfold elimChar
        rw [if_neg h0]
        simp only [hl]
    | none =>
        right; right
        refine ⟨h0, rfl, ?_⟩
        unfold elimChar
        rw [if_neg h0]
        simp only [hl]

theorem alLookup_append_singleton_ne {α β : Type} [DecidableEq α]
    (l : List (α × β)) {i k : α} (v : β) (h : i ≠ k) :
    alLookup (l ++ [(k, v)]) i = alLookup l i := by
  rw [alLookup_append]
  cases hl : alLookup l i with
  | some w => rfl
  | none =>
      show alLookup [(k, v)] i = none
      unfold alLookup
      rw [if_neg h]
      rfl

/-- What the symbol loop of one `remove_epsilon` BFS iteration establishes,
relating the pre-loop state (`st0`, with the current pair already popped,
and the empty `transitions_by_char` accumulator `tbc0`) to the pair after
the loop (`res`). -/
structure EFoldSpec (nfa : NFA) (S : Finset Nat) (cs : List Char)
    (st0 : ElimState) (tbc0 : List (Char × Finset Nat))
    (res : ElimState × List (Char × Finset Nat)) : Prop where
  core : ElimCore nfa res.1
  reg_mono : ∀ p ∈ st0.state_map, p ∈ res.1.state_map
  lookup_mono : ∀ l i, alLookup st0.state_map l = some i →
    alLookup res.1.state_map l = some i
  len_mono : st0.next_id ≤ res.1.next_id
  trans_old : ∀ i, i < st0.next_id →
    alLookup res.1.new_transitions i = alLookup st0.new_transitions i
  trans_fresh : ∀ i, st0.next_id ≤ i → i < res.1.next_id →
    alLookup res.1.new_transitions i = some []
  qpre : ∀ p ∈ res.1.queue, (finList p.1, p.2) ∈ res.1.state_map ∧
    (alLookup res.1.new_transitions p.2).getD [] = []
  qnodup : (res.1.queue.map Prod.snd).Nodup
  queue_mono : ∀ p ∈ st0.queue, p ∈ res.1.queue
  reg_new : ∀ p ∈ res.1.state_map,
    p ∈ st0.state_map ∨ (p.1.toFinset, p.2) ∈ res.1.queue
  qold : ∀ p ∈ res.1.queue, p ∈ st0.queue ∨ st0.next_id ≤ p.2
  tbc_in : ∀ c ∈ cs,
    (move_on_char nfa S c = ∅ → alLookup res.2 c = none) ∧
    (move_on_char nfa S c ≠ ∅ → ∃ t, alLookup res.2 c = some {t} ∧
      alLookup res.1.state_map
        (finList (epsilon_closure_of_set nfa (move_on_char nfa S c))) =
          some t)
  tbc_out : ∀ c, c ∉ cs → alLookup res.2 c = alLookup tbc0 c
  tbc_nodup : (res.2.map Prod.fst).Nodup
  count_eq : res.1.queue.length + st0.next_id =
    st0.queue.length + res.1.next_id

theorem elimChar_fold_spec (nfa : NFA) (S : Finset Nat) (cs : List Char) :
    ∀ (st0 : ElimState) (tbc0 : List (Char × Finset Nat)),
      ElimCore nfa st0 → cs.Nodup →
      (∀ c ∈ cs, alLookup tbc0 c = none) →
      (∀ p ∈ st0.queue, (finList p.1, p.2) ∈ st0.state_map ∧
        (alLookup st0.new_transitions p.2).getD [] = []) →
      (st0.queue.map Prod.snd).Nodup →
      (tbc0.map Prod.fst).Nodup →
      EFoldSpec nfa S cs st0 tbc0
        (cs.foldl (elimChar nfa S) (st0, tbc0)) := by
  induction cs with
  | nil =>
      intro st0 tbc0 hcore hnd htbc hq hqnd htbcnd
      exact ⟨hcore, fun p hp => hp, fun l i h => h, le_refl _,
        fun i _ => rfl,
        fun i h1 h2 => absurd h2 (by show ¬ i < st0.next_id; omega),
        hq, hqnd, fun p hp => hp, fun p hp => Or.inl hp,
        fun p hp => Or.inl hp,
        fun c hc => absurd hc (List.not_mem_nil c),
        fun c _ => rfl, htbcnd, rfl⟩
  | cons c rest ih =>
      intro st0 tbc0 hcore hnd htbc hq hqnd htbcnd
      simp only [List.foldl_cons]
      have hcnr : c ∉ rest := (List.nodup_cons.mp hnd).1
      have hndr : rest.Nodup := (List.nodup_cons.mp hnd).2
      have htbc0c : alLookup tbc0 c = none :=
        htbc c (List.mem_cons_self _ _)
      rcases elimChar_cases nfa S (st0, tbc0) c with
        ⟨hmv, heq⟩ | ⟨id, hmv, hl, heq⟩ | ⟨hmv, hl, heq⟩
      · -- empty move: accumulator unchanged
        rw [heq]
        have F := ih st0 tbc0 hcore hndr
          (fun c' hc' => htbc c' (List.mem_cons_of_mem _ hc')) hq hqnd htbcnd
        refine ⟨F.core, F.reg_mono, F.lookup_mono, F.len_mono, F.trans_old,
          F.trans_fresh, F.qpre, F.qnodup, F.queue_mono, F.reg_new, F.qold,
          ?_, ?_, F.tbc_nodup, F.count_eq⟩
        · intro c' hc'
          rcases List.mem_cons.mp hc' with hc' | hc'
          · subst hc'
            refine ⟨fun _ => ?_, fun hne => absurd hmv hne⟩
            rw [F.tbc_out c' hcnr]
            exact htbc0c
          · exact F.tbc_in c' hc'
        · intro c' hc'
          exact F.tbc_out c' (fun h => hc' (List.mem_cons_of_mem _ h))
      · -- existing target id: only the accumulator changes
        rw [heq]
        have htbc1 : ∀ c' ∈ rest,
            alLookup (alUpdate tbc0 c (fun old => insert id (old.getD ∅)))
              c' = none := by
          intro c' hc'
          rw [alLookup_alUpdate_ne _ _ (fun h => hcnr (by rw [← h]; exact hc'))]
          exact htbc c' (List.mem_cons_of_mem _ hc')
        have htbcnd1 := alUpdate_map_fst_nodup c
          (fun old => insert id (old.getD ∅)) htbcnd
        have F := ih st0 (alUpdate tbc0 c (fun old => insert id (old.getD ∅)))
          hcore hndr htbc1 hq hqnd htbcnd1
        refine ⟨F.core, F.reg_mono, F.lookup_mono, F.len_mono, F.trans_old,
          F.trans_fresh, F.qpre, F.qnodup, F.queue_mono, F.reg_new, F.qold,
          ?_, ?_, F.tbc_nodup, F.count_eq⟩
        · intro c' hc'
          rcases List.mem_cons.mp hc' with hc' | hc'
          · subst hc'
            refine ⟨fun h => absurd h hmv, fun _ => ⟨id, ?_, ?_⟩⟩
            · rw [F.tbc_out c' hcnr, alLookup_alUpdate_self, htbc0c]
              show some (insert id ∅) = _
              rw [insert_emptyc_eq]
            · exact F.lookup_mono _ _ hl
          · exact F.tbc_in c' hc'
        · intro c' hc'
          have h1 : c' ∉ rest := fun h => hc' (List.mem_cons_of_mem _ h)
          have h2 : c' ≠ c :=
            fun h => hc' (by rw [h]; exact List.mem_cons_self _ _)
          rw [F.tbc_out c' h1, alLookup_alUpdate_ne _ _ h2]
      · -- new registration
        rw [heq]
        have hkey : (finList (epsilon_closure_of_set nfa
            (move_on_char nfa S c))).toFinset =
            epsilon_closure_of_set nfa (move_on_char nfa S c) :=
          finList_toFinset _
        have hkeyU : epsilon_closure_of_set nfa (move_on_char nfa S c) ⊆
            insert nfa.start (targetsOf nfa) := by
          intro x hx
          rcases Finset.mem_union.mp
            (closure_set_subset_union nfa _ hx) with h1 | h1
          · exact Finset.mem_insert_of_mem (move_subset_targets nfa S c h1)
          · exact Finset.mem_insert_of_mem h1
        have hkeynew : finList (epsilon_closure_of_set nfa
            (move_on_char nfa S c)) ∉ st0.state_map.map Prod.fst :=
          alLookup_eq_none.mp hl
        have hcore1 : ElimCore nfa
            { state_map := st0.state_map ++
                [(finList (epsilon_closure_of_set nfa
                    (move_on_char nfa S c)), st0.next_id)],
              next_id := st0.next_id + 1,
              queue := st0.queue ++
                [(epsilon_closure_of_set nfa (move_on_char nfa S c),
                  st0.next_id)],
              new_transitions := st0.new_transitions ++
                [(st0.next_id, [])] } := by
          refine ⟨?_, ?_, ?_, ?_, ?_, ?_⟩
          · show ((st0.state_map ++
                [(finList (epsilon_closure_of_set nfa
                    (move_on_char nfa S c)), st0.next_id)]).map
                Prod.fst).Nodup
            rw [List.map_append, List.nodup_append]
            exact ⟨hcore.keys_nodup, List.nodup_singleton _,
              fun a ha hb => by
                simp only [List.map_cons, List.map_nil,
                  List.mem_singleton] at hb
                subst hb
                exact hkeynew ha⟩
          · show (st0.state_map ++
                [(finList (epsilon_closure_of_set nfa
                    (move_on_char nfa S c)), st0.next_id)]).map
                Prod.snd = List.range (st0.next_id + 1)
            rw [List.map_append, hcore.ids_eq]
            simp [List.range_succ]
          · intro p hp
            rcases List.mem_append.mp hp with h | h
            · exact hcore.keys_canon p h
            · rw [List.mem_singleton] at h
              subst h
              show finList _ = finList (finList _).toFinset
              rw [hkey]
          · intro p hp
            rcases List.mem_append.mp hp with h | h
            · exact hcore.keys_inU p h
            · rw [List.mem_singleton] at h
              subst h
              show (finList _).toFinset ⊆ _
              rw [hkey]
              exact hkeyU
          · intro p hp
            rcases List.mem_append.mp hp with h | h
            · have := hcore.trans_some p h
              cases hlk : alLookup st0.new_transitions p.2 with
              | none => rw [hlk] at this; cases this
              | some l =>
                  rw [alLookup_append_some hlk]
                  rfl
            · rw [List.mem_singleton] at h
              subst h
              show (alLookup (st0.new_transitions ++ [(st0.next_id, [])])
                st0.next_id).isSome = true
              rw [alLookup_append_none (hcore.trans_none _ (le_refl _))]
              simp [alLookup]
          · intro i hi
            have hi' : st0.next_id + 1 ≤ i := hi
            show alLookup (st0.new_transitions ++ [(st0.next_id, [])]) i =
              none
            rw [alLookup_append_singleton_ne _ _
              (by omega : i ≠ st0.next_id)]
            exact hcore.trans_none i (by omega)
        have htbc1 : ∀ c' ∈ rest,
            alLookup (alUpdate tbc0 c
              (fun old => insert st0.next_id (old.getD ∅))) c' = none := by
          intro c' hc'
          rw [alLookup_alUpdate_ne _ _ (fun h => hcnr (by rw [← h]; exact hc'))]
          exact htbc c' (List.mem_cons_of_mem _ hc')
        have htbcnd1 := alUpdate_map_fst_nodup c
          (fun old => insert st0.next_id (old.getD ∅)) htbcnd
        have hq1 : ∀ p ∈ (st0.queue ++
            [(epsilon_closure_of_set nfa (move_on_char nfa S c),
              st0.next_id)]),
            (finList p.1, p.2) ∈ (st0.state_map ++
              [(finList (epsilon_closure_of_set nfa
                  (move_on_char nfa S c)), st0.next_id)]) ∧
            (alLookup (st0.new_transitions ++ [(st0.next_id, [])])
              p.2).getD [] = [] := by
          intro p hp
          rcases List.mem_append.mp hp with h | h
          · obtain ⟨h1, h2⟩ := hq p h
            have hplt : p.2 < st0.next_id := ereg_lt hcore h1
            refine ⟨List.mem_append_left _ h1, ?_⟩
            rw [alLookup_append_singleton_ne _ _
              (by omega : p.2 ≠ st0.next_id)]
            exact h2
          · rw [List.mem_singleton] at h
            subst h
            refine ⟨List.mem_append_right _ (List.mem_singleton.mpr rfl), ?_⟩
            rw [alLookup_append_none (hcore.trans_none _ (le_refl _))]
            simp [alLookup]
        have hqnd1 : ((st0.queue ++
            [(epsilon_closure_of_set nfa (move_on_char nfa S c),
              st0.next_id)]).map Prod.snd).Nodup := by
          rw [List.map_append, List.nodup_append]
          refine ⟨hqnd, List.nodup_singleton _, ?_⟩
          intro a ha hb
          simp only [List.map_cons, List.map_nil, List.mem_singleton] at hb
          subst hb
          rw [List.mem_map] at ha
          obtain ⟨p, hp, hpa⟩ := ha
          have := ereg_lt hcore (hq p hp).1
          omega
        have F := ih _ (alUpdate tbc0 c
            (fun old => insert st0.next_id (old.getD ∅)))
          hcore1 hndr htbc1 hq1 hqnd1 htbcnd1
        refine ⟨F.core, ?_, ?_, ?_, ?_, ?_, F.qpre, F.qnodup, ?_, ?_, ?_, ?_,
          ?_, F.tbc_nodup, ?_⟩
        · intro p hp
          exact F.reg_mono p (List.mem_append_left _ hp)
        · intro l i h
          exact F.lookup_mono l i (alLookup_append_some h)
        · exact Nat.le_trans (Nat.le_succ _) F.len_mono
        · intro i hi
          rw [F.trans_old i (by show i < st0.next_id + 1; omega)]
          show alLookup (st0.new_transitions ++ [(st0.next_id, [])]) i = _
          rw [alLookup_append_singleton_ne _ _ (by omega : i ≠ st0.next_id)]
        · intro i h1 h2
          by_cases hi : i = st0.next_id
          · subst hi
            rw [F.trans_old st0.next_id
              (by show st0.next_id < st0.next_id + 1; omega)]
            show alLookup (st0.new_transitions ++ [(st0.next_id, [])])
              st0.next_id = some []
            rw [alLookup_append_none (hcore.trans_none _ (le_refl _))]
            simp [alLookup]
          · refine F.trans_fresh i ?_ h2
            show st0.next_id + 1 ≤ i
            omega
        · intro p hp
          exact F.queue_mono p (List.mem_append_left _ hp)
        · intro p hp
          rcases F.reg_new p hp with h | h
          · rcases List.mem_append.mp h with h1 | h1
            · exact Or.inl h1
            · rw [List.mem_singleton] at h1
              subst h1
              refine Or.inr (F.queue_mono _ ?_)
              show ((finList (epsilon_closure_of_set nfa
                  (move_on_char nfa S c))).toFinset, st0.next_id) ∈ _
              rw [hkey]
              exact List.mem_append_right _ (List.mem_singleton.mpr rfl)
          · exact Or.inr h
        · intro p hp
          rcases F.qold p hp with h | h
          · rcases List.mem_append.mp h with h1 | h1
            · exact Or.inl h1
            · rw [List.mem_singleton] at h1
              right
              rw [h1]
          · right
            have h' : st0.next_id + 1 ≤ p.2 := h
            omega
        · intro c' hc'
          rcases List.mem_cons.mp hc' with hc' | hc'
          · subst hc'
            refine ⟨fun h => absurd h hmv, fun _ => ⟨st0.next_id, ?_, ?_⟩⟩
            · rw [F.tbc_out c' hcnr, alLookup_alUpdate_self, htbc0c]
              show some (insert st0.next_id ∅) = _
              rw [insert_emptyc_eq]
            · refine F.lookup_mono _ _ ?_
              show alLookup (st0.state_map ++ _) _ = _
              rw [alLookup_append_none hl]
              simp [alLookup]
          · exact F.tbc_in c' hc'
        · intro c' hc'
          have h1 : c' ∉ rest := fun h => hc' (List.mem_cons_of_mem _ h)
          have h2 : c' ≠ c :=
            fun h => hc' (by rw [h]; exact List.mem_cons_self _ _)
          rw [F.tbc_out c' h1, alLookup_alUpdate_ne _ _ h2]
        · have h1 := F.count_eq
          dsimp only at h1
          have e2 : (st0.queue ++
              [(epsilon_closure_of_set nfa (move_on_char nfa S c),
                st0.next_id)]).length = st0.queue.length + 1 := by
            simp
          rw [e2] at h1
          dsimp only
          omega

/-- The symbol-loop fold of one `remove_epsilon` BFS iteration. -/
def eFold (nfa : NFA) (closure : Finset Nat) (st : ElimState)
    (rest : List (Finset Nat × Nat)) : ElimState × List (Char × Finset Nat) :=
  (finList nfa.symbols).foldl (elimChar nfa closure)
    ({ st with queue := rest }, [])

/-- The deduplicated edge list built from `transitions_by_char`. -/
def eJoin (res2 : List (Char × Finset Nat)) : List (TransitionLabel × Nat) :=
  (res2.map (fun p =>
    (finList p.2).map (fun t => (TransitionLabel.Char p.1, t)))).join

theorem mem_eJoin {res2 : List (Char × Finset Nat)}
    {e : TransitionLabel × Nat} :
    e ∈ eJoin res2 ↔
      ∃ p ∈ res2, ∃ t, t ∈ p.2 ∧ e = (TransitionLabel.Char p.1, t) := by
  unfold eJoin
  rw [List.mem_join]
  constructor
  · rintro ⟨l, hl, he⟩
    rw [List.mem_map] at hl
    obtain ⟨p, hp, hpl⟩ := hl
    rw [← hpl] at he
    rw [List.mem_map] at he
    obtain ⟨t, ht, hte⟩ := he
    exact ⟨p, hp, t, mem_finList.mp ht, hte.symm⟩
  · rintro ⟨p, hp, t, ht, he⟩
    refine ⟨(finList p.2).map (fun t => (TransitionLabel.Char p.1, t)),
      List.mem_map_of_mem _ hp, ?_⟩
    rw [List.mem_map]
    exact ⟨t, mem_finList.mpr ht, he.symm⟩

theorem elimStep_inv (nfa : NFA) :
    ∀ st, ElimInv nfa st → elimHalt st = false →
      ElimInv nfa (elimStep nfa st) := by
  intro st hinv hhalt
  obtain ⟨hcore, hstart, hqreg, hqnd, hregspec⟩ := hinv
  cases hq : st.queue with
  | nil =>
      unfold elimHalt at hhalt
      rw [hq] at hhalt
      simp at hhalt
  | cons hd rest =>
      obtain ⟨closure, current_id⟩ := hd
      have hstep : elimStep nfa st =
          { (eFold nfa closure st rest).1 with
            new_transitions := alModify
              (eFold nfa closure st rest).1.new_transitions current_id
              (fun es => es ++ eJoin (eFold nfa closure st rest).2) } := by
        unfold elimStep eFold eJoin
        rw [hq]
      have hhd : ((closure, current_id) : Finset Nat × Nat) ∈ st.queue := by
        rw [hq]
        exact List.mem_cons_self _ _
      have hreg0 : (finList closure, current_id) ∈ st.state_map :=
        (hqreg _ hhd).1
      have hedges0 : (alLookup st.new_transitions current_id).getD [] = [] :=
        (hqreg _ hhd).2
      have hsome0 : alLookup st.new_transitions current_id = some [] := by
        have hs := hcore.trans_some _ hreg0
        cases hl : alLookup st.new_transitions current_id with
        | none =>
            rw [hl] at hs
            simp at hs
        | some l =>
            rw [hl] at hedges0
            rw [Option.getD_some] at hedges0
            rw [hedges0]
      have hcid : current_id < st.next_id := ereg_lt hcore hreg0
      have hcore0 : ElimCore nfa { st with queue := rest } :=
        ⟨hcore.keys_nodup, hcore.ids_eq, hcore.keys_canon, hcore.keys_inU,
         hcore.trans_some, hcore.trans_none⟩
      have hqnd' : current_id ∉ rest.map Prod.snd ∧
          (rest.map Prod.snd).Nodup := by
        have h := hqnd
        rw [hq] at h
        simp only [List.map_cons, List.nodup_cons] at h
        exact h
      have hq0 : ∀ p ∈ ({ st with queue := rest } : ElimState).queue,
          (finList p.1, p.2) ∈
            ({ st with queue := rest } : ElimState).state_map ∧
          (alLookup ({ st with queue := rest } : ElimState).new_transitions
            p.2).getD [] = [] := by
        intro p hp
        have hp' : p ∈ st.queue := by
          rw [hq]
          exact List.mem_cons_of_mem _ hp
        exact hqreg p hp'
      have F : EFoldSpec nfa closure (finList nfa.symbols)
          { st with queue := rest } [] (eFold nfa closure st rest) :=
        elimChar_fold_spec nfa closure (finList nfa.symbols)
          { st with queue := rest } [] hcore0 (finList_nodup _)
          (fun c _ => rfl) hq0 hqnd'.2 List.nodup_nil
      have hsm : (elimStep nfa st).state_map =
          (eFold nfa closure st rest).1.state_map := by rw [hstep]
      have hqu : (elimStep nfa st).queue =
          (eFold nfa closure st rest).1.queue := by rw [hstep]
      have hnid : (elimStep nfa st).next_id =
          (eFold nfa closure st rest).1.next_id := by rw [hstep]
      have hnt_cur : alLookup (eFold nfa closure st rest).1.new_transitions
          current_id = some [] := by
        rw [F.trans_old current_id hcid]
        exact hsome0
      have hlook_final : alLookup (elimStep nfa st).new_transitions
          current_id = some (eJoin (eFold nfa closure st rest).2) := by
        rw [hstep]
        show alLookup (alModify _ _ _) _ = _
        rw [alLookup_alModify_self, hnt_cur]
        rfl
      have hlook_other : ∀ j, j ≠ current_id →
          alLookup (elimStep nfa st).new_transitions j =
            alLookup (eFold nfa closure st rest).1.new_transitions j := by
        intro j hj
        rw [hstep]
        show alLookup (alModify _ _ _) _ = _
        rw [alLookup_alModify_ne _ _ hj]
      have htspec : EdgesSpecE nfa (elimStep nfa st) current_id closure := by
        constructor
        · intro e
          constructor
          · intro he
            rw [hlook_final, Option.getD_some, mem_eJoin] at he
            obtain ⟨p, hp, t, ht, he⟩ := he
            have hlk := alLookup_of_mem_nodup _ F.tbc_nodup hp
            have hcs : p.1 ∈ finList nfa.symbols := by
              by_contra hcon
              rw [F.tbc_out p.1 hcon] at hlk
              simp [alLookup] at hlk
            obtain ⟨h1, h2⟩ := F.tbc_in p.1 hcs
            by_cases hmv : move_on_char nfa closure p.1 = ∅
            · rw [h1 hmv] at hlk
              simp at hlk
            · obtain ⟨tid, hlk2, hsmk⟩ := h2 hmv
              rw [hlk] at hlk2
              have hp2 : p.2 = {tid} := by injection hlk2
              have htid : t = tid := by
                rw [hp2] at ht
                exact Finset.mem_singleton.mp ht
              refine ⟨p.1, tid, ?_, hmv, ?_⟩
              · rw [he, htid]
              · rw [hsm]
                exact hsmk
          · rintro ⟨c, t, he1, he2, he3⟩
            have hcs : c ∈ finList nfa.symbols := by
              rw [mem_finList]
              by_contra hcon
              exact he2 (move_empty_of_not_symbol nfa closure c hcon)
            obtain ⟨-, h2⟩ := F.tbc_in c hcs
            obtain ⟨tid, hlk2, hsmk2⟩ := h2 he2
            rw [hsm, hsmk2] at he3
            have htt : tid = t := by injection he3
            rw [hlook_final, Option.getD_some, mem_eJoin]
            refine ⟨(c, {tid}), alLookup_mem hlk2, t, ?_, ?_⟩
            · show t ∈ ({tid} : Finset Nat)
              rw [Finset.mem_singleton]
              exact htt.symm
            · rw [he1]
        · intro c hmvc
          have hcs : c ∈ finList nfa.symbols := by
            rw [mem_finList]
            by_contra hcon
            exact hmvc (move_empty_of_not_symbol nfa closure c hcon)
          obtain ⟨-, h2⟩ := F.tbc_in c hcs
          obtain ⟨tid, -, hsmk2⟩ := h2 hmvc
          rw [hsm, hsmk2]
          rfl
      refine ⟨⟨?_, ?_, ?_, ?_, ?_, ?_⟩, ?_, ?_, ?_, ?_⟩
      · rw [hsm]
        exact F.core.keys_nodup
      · rw [hsm, hnid]
        exact F.core.ids_eq
      · rw [hsm]
        exact F.core.keys_canon
      · rw [hsm]
        exact F.core.keys_inU
      · intro p hp
        rw [hsm] at hp
        by_cases hpc : p.2 = current_id
        · rw [hpc, hlook_final]
          rfl
        · rw [hlook_other p.2 hpc]
          exact F.core.trans_some p hp
      · intro i hi
        rw [hnid] at hi
        have h2 : st.next_id ≤ (eFold nfa closure st rest).1.next_id :=
          F.len_mono
        have hic : i ≠ current_id := by omega
        rw [hlook_other i hic]
        exact F.core.trans_none i hi
      · rw [hsm]
        exact F.reg_mono _ hstart
      · intro p hp
        rw [hqu] at hp
        obtain ⟨h1, h2⟩ := F.qpre p hp
        have hpc : p.2 ≠ current_id := by
          rcases F.qold p hp with h | h
          · have hp' : p ∈ rest := h
            intro hcon
            exact hqnd'.1 (hcon ▸ List.mem_map_of_mem Prod.snd hp')
          · have h' : st.next_id ≤ p.2 := h
            omega
        refine ⟨?_, ?_⟩
        · rw [hsm]
          exact h1
        · rw [hlook_other p.2 hpc]
          exact h2
      · rw [hqu]
        exact F.qnodup
      · intro p hp
        rw [hsm] at hp
        rcases F.reg_new p hp with hold | hnew
        · have hold' : p ∈ st.state_map := hold
          rcases hregspec p hold' with hque | hts
          · rw [hq] at hque
            rcases List.mem_cons.mp hque with hh | hh
            · have h1 : p.1.toFinset = closure := congrArg Prod.fst hh
              have h2 : p.2 = current_id := congrArg Prod.snd hh
              rw [h1, h2]
              exact Or.inr htspec
            · left
              rw [hqu]
              exact F.queue_mono _ hh
          · by_cases hpc : p.2 = current_id
            · have hpp : p = (finList closure, current_id) :=
                ereg_unique_id hcore hold' hreg0 hpc
              rw [hpp]
              right
              show EdgesSpecE nfa (elimStep nfa st) current_id
                (finList closure).toFinset
              rw [finList_toFinset]
              exact htspec
            · right
              obtain ⟨hiff, hsome⟩ := hts
              constructor
              · intro e
                rw [hlook_other p.2 hpc,
                  F.trans_old p.2 (ereg_lt hcore hold')]
                constructor
                · intro he
                  obtain ⟨c, t, he1, he2, he3⟩ := (hiff e).mp he
                  refine ⟨c, t, he1, he2, ?_⟩
                  rw [hsm]
                  exact F.lookup_mono _ _ he3
                · rintro ⟨c, t, he1, he2, he3⟩
                  have hs := hsome c he2
                  cases hl : alLookup st.state_map
                      (finList (epsilon_closure_of_set nfa
                        (move_on_char nfa p.1.toFinset c))) with
                  | none =>
                      rw [hl] at hs
                      simp at hs
                  | some u =>
                      have hl' := F.lookup_mono _ _
                        (show alLookup ({ st with queue := rest } :
                          ElimState).state_map _ = some u from hl)
                      rw [hsm, hl'] at he3
                      have htt : u = t := by injection he3
                      refine (hiff e).mpr ⟨c, t, he1, he2, ?_⟩
                      rw [hl, htt]
              · intro c hmvc
                have hs := hsome c hmvc
                rw [hsm]
                cases hl : alLookup st.state_map
                    (finList (epsilon_closure_of_set nfa
                      (move_on_char nfa p.1.toFinset c))) with
                | none =>
                    rw [hl] at hs
                    simp at hs
                | some u =>
                    rw [F.lookup_mono _ _
                      (show alLookup ({ st with queue := rest } :
                        ElimState).state_map _ = some u from hl)]
                    rfl
        · left
          rw [hqu]
          exact hnew

/-- Termination measure of the `remove_epsilon` BFS. -/
def emeasure (nfa : NFA) (st : ElimState) : Nat :=
  st.queue.length +
    2 * (2 ^ (insert nfa.start (targetsOf nfa)).card - st.next_id)

theorem elimStep_dec (nfa : NFA) :
    ∀ st, ElimInv nfa st → elimHalt st = false →
      emeasure nfa (elimStep nfa st) < emeasure nfa st := by
  intro st hinv hhalt
  obtain ⟨hcore, hstart, hqreg, hqnd, hregspec⟩ := hinv
  cases hq : st.queue with
  | nil =>
      unfold elimHalt at hhalt
      rw [hq] at hhalt
      simp at hhalt
  | cons hd rest =>
      obtain ⟨closure, current_id⟩ := hd
      have hstep : elimStep nfa st =
          { (eFold nfa closure st rest).1 with
            new_transitions := alModify
              (eFold nfa closure st rest).1.new_transitions current_id
              (fun es => es ++ eJoin (eFold nfa closure st rest).2) } := by
        unfold elimStep eFold eJoin
        rw [hq]
      have hcore0 : ElimCore nfa { st with queue := rest } :=
        ⟨hcore.keys_nodup, hcore.ids_eq, hcore.keys_canon, hcore.keys_inU,
         hcore.trans_some, hcore.trans_none⟩
      have hqnd' : current_id ∉ rest.map Prod.snd ∧
          (rest.map Prod.snd).Nodup := by
        have h := hqnd
        rw [hq] at h
        simp only [List.map_cons, List.nodup_cons] at h
        exact h
      have hq0 : ∀ p ∈ ({ st with queue := rest } : ElimState).queue,
          (finList p.1, p.2) ∈
            ({ st with queue := rest } : ElimState).state_map ∧
          (alLookup ({ st with queue := rest } : ElimState).new_transitions
            p.2).getD [] = [] := by
        intro p hp
        have hp' : p ∈ st.queue := by
          rw [hq]
          exact List.mem_cons_of_mem _ hp
        exact hqreg p hp'
      have F : EFoldSpec nfa closure (finList nfa.symbols)
          { st with queue := rest } [] (eFold nfa closure st rest) :=
        elimChar_fold_spec nfa closure (finList nfa.symbols)
          { st with queue := rest } [] hcore0 (finList_nodup _)
          (fun c _ => rfl) hq0 hqnd'.2 List.nodup_nil
      have hqu : (elimStep nfa st).queue =
          (eFold nfa closure st rest).1.queue := by rw [hstep]
      have hnid : (elimStep nfa st).next_id =
          (eFold nfa closure st rest).1.next_id := by rw [hstep]
      have hcnt := F.count_eq
      dsimp only at hcnt
      have hlen : st.next_id ≤ (eFold nfa closure st rest).1.next_id :=
        F.len_mono
      have hbound := elim_next_id_le F.core
      have hqlen : st.queue.length = rest.length + 1 := by
        rw [hq]
        rfl
      unfold emeasure
      rw [hqu, hnid]
      omega

theorem elimInit_inv (nfa : NFA) : ElimInv nfa (elimInit nfa) := by
  have hsm : (elimInit nfa).state_map =
      [(finList (epsilon_closure_of_state nfa nfa.start), 0)] := rfl
  have hq : (elimInit nfa).queue =
      [(epsilon_closure_of_state nfa nfa.start, 0)] := rfl
  have htr : (elimInit nfa).new_transitions = [(0, [])] := rfl
  have hnid : (elimInit nfa).next_id = 1 := rfl
  refine ⟨⟨?_, ?_, ?_, ?_, ?_, ?_⟩, ?_, ?_, ?_, ?_⟩
  · rw [hsm]
    simp
  · rw [hsm, hnid]
    rfl
  · intro p hp
    rw [hsm, List.mem_singleton] at hp
    subst hp
    show finList _ = finList (finList _).toFinset
    rw [finList_toFinset]
  · intro p hp
    rw [hsm, List.mem_singleton] at hp
    subst hp
    show (finList _).toFinset ⊆ _
    rw [finList_toFinset]
    exact closure_state_subset_union nfa nfa.start
  · intro p hp
    rw [hsm, List.mem_singleton] at hp
    subst hp
    rw [htr]
    rfl
  · intro i hi
    rw [htr]
    rw [hnid] at hi
    show alLookup [(0, [])] i = none
    unfold alLookup
    rw [if_neg (by omega : i ≠ 0)]
    rfl
  · rw [hsm]
    exact List.mem_singleton.mpr rfl
  · intro p hp
    rw [hq, List.mem_singleton] at hp
    subst hp
    refine ⟨?_, ?_⟩
    · rw [hsm]
      show (finList _, 0) ∈ _
      exact List.mem_singleton.mpr rfl
    · rw [htr]
      rfl
  · rw [hq]
    simp
  · intro p hp
    rw [hsm, List.mem_singleton] at hp
    subst hp
    left
    rw [hq]
    show ((finList _).toFinset, 0) ∈ _
    rw [finList_toFinset]
    exact List.mem_singleton.mpr rfl

theorem elim_loop_inv (nfa : NFA) :
    ElimInv nfa (iterFuel (elimStep nfa) elimHalt (elimFuel nfa)
      (elimInit nfa)) :=
  iterFuel_invariant (elimStep nfa) elimHalt (ElimInv nfa)
    (elimStep_inv nfa) (elimFuel nfa) (elimInit nfa) (elimInit_inv nfa)

theorem elim_loop_halts (nfa : NFA) :
    elimHalt (iterFuel (elimStep nfa) elimHalt (elimFuel nfa)
      (elimInit nfa)) = true := by
  refine iterFuel_halts (elimStep nfa) elimHalt (ElimInv nfa)
    (emeasure nfa) (elimStep_inv nfa) (elimStep_dec nfa)
    (elimFuel nfa) (elimInit nfa) (elimInit_inv nfa) ?_
  unfold emeasure elimFuel
  have hpos : 0 < 2 ^ (insert nfa.start (targetsOf nfa)).card :=
    pow_pos (by norm_num) _
  show (1 : Nat) + 2 * (2 ^ (insert nfa.start (targetsOf nfa)).card - 1) < _
  omega

/-- The NFA assembled from a final `remove_epsilon` loop state. -/
def elimResult (nfa : NFA) (stF : ElimState) : NFA :=
  { start := 0,
    accept := sortList (stF.state_map.filterMap (fun p =>
      if nfa.accept.any (fun a => decide (a ∈ p.1)) then some p.2
      else none)),
    transitions := stF.new_transitions }

theorem elim_accept_char (nfa : NFA) (stF : ElimState)
    (hinv : ElimInv nfa stF) {p : List Nat × Nat} (hp : p ∈ stF.state_map) :
    p.2 ∈ (elimResult nfa stF).accept ↔
      ∃ a ∈ nfa.accept, a ∈ p.1.toFinset := by
  show p.2 ∈ sortList (stF.state_map.filterMap (fun q =>
    if nfa.accept.any (fun a => decide (a ∈ q.1)) then some q.2
    else none)) ↔ _
  rw [mem_sortList, List.mem_filterMap]
  constructor
  · rintro ⟨q, hq, hqe⟩
    by_cases ht : nfa.accept.any (fun a => decide (a ∈ q.1))
    · rw [if_pos ht] at hqe
      have hq2 : q.2 = p.2 := by injection hqe
      have hqq : q = p := ereg_unique_id hinv.core hq hp hq2
      subst hqq
      rw [List.any_eq_true] at ht
      obtain ⟨a, ha, ha2⟩ := ht
      exact ⟨a, ha, List.mem_toFinset.mpr (of_decide_eq_true ha2)⟩
    · rw [if_neg ht] at hqe
      simp at hqe
  · rintro ⟨a, ha, ha2⟩
    have ht : nfa.accept.any (fun a => decide (a ∈ p.1)) = true :=
      List.any_eq_true.mpr ⟨a, ha,
        decide_eq_true (List.mem_toFinset.mp ha2)⟩
    refine ⟨p, hp, ?_⟩
    rw [if_pos ht]

theorem elim_run_bisim (nfa : NFA) (stF : ElimState)
    (hinv : ElimInv nfa stF) (hempty : stF.queue = []) (w : List Char) :
    ∀ p ∈ stF.state_map,
      ((∃ t ∈ (elimResult nfa stF).accept,
          NfaPath (elimResult nfa stF) p.2 w t) ↔
        ∃ a ∈ nfa.accept, a ∈ epsSimRun nfa p.1.toFinset w) := by
  induction w with
  | nil =>
      intro p hp
      constructor
      · rintro ⟨t, ht, hpath⟩
        have hte : p.2 = t := hpath
        rw [← hte] at ht
        exact (elim_accept_char nfa stF hinv hp).mp ht
      · intro h
        exact ⟨p.2, (elim_accept_char nfa stF hinv hp).mpr h, rfl⟩
  | cons c cs ih =>
      intro p hp
      have hts : EdgesSpecE nfa stF p.2 p.1.toFinset := by
        rcases hinv.regspec p hp with h | h
        · rw [hempty] at h
          cases h
        · exact h
      obtain ⟨hiff, hsome⟩ := hts
      by_cases hmv : move_on_char nfa p.1.toFinset c = ∅
      · constructor
        · rintro ⟨t, ht, u, hedge, hpath⟩
          obtain ⟨c', t', he1, he2, -⟩ :=
            (hiff (TransitionLabel.Char c, u)).mp hedge
          have hcc : c = c' := by
            have h1 : TransitionLabel.Char c = TransitionLabel.Char c' :=
              congrArg Prod.fst he1
            injection h1
          rw [← hcc] at he2
          exact absurd hmv he2
        · rintro ⟨a, ha, ha2⟩
          have hrun : epsSimRun nfa p.1.toFinset (c :: cs) = ∅ := by
            show epsSimRun nfa (epsilon_closure_of_set nfa
              (move_on_char nfa p.1.toFinset c)) cs = ∅
            rw [hmv, closure_set_empty, epsSimRun_empty]
          rw [hrun] at ha2
          exact absurd ha2 (Finset.not_mem_empty a)
      · have hs := hsome c hmv
        cases hl : alLookup stF.state_map
            (finList (epsilon_closure_of_set nfa
              (move_on_char nfa p.1.toFinset c))) with
        | none =>
            rw [hl] at hs
            simp at hs
        | some j =>
            have hqmem : (finList (epsilon_closure_of_set nfa
                (move_on_char nfa p.1.toFinset c)), j) ∈ stF.state_map :=
              alLookup_mem hl
            have hIH := ih (finList (epsilon_closure_of_set nfa
              (move_on_char nfa p.1.toFinset c)), j) hqmem
            dsimp only at hIH
            rw [finList_toFinset] at hIH
            constructor
            · rintro ⟨t, ht, u, hedge, hpath⟩
              obtain ⟨c', t', he1, he2, he3⟩ :=
                (hiff (TransitionLabel.Char c, u)).mp hedge
              have hcc : c = c' := by
                have h1 : TransitionLabel.Char c = TransitionLabel.Char c' :=
                  congrArg Prod.fst he1
                injection h1
              have huu : u = t' := congrArg Prod.snd he1
              rw [← hcc] at he3
              rw [hl] at he3
              have htj : t' = j := by
                injection he3 with hv
                exact hv.symm
              refine hIH.mp ⟨t, ht, ?_⟩
              rw [← htj, ← huu]
              exact hpath
            · rintro ⟨a, ha, ha2⟩
              have ha2' : a ∈ epsSimRun nfa (epsilon_closure_of_set nfa
                  (move_on_char nfa p.1.toFinset c)) cs := ha2
              obtain ⟨t, ht, hpath⟩ := hIH.mpr ⟨a, ha, ha2'⟩
              refine ⟨t, ht, j, ?_, hpath⟩
              exact (hiff (TransitionLabel.Char c, j)).mpr
                ⟨c, j, rfl, hmv, hl⟩

/-- **C3.** Epsilon elimination preserves the language: for every epsilon
automaton and every string, the automaton accepts the string under
epsilon-closure-augmented simulation (start from the closure of the start
state, alternate move and closure, accept when the final set meets the
accept list) iff the epsilon-free NFA produced by `remove_epsilon` accepts
it under plain NFA path semantics. -/
theorem C3_epsilon_elimination_preserves_language (nfa : NFA)
    (w : List Char) :
    EpsAccepts nfa w ↔ NfaAccepts (remove_epsilon nfa) w := by
  have hinv := elim_loop_inv nfa
  have hhalt := elim_loop_halts nfa
  have hempty : (iterFuel (elimStep nfa) elimHalt (elimFuel nfa)
      (elimInit nfa)).queue = [] := List.isEmpty_iff.mp hhalt
  have hbisim := elim_run_bisim nfa _ hinv hempty w
    (finList (epsilon_closure_of_state nfa nfa.start), 0) hinv.start_mem
  dsimp only at hbisim
  rw [finList_toFinset] at hbisim
  exact Iff.symm hbisim

/-! ### Tokenizer and parser (`regex/tokenizer.rs`, `regex/parser.rs`) -/

/-- `Token` from `regex/tokenizer.rs`. -/
inductive Token : Type
  | Char (c : Char)
  | Plus
  | Star
  | LParen
  | RParen
deriving DecidableEq, Repr

/-- `ParseError` from `regex/parser.rs`. -/
inductive ParseError : Type
  | UnexpectedEnd
  | UnexpectedToken (t : Token)
deriving DecidableEq, Repr

/-- The characters `tokenize` recognizes (operators, alphanumerics and
whitespace).  `Char.isAlphanum` and `Char.isWhitespace` stand in for Rust's
`char::is_alphanumeric` / `char::is_whitespace`. -/
def tokRecognized (ch : Char) : Bool :=
  ch = '+' || ch = '*' || ch = '(' || ch = ')' ||
    ch.isAlphanum || ch.isWhitespace

/-- `tokenize` from `regex/tokenizer.rs`.  The Rust function panics on an
unrecognized character; the panic is modelled as `none`. -/
def tokenize : List Char → Option (List Token)
  | [] => some []
  | ch :: rest =>
      if ch = '+' then (tokenize rest).map (fun ts => Token.Plus :: ts)
      else if ch = '*' then (tokenize rest).map (fun ts => Token.Star :: ts)
      else if ch = '(' then (tokenize rest).map (fun ts => Token.LParen :: ts)
      else if ch = ')' then (tokenize rest).map (fun ts => Token.RParen :: ts)
      else if ch.isAlphanum then
        (tokenize rest).map (fun ts => Token.Char ch :: ts)
      else if ch.isWhitespace then tokenize rest
      else none

/-- The `while let Some(Token::Star) = self.peek()` loop of
`parse_factor`. -/
def starLoop : RegexAST → List Token → RegexAST × List Token
  | node, Token.Star :: rest => starLoop (RegexAST.Star node) rest
  | node, ts => (node, ts)

/-- Whether `parse_term`'s loop continues: the next token starts a factor
(`Token::Char` or `Token::LParen`). -/
def peekFactorStart : List Token → Bool
  | Token.Char _ :: _ => true
  | Token.LParen :: _ => true
  | _ => false

/-- Which parser entry point is running: `parse_expr`, its union loop (with
the node built so far), `parse_term`, its concatenation loop, `parse_factor`
and `parse_primary` from `regex/parser.rs`. -/
inductive PK : Type
  | expr
  | exprLoop (node : RegexAST)
  | term
  | termLoop (node : RegexAST)
  | factor
  | primary
deriving DecidableEq, Repr

/-- The mutually recursive parser of `regex/parser.rs` as one fueled
function; the cursor `pos` is modelled by passing the remaining token list.
`none` means the fuel ran out, which `parseGo_spec` shows cannot happen
with fuel above `6 * ts.length + pkRank k`. -/
def parseGo : Nat → PK → List Token →
    Option (Except ParseError (RegexAST × List Token))
  | 0, _, _ => none
  | fuel + 1, PK.expr, ts =>
      match parseGo fuel PK.term ts with
      | none => none
      | some (Except.error e) => some (Except.error e)
      | some (Except.ok (node, ts1)) => parseGo fuel (PK.exprLoop node) ts1
  | fuel + 1, PK.exprLoop node, ts =>
      match ts with
      | Token.Plus :: rest =>
          match parseGo fuel PK.term rest with
          | none => none
          | some (Except.error e) => some (Except.error e)
          | some (Except.ok (rhs, ts2)) =>
              parseGo fuel (PK.exprLoop (RegexAST.Union node rhs)) ts2
      | _ => some (Except.ok (node, ts))
  | fuel + 1, PK.term, ts =>
      match parseGo fuel PK.factor ts with
      | none => none
      | some (Except.error e) => some (Except.error e)
      | some (Except.ok (node, ts1)) => parseGo fuel (PK.termLoop node) ts1
  | fuel + 1, PK.termLoop node, ts =>
      if peekFactorStart ts then
        match parseGo fuel PK.factor ts with
        | none => none
        | some (Except.error e) => some (Except.error e)
        | some (Except.ok (rhs, ts2)) =>
            parseGo fuel (PK.termLoop (RegexAST.Concat node rhs)) ts2
      else some (Except.ok (node, ts))
  | fuel + 1, PK.factor, ts =>
      match parseGo fuel PK.primary ts with
      | none => none
      | some (Except.error e) => some (Except.error e)
      | some (Except.ok (node, ts1)) => some (Except.ok (starLoop node ts1))
  | fuel + 1, PK.primary, ts =>
      match ts with
      | Token.Char c :: rest => some (Except.ok (RegexAST.Char c, rest))
      | Token.LParen :: rest =>
          match parseGo fuel PK.expr rest with
          | none => none
          | some (Except.error e) => some (Except.error e)
          | some (Except.ok (node, ts1)) =>
              match ts1 with
              | Token.RParen :: ts2 => some (Except.ok (node, ts2))
              | t :: _ => some (Except.error (ParseError.UnexpectedToken t))
              | [] => some (Except.error ParseError.UnexpectedEnd)
      | t :: _ => some (Except.error (ParseError.UnexpectedToken t))
      | [] => some (Except.error ParseError.UnexpectedEnd)

/-- Rank of a parser entry point in the termination measure. -/
def pkRank : PK → Nat
  | PK.primary => 0
  | PK.factor => 1
  | PK.termLoop _ => 2
  | PK.term => 3
  | PK.exprLoop _ => 4
  | PK.expr => 5

/-- How many tokens an entry point is guaranteed to consume on success. -/
def pkStrict : PK → Nat
  | PK.primary => 1
  | PK.factor => 1
  | _ => 0

/-- `parse_language` from `regex/parser.rs`: tokenize, parse an expression,
and require the whole input to be consumed.  The fuel is sufficient by
`parseGo_spec`, so the fuel-exhaustion branch is dead code. -/
def parse_language (input : List Char) : Option (Except ParseError RegexAST) :=
  match tokenize input with
  | none => none
  | some tokens =>
      match parseGo (6 * tokens.length + 6) PK.expr tokens with
      | none => none
      | some (Except.error e) => some (Except.error e)
      | some (Except.ok (ast, rest)) =>
          match rest with
          | [] => some (Except.ok ast)
          | t :: _ => some (Except.error (ParseError.UnexpectedToken t))

theorem isSome_map {α β : Type} (o : Option α) (f : α → β) :
    (o.map f).isSome = o.isSome := by
  cases o <;> rfl

theorem tokenize_cons (ch : Char) (rest : List Char) :
    (tokenize (ch :: rest)).isSome = true ↔
      tokRecognized ch = true ∧ (tokenize rest).isSome = true := by
  have he : tokenize (ch :: rest) =
      (if ch = '+' then (tokenize rest).map (fun ts => Token.Plus :: ts)
       else if ch = '*' then (tokenize rest).map (fun ts => Token.Star :: ts)
       else if ch = '(' then
         (tokenize rest).map (fun ts => Token.LParen :: ts)
       else if ch = ')' then
         (tokenize rest).map (fun ts => Token.RParen :: ts)
       else if ch.isAlphanum then
         (tokenize rest).map (fun ts => Token.Char ch :: ts)
       else if ch.isWhitespace then tokenize rest
       else none) := rfl
  rw [he]
  unfold tokRecognized
  by_cases h1 : ch = '+'
  · simp_all [isSome_map]
  rw [if_neg h1]
  by_cases h2 : ch = '*'
  · simp_all [isSome_map]
  rw [if_neg h2]
  by_cases h3 : ch = '('
  · simp_all [isSome_map]
  rw [if_neg h3]
  by_cases h4 : ch = ')'
  · simp_all [isSome_map]
  rw [if_neg h4]
  by_cases h5 : ch.isAlphanum = true
  · simp_all [isSome_map]
  rw [if_neg h5]
  by_cases h6 : ch.isWhitespace = true
  · simp_all [isSome_map]
  rw [if_neg h6]
  simp_all [isSome_map]

theorem tokenize_isSome : ∀ (input : List Char),
    (tokenize input).isSome = true ↔
      ∀ c ∈ input, tokRecognized c = true := by
  intro input
  induction input with
  | nil => simp [tokenize]
  | cons ch rest ih =>
      rw [tokenize_cons]
      simp [List.forall_mem_cons, ih]

theorem starLoop_length : ∀ (ts : List Token) (node : RegexAST),
    (starLoop node ts).2.length ≤ ts.length := by
  intro ts
  induction ts with
  | nil =>
      intro node
      exact le_refl _
  | cons t rest ih =>
      intro node
      cases t with
      | Star =>
          have h := ih (RegexAST.Star node)
          show (starLoop (RegexAST.Star node) rest).2.length ≤
            rest.length + 1
          omega
      | Char c => exact le_refl _
      | Plus => exact le_refl _
      | LParen => exact le_refl _
      | RParen => exact le_refl _

theorem parseGo_spec : ∀ (fuel : Nat) (k : PK) (ts : List Token),
    (∀ node ts1, parseGo fuel k ts = some (Except.ok (node, ts1)) →
      ts1.length + pkStrict k ≤ ts.length) ∧
    (6 * ts.length + pkRank k < fuel → parseGo fuel k ts ≠ none) := by
  intro fuel
  induction fuel with
  | zero =>
      intro k ts
      constructor
      · intro node ts1 h
        simp [parseGo] at h
      · intro h
        omega
  | succ fuel ih =>
      intro k ts
      cases k with
      | expr =>
          constructor
          · intro node ts1 h
            simp only [parseGo] at h
            cases hterm : parseGo fuel PK.term ts with
            | none =>
                rw [hterm] at h
                simp at h
            | some r =>
                rw [hterm] at h
                cases r with
                | error e => simp at h
                | ok pr =>
                    obtain ⟨nd, tsA⟩ := pr
                    have h1 := (ih PK.term ts).1 nd tsA hterm
                    have h2 := (ih (PK.exprLoop nd) tsA).1 node ts1 h
                    simp only [pkStrict] at h1 h2 ⊢
                    omega
          · intro hlt
            simp only [pkRank] at hlt
            simp only [parseGo]
            have hterm_ne := (ih PK.term ts).2
              (by simp only [pkRank]; omega)
            cases hterm : parseGo fuel PK.term ts with
            | none => exact absurd hterm hterm_ne
            | some r =>
                cases r with
                | error e => simp
                | ok pr =>
                    obtain ⟨nd, tsA⟩ := pr
                    have h1 := (ih PK.term ts).1 nd tsA hterm
                    simp only [pkStrict] at h1
                    exact (ih (PK.exprLoop nd) tsA).2
                      (by simp only [pkRank]; omega)
      | exprLoop node0 =>
          constructor
          · intro node ts1 h
            simp only [pkStrict]
            cases ts with
            | nil =>
                simp only [parseGo] at h
                simp only [Option.some.injEq, Except.ok.injEq,
                  Prod.mk.injEq] at h
                rw [← h.2]
                omega
            | cons t rest =>
                cases t with
                | Plus =>
                    simp only [parseGo] at h
                    cases hterm : parseGo fuel PK.term rest with
                    | none =>
                        rw [hterm] at h
                        simp at h
                    | some r =>
                        rw [hterm] at h
                        cases r with
                        | error e => simp at h
                        | ok pr =>
                            obtain ⟨rhs, ts2⟩ := pr
                            have h1 := (ih PK.term rest).1 rhs ts2 hterm
                            have h2 := (ih (PK.exprLoop
                              (RegexAST.Union node0 rhs)) ts2).1 node ts1 h
                            simp only [pkStrict] at h1 h2
                            simp only [List.length_cons]
                            omega
                | Char c =>
                    simp only [parseGo] at h
                    simp only [Option.some.injEq, Except.ok.injEq,
                      Prod.mk.injEq] at h
                    rw [← h.2]
                    omega
                | Star =>
                    simp only [parseGo] at h
                    simp only [Option.some.injEq, Except.ok.injEq,
                      Prod.mk.injEq] at h
                    rw [← h.2]
                    omega
                | LParen =>
                    simp only [parseGo] at h
                    simp only [Option.some.injEq, Except.ok.injEq,
                      Prod.mk.injEq] at h
                    rw [← h.2]
                    omega
                | RParen =>
                    simp only [parseGo] at h
                    simp only [Option.some.injEq, Except.ok.injEq,
                      Prod.mk.injEq] at h
                    rw [← h.2]
                    omega
          · intro hlt
            simp only [pkRank] at hlt
            cases ts with
            | nil =>
                simp only [parseGo]
                simp
            | cons t rest =>
                cases t with
                | Plus =>
                    simp only [parseGo]
                    have hterm_ne := (ih PK.term rest).2
                      (by simp only [pkRank, List.length_cons] at hlt ⊢; omega)
                    cases hterm : parseGo fuel PK.term rest with
                    | none => exact absurd hterm hterm_ne
                    | some r =>
                        cases r with
                        | error e => simp
                        | ok pr =>
                            obtain ⟨rhs, ts2⟩ := pr
                            have h1 := (ih PK.term rest).1 rhs ts2 hterm
                            simp only [pkStrict] at h1
                            exact (ih (PK.exprLoop
                              (RegexAST.Union node0 rhs)) ts2).2
                              (by simp only [pkRank,
                                List.length_cons] at hlt ⊢; omega)
                | Char c =>
                    simp only [parseGo]
                    simp
                | Star =>
                    simp only [parseGo]
                    simp
                | LParen =>
                    simp only [parseGo]
                    simp
                | RParen =>
                    simp only [parseGo]
                    simp
      | term =>
          constructor
          · intro node ts1 h
            simp only [parseGo] at h
            cases hfac : parseGo fuel PK.factor ts with
            | none =>
                rw [hfac] at h
                simp at h
            | some r =>
                rw [hfac] at h
                cases r with
                | error e => simp at h
                | ok pr =>
                    obtain ⟨nd, tsA⟩ := pr
                    have h1 := (ih PK.factor ts).1 nd tsA hfac
                    have h2 := (ih (PK.termLoop nd) tsA).1 node ts1 h
                    simp only [pkStrict] at h1 h2 ⊢
                    omega
          · intro hlt
            simp only [pkRank] at hlt
            simp only [parseGo]
            have hfac_ne := (ih PK.factor ts).2
              (by simp only [pkRank]; omega)
            cases hfac : parseGo fuel PK.factor ts with
            | none => exact absurd hfac hfac_ne
            | some r =>
                cases r with
                | error e => simp
                | ok pr =>
                    obtain ⟨nd, tsA⟩ := pr
                    have h1 := (ih PK.factor ts).1 nd tsA hfac
                    simp only [pkStrict] at h1
                    exact (ih (PK.termLoop nd) tsA).2
                      (by simp only [pkRank]; omega)
      | termLoop node0 =>
          constructor
          · intro node ts1 h
            simp only [parseGo] at h
            by_cases hpeek : peekFactorStart ts
            · rw [if_pos hpeek] at h
              cases hfac : parseGo fuel PK.factor ts with
              | none =>
                  rw [hfac] at h
                  simp at h
              | some r =>
                  rw [hfac] at h
                  cases r with
                  | error e => simp at h
                  | ok pr =>
                      obtain ⟨rhs, ts2⟩ := pr
                      have h1 := (ih PK.factor ts).1 rhs ts2 hfac
                      have h2 := (ih (PK.termLoop
                        (RegexAST.Concat node0 rhs)) ts2).1 node ts1 h
                      simp only [pkStrict] at h1 h2 ⊢
                      omega
            · rw [if_neg hpeek] at h
              simp only [Option.some.injEq, Except.ok.injEq,
                Prod.mk.injEq] at h
              simp only [pkStrict]
              rw [← h.2]
              omega
          · intro hlt
            simp only [pkRank] at hlt
            simp only [parseGo]
            by_cases hpeek : peekFactorStart ts
            · rw [if_pos hpeek]
              have hfac_ne := (ih PK.factor ts).2
                (by simp only [pkRank]; omega)
              cases hfac : parseGo fuel PK.factor ts with
              | none => exact absurd hfac hfac_ne
              | some r =>
                  cases r with
                  | error e => simp
                  | ok pr =>
                      obtain ⟨rhs, ts2⟩ := pr
                      have h1 := (ih PK.factor ts).1 rhs ts2 hfac
                      simp only [pkStrict] at h1
                      exact (ih (PK.termLoop
                        (RegexAST.Concat node0 rhs)) ts2).2
                        (by simp only [pkRank]; omega)
            · rw [if_neg hpeek]
              simp
      | factor =>
          constructor
          · intro node ts1 h
            simp only [parseGo] at h
            cases hpri : parseGo fuel PK.primary ts with
            | none =>
                rw [hpri] at h
                simp at h
            | some r =>
                rw [hpri] at h
                cases r with
                | error e => simp at h
                | ok pr =>
                    obtain ⟨nd, tsA⟩ := pr
                    have h1 := (ih PK.primary ts).1 nd tsA hpri
                    have h2 := starLoop_length tsA nd
                    simp only [Option.some.injEq, Except.ok.injEq] at h
                    have h3 : ts1 = (starLoop nd tsA).2 :=
                      (congrArg Prod.snd h).symm
                    simp only [pkStrict] at h1 ⊢
                    rw [h3]
                    omega
          · intro hlt
            simp only [pkRank] at hlt
            simp only [parseGo]
            have hpri_ne := (ih PK.primary ts).2
              (by simp only [pkRank]; omega)
            cases hpri : parseGo fuel PK.primary ts with
            | none => exact absurd hpri hpri_ne
            | some r =>
                cases r with
                | error e => simp
                | ok pr => simp
      | primary =>
          constructor
          · intro node ts1 h
            simp only [pkStrict]
            cases ts with
            | nil =>
                simp only [parseGo] at h
                simp at h
            | cons t rest =>
                cases t with
                | Char c =>
                    simp only [parseGo] at h
                    simp only [Option.some.injEq, Except.ok.injEq,
                      Prod.mk.injEq] at h
                    rw [← h.2]
                    simp
                | LParen =>
                    simp only [parseGo] at h
                    cases hexp : parseGo fuel PK.expr rest with
                    | none =>
                        rw [hexp] at h
                        simp at h
                    | some r =>
                        rw [hexp] at h
                        cases r with
                        | error e => simp at h
                        | ok pr =>
                            obtain ⟨nd, tsA⟩ := pr
                            have h1 := (ih PK.expr rest).1 nd tsA hexp
                            simp only [pkStrict] at h1
                            cases tsA with
                            | nil => simp at h
                            | cons u ts2 =>
                                cases u with
                                | RParen =>
                                    simp only [Option.some.injEq,
                                      Except.ok.injEq, Prod.mk.injEq] at h
                                    rw [← h.2]
                                    simp only [List.length_cons] at h1 ⊢
                                    omega
                                | Char c => simp at h
                                | Plus => simp at h
                                | Star => simp at h
                                | LParen => simp at h
                | Plus =>
                    simp only [parseGo] at h
                    simp at h
                | Star =>
                    simp only [parseGo] at h
                    simp at h
                | RParen =>
                    simp only [parseGo] at h
                    simp at h
          · intro hlt
            simp only [pkRank] at hlt
            cases ts with
            | nil =>
                simp only [parseGo]
                simp
            | cons t rest =>
                cases t with
                | Char c =>
                    simp only [parseGo]
                    simp
                | LParen =>
                    simp only [parseGo]
                    have hexp_ne := (ih PK.expr rest).2
                      (by simp only [pkRank, List.length_cons] at hlt ⊢; omega)
                    cases hexp : parseGo fuel PK.expr rest with
                    | none => exact absurd hexp hexp_ne
                    | some r =>
                        cases r with
                        | error e => simp
                        | ok pr =>
                            obtain ⟨nd, tsA⟩ := pr
                            cases tsA with
                            | nil => simp
                            | cons u ts2 =>
                                cases u with
                                | RParen => simp
                                | Char c => simp
                                | Plus => simp
                                | Star => simp
                                | LParen => simp
                | Plus =>
                    simp only [parseGo]
                    simp
                | Star =>
                    simp only [parseGo]
                    simp
                | RParen =>
                    simp only [parseGo]
                    simp

/-- **C9 (counterexample).** The claim says converting any input pattern to
an AST never aborts and surfaces all failures as parse-error values, even
for characters outside the recognized alphabet.  This is false: `tokenize`
panics (modelled as `none`) on the unrecognized character `'#'`, before the
parser ever runs, so `parse_language "#"` aborts instead of returning an
`UnexpectedToken`/`UnexpectedEnd` value. -/
theorem C9_parse_error_totality_counterexample :
    parse_language ['#'] = none := rfl

/-- **C9 (amended).** Pattern-to-AST conversion returns a value (an AST or
a `ParseError`) exactly when every character of the input is recognized by
the tokenizer (an operator, alphanumeric, or whitespace); on any input
containing an unrecognized character `tokenize` panics instead of
producing an error value.  The parser itself is total: once tokenization
succeeds, the result is always `some` (ok, `UnexpectedToken`, or
`UnexpectedEnd`). -/
theorem C9_parse_error_totality_amended (input : List Char) :
    (parse_language input).isSome = true ↔
      ∀ c ∈ input, tokRecognized c = true := by
  unfold parse_language
  cases htok : tokenize input with
  | none =>
      have h1 := tokenize_isSome input
      rw [htok] at h1
      simp at h1 ⊢
      exact h1
  | some tokens =>
      dsimp only
      have h1 := tokenize_isSome input
      rw [htok] at h1
      simp only [Option.isSome_some, true_iff] at h1
      have hne := (parseGo_spec (6 * tokens.length + 6) PK.expr tokens).2
        (by simp only [pkRank]; omega)
      cases hp : parseGo (6 * tokens.length + 6) PK.expr tokens with
      | none => exact absurd hp hne
      | some r =>
          cases r with
          | error e =>
              simp only [Option.isSome_some, true_iff]
              exact h1
          | ok pr =>
              obtain ⟨ast, rest⟩ := pr
              cases rest with
              | nil =>
                  simp only [Option.isSome_some, true_iff]
                  exact h1
              | cons t ts2 =>
                  simp only [Option.isSome_some, true_iff]
                  exact h1

/-! ### Minimization (`dfa/minimize.rs`, `minimize_dfa`) -/

/-- The states collected by `minimize_dfa`: the start state, all accept
states, and every transition source and target. -/
def all_statesOf (d : DFA) : Finset Nat :=
  insert d.start (d.accepts ∪
    ((d.transitions.map (fun p => p.1 :: p.2.map Prod.snd)).join).toFinset)

/-- The symbols collected by `minimize_dfa`. -/
def dsymbols (d : DFA) : Finset Char :=
  ((d.transitions.map (fun p => p.2.map Prod.fst)).join).toFinset

/-- Whether `state` steps into `S` on `c` (the predecessor test of the
refinement loop). -/
def predTest (d : DFA) (c : Char) (S : Finset Nat) (s : Nat) : Bool :=
  match d.stepD s c with
  | some t => decide (t ∈ S)
  | none => false

/-- The predecessor set of the splitter `S` on symbol `c`. -/
def predC (d : DFA) (c : Char) (S : Finset Nat) : Finset Nat :=
  (all_statesOf d).filter (fun s => predTest d c S s = true)

/-- Loop state of the `minimize_dfa` refinement loop. -/
structure MinState : Type where
  partitions : List (Finset Nat)
  queue : List (Finset Nat)
deriving DecidableEq

/-- Body of the symbol loop of the refinement loop: split every partition
against the predecessors of the splitter on `c`, pushing the smaller half
of each split onto the work queue. -/
def minSym (d : DFA) (splitter : Finset Nat) (st : MinState) (c : Char) :
    MinState :=
  let preds := predC d c splitter
  if preds = ∅ then st
  else
    let z := st.partitions.foldl (fun acc P =>
      let inter := P ∩ preds
      let diff := P \ preds
      if inter ≠ ∅ ∧ diff ≠ ∅ then
        (acc.1 ++ [inter, diff],
         acc.2 ++ [if inter.card ≤ diff.card then inter else diff])
      else (acc.1 ++ [P], acc.2)) ([], st.queue)
    { partitions := z.1, queue := z.2 }

/-- One iteration of the refinement loop: pop a splitter and process every
symbol. -/
def minStep (d : DFA) (st : MinState) : MinState :=
  match st.queue with
  | [] => st
  | splitter :: rest =>
      (finList (dsymbols d)).foldl (minSym d splitter)
        { partitions := st.partitions, queue := rest }

def minHalt (st : MinState) : Bool := st.queue.isEmpty

/-- Initial partition and work queue: the non-accepting states (collected
states outside the accept set) and the accept set, each only if
nonempty. -/
def minInit (d : DFA) : MinState :=
  let nonacc := (all_statesOf d).filter (fun s => s ∉ d.accepts)
  { partitions := (if nonacc ≠ ∅ then [nonacc] else []) ++
      (if d.accepts ≠ ∅ then [d.accepts] else []),
    queue := (if nonacc ≠ ∅ then [nonacc] else []) ++
      (if d.accepts ≠ ∅ then [d.accepts] else []) }

/-- Fuel sufficient for the refinement loop. -/
def minFuel (d : DFA) : Nat := 2 * (all_statesOf d).card + 3

/-- `state_to_partition` of `build_minimized_dfa`: map each state to the
index of its partition (later inserts overwrite earlier ones, as for
`HashMap::insert`). -/
def classMap (partitions : List (Finset Nat)) : List (Nat × Nat) :=
  partitions.enum.foldl (fun m p =>
    (finList p.2).foldl (fun m2 s => alUpdate m2 s (fun _ => p.1)) m) []

/-- The rebuilt edge map of a representative: each target is replaced by
its class; targets without a class are silently skipped. -/
def ntFold (stp : List (Nat × Nat)) (trans_map : List (Char × Nat)) :
    List (Char × Nat) :=
  trans_map.foldl (fun nt e =>
    match alLookup stp e.2 with
    | none => nt
    | some tp => alUpdate nt e.1 (fun _ => tp)) []

/-- The transition entry contributed by one partition: its least element is
the representative; no entry when the partition is empty, the
representative has no edge map, or the rebuilt map is empty. -/
def repTrans (original : DFA) (stp : List (Nat × Nat)) (P : Finset Nat) :
    Option (List (Char × Nat)) :=
  match finList P with
  | [] => none
  | rep :: _ =>
      match alLookup original.transitions rep with
      | none => none
      | some trans_map =>
          let new_trans := ntFold stp trans_map
          if new_trans = [] then none else some new_trans

/-- `build_minimized_dfa` from `dfa/minimize.rs`.  The `.expect` on the
start state's class is modelled as `none`; an accept state or transition
target without a class is silently skipped, an empty rebuilt edge map is
not inserted, and the representative of a class is its least element. -/
def build_minimized_dfa (original : DFA) (partitions : List (Finset Nat)) :
    Option DFA :=
  let stp := classMap partitions
  match alLookup stp original.start with
  | none => none
  | some start =>
      some
        { start := start,
          accepts :=
            ((finList original.accepts).filterMap
              (fun a => alLookup stp a)).toFinset,
          transitions := partitions.enum.foldl (fun tr p =>
            match repTrans original stp p.2 with
            | none => tr
            | some nt => alUpdate tr p.1 (fun _ => nt)) [] }

/-- `minimize_dfa` from `dfa/minimize.rs` (`none` models the `.expect`
panic in `build_minimized_dfa`). -/
def minimize_dfa (d : DFA) : Option DFA :=
  build_minimized_dfa d
    (iterFuel (minStep d) minHalt (minFuel d) (minInit d)).partitions

theorem start_mem_all (d : DFA) : d.start ∈ all_statesOf d :=
  Finset.mem_insert_self _ _

theorem accepts_sub_all (d : DFA) : d.accepts ⊆ all_statesOf d :=
  fun a ha => Finset.mem_insert_of_mem (Finset.mem_union_left _ ha)

theorem stepD_target_mem {d : DFA} {s : Nat} {c : Char} {t : Nat}
    (h : d.stepD s c = some t) : t ∈ all_statesOf d := by
  unfold DFA.stepD at h
  cases hl : alLookup d.transitions s with
  | none =>
      rw [hl] at h
      simp at h
  | some m =>
      rw [hl] at h
      rw [Option.some_bind] at h
      have hm := alLookup_mem hl
      have ht := alLookup_mem h
      unfold all_statesOf
      refine Finset.mem_insert_of_mem (Finset.mem_union_right _ ?_)
      rw [List.mem_toFinset, List.mem_join]
      refine ⟨s :: m.map Prod.snd, ?_, ?_⟩
      · exact List.mem_map_of_mem (fun p => p.1 :: p.2.map Prod.snd) hm
      · exact List.mem_cons_of_mem _ (List.mem_map_of_mem Prod.snd ht)

theorem stepD_symbol_mem {d : DFA} {s : Nat} {c : Char} {t : Nat}
    (h : d.stepD s c = some t) : c ∈ dsymbols d := by
  unfold DFA.stepD at h
  cases hl : alLookup d.transitions s with
  | none =>
      rw [hl] at h
      simp at h
  | some m =>
      rw [hl] at h
      rw [Option.some_bind] at h
      have hm := alLookup_mem hl
      have ht := alLookup_mem h
      unfold dsymbols
      rw [List.mem_toFinset, List.mem_join]
      refine ⟨m.map Prod.fst, ?_, ?_⟩
      · exact List.mem_map_of_mem (fun p => p.2.map Prod.fst) hm
      · exact List.mem_map_of_mem Prod.fst ht

theorem mem_predC {d : DFA} {c : Char} {S : Finset Nat} {s : Nat} :
    s ∈ predC d c S ↔
      s ∈ all_statesOf d ∧ ∃ t, d.stepD s c = some t ∧ t ∈ S := by
  have hiff : predTest d c S s = true ↔
      ∃ t, d.stepD s c = some t ∧ t ∈ S := by
    unfold predTest
    cases h : d.stepD s c with
    | none => simp
    | some t => simp
  unfold predC
  rw [Finset.mem_filter, hiff]

theorem predC_sdiff (d : DFA) (c : Char) (S T : Finset Nat) :
    predC d c (S \ T) = predC d c S \ predC d c T := by
  ext s
  rw [Finset.mem_sdiff, mem_predC, mem_predC, mem_predC]
  constructor
  · rintro ⟨hU, t, hstep, ht⟩
    rw [Finset.mem_sdiff] at ht
    refine ⟨⟨hU, t, hstep, ht.1⟩, ?_⟩
    rintro ⟨-, t', hstep', ht'⟩
    rw [hstep] at hstep'
    have : t = t' := by injection hstep'
    exact ht.2 (this ▸ ht')
  · rintro ⟨⟨hU, t, hstep, htS⟩, hn⟩
    refine ⟨hU, t, hstep, Finset.mem_sdiff.mpr ⟨htS, ?_⟩⟩
    intro htT
    exact hn ⟨hU, t, hstep, htT⟩

theorem predC_not_symbol {d : DFA} {c : Char} (S : Finset Nat)
    (h : c ∉ dsymbols d) : predC d c S = ∅ := by
  rw [Finset.eq_empty_iff_forall_not_mem]
  intro s hs
  rw [mem_predC] at hs
  obtain ⟨-, t, hstep, -⟩ := hs
  exact h (stepD_symbol_mem hstep)

/-- The partition list `parts` is stable with respect to the splitter `S`
on symbol `c`: no class is cut by the predecessors of `S`. -/
def StabAt (d : DFA) (parts : List (Finset Nat)) (c : Char)
    (S : Finset Nat) : Prop :=
  ∀ P ∈ parts, P ⊆ predC d c S ∨ P ∩ predC d c S = ∅

/-- Stable with respect to `S` on every symbol. -/
def Stab (d : DFA) (parts : List (Finset Nat)) (S : Finset Nat) : Prop :=
  ∀ c, StabAt d parts c S

/-- `parts'` refines `parts`: every class of `parts'` is contained in a
class of `parts`. -/
def Refines (parts' parts : List (Finset Nat)) : Prop :=
  ∀ P' ∈ parts', ∃ P ∈ parts, P' ⊆ P

theorem refines_refl (parts : List (Finset Nat)) : Refines parts parts :=
  fun P hP => ⟨P, hP, le_refl _⟩

theorem refines_trans {p1 p2 p3 : List (Finset Nat)}
    (h12 : Refines p1 p2) (h23 : Refines p2 p3) : Refines p1 p3 := by
  intro P hP
  obtain ⟨Q, hQ, hPQ⟩ := h12 P hP
  obtain ⟨R, hR, hQR⟩ := h23 Q hQ
  exact ⟨R, hR, fun x hx => hQR (hPQ hx)⟩

theorem stabAt_of_refines {d : DFA} {parts' parts : List (Finset Nat)}
    {c : Char} {S : Finset Nat} (href : Refines parts' parts)
    (h : StabAt d parts c S) : StabAt d parts' c S := by
  intro P' hP'
  obtain ⟨P, hP, hsub⟩ := href P' hP'
  rcases h P hP with h1 | h1
  · exact Or.inl (fun x hx => h1 (hsub hx))
  · right
    rw [Finset.eq_empty_iff_forall_not_mem] at h1 ⊢
    intro x hx
    rw [Finset.mem_inter] at hx
    exact h1 x (Finset.mem_inter.mpr ⟨hsub hx.1, hx.2⟩)

theorem stab_of_refines {d : DFA} {parts' parts : List (Finset Nat)}
    {S : Finset Nat} (href : Refines parts' parts) (h : Stab d parts S) :
    Stab d parts' S :=
  fun c => stabAt_of_refines href (h c)

theorem stab_sdiff {d : DFA} {parts : List (Finset Nat)} {S T : Finset Nat}
    (hS : Stab d parts S) (hT : Stab d parts T) : Stab d parts (S \ T) := by
  intro c P hP
  rw [predC_sdiff]
  rcases hS c P hP with h1 | h1 <;> rcases hT c P hP with h2 | h2
  · right
    rw [Finset.eq_empty_iff_forall_not_mem]
    intro x hx
    rw [Finset.mem_inter, Finset.mem_sdiff] at hx
    exact hx.2.2 (h2 hx.1)
  · left
    intro x hx
    rw [Finset.mem_sdiff]
    refine ⟨h1 hx, ?_⟩
    intro hxT
    rw [Finset.eq_empty_iff_forall_not_mem] at h2
    exact h2 x (Finset.mem_inter.mpr ⟨hx, hxT⟩)
  · right
    rw [Finset.eq_empty_iff_forall_not_mem] at h1 ⊢
    intro x hx
    rw [Finset.mem_inter, Finset.mem_sdiff] at hx
    exact h1 x (Finset.mem_inter.mpr ⟨hx.1, hx.2.1⟩)
  · right
    rw [Finset.eq_empty_iff_forall_not_mem] at h1 ⊢
    intro x hx
    rw [Finset.mem_inter, Finset.mem_sdiff] at hx
    exact h1 x (Finset.mem_inter.mpr ⟨hx.1, hx.2.1⟩)

/-- Sets derivable from a base family by repeated set difference: every
class the refinement loop ever creates is derivable from the processed
splitters. -/
inductive DerFrom (base : Finset Nat → Prop) : Finset Nat → Prop
  | of (S : Finset Nat) : base S → DerFrom base S
  | diff (S T : Finset Nat) : DerFrom base S → DerFrom base T →
      DerFrom base (S \ T)

theorem derFrom_mono {base1 base2 : Finset Nat → Prop}
    (h : ∀ S, base1 S → DerFrom base2 S) {P : Finset Nat}
    (hP : DerFrom base1 P) : DerFrom base2 P := by
  induction hP with
  | of S hS => exact h S hS
  | diff S T _ _ ihS ihT => exact DerFrom.diff S T ihS ihT

theorem derFrom_stab {d : DFA} {parts : List (Finset Nat)}
    {base : Finset Nat → Prop} (h : ∀ S, base S → Stab d parts S)
    {P : Finset Nat} (hP : DerFrom base P) : Stab d parts P := by
  induction hP with
  | of S hS => exact h S hS
  | diff S T _ _ ihS ihT => exact stab_sdiff ihS ihT

/-- The classes a single partition becomes when split against `preds`. -/
def pieces (preds P : Finset Nat) : List (Finset Nat) :=
  if P ∩ preds ≠ ∅ ∧ P \ preds ≠ ∅ then [P ∩ preds, P \ preds] else [P]

/-- The halves pushed onto the work queue for a single partition. -/
def pushes (preds P : Finset Nat) : List (Finset Nat) :=
  if P ∩ preds ≠ ∅ ∧ P \ preds ≠ ∅ then
    [if (P ∩ preds).card ≤ (P \ preds).card then P ∩ preds else P \ preds]
  else []

theorem partFold_char (preds : Finset Nat) :
    ∀ (parts : List (Finset Nat))
      (accP accQ : List (Finset Nat)),
      parts.foldl (fun acc P =>
        if P ∩ preds ≠ ∅ ∧ P \ preds ≠ ∅ then
          (acc.1 ++ [P ∩ preds, P \ preds],
           acc.2 ++ [if (P ∩ preds).card ≤ (P \ preds).card then
             P ∩ preds else P \ preds])
        else (acc.1 ++ [P], acc.2)) (accP, accQ) =
      (accP ++ (parts.map (pieces preds)).join,
       accQ ++ (parts.map (pushes preds)).join) := by
  intro parts
  induction parts with
  | nil =>
      intro accP accQ
      simp
  | cons P rest ih =>
      intro accP accQ
      rw [List.foldl_cons]
      by_cases hc : P ∩ preds ≠ ∅ ∧ P \ preds ≠ ∅
      · rw [show (if P ∩ preds ≠ ∅ ∧ P \ preds ≠ ∅ then
            ((accP, accQ).1 ++ [P ∩ preds, P \ preds],
             (accP, accQ).2 ++
               [if (P ∩ preds).card ≤ (P \ preds).card then
                 P ∩ preds else P \ preds])
          else ((accP, accQ).1 ++ [P], (accP, accQ).2)) =
            (accP ++ [P ∩ preds, P \ preds],
             accQ ++ [if (P ∩ preds).card ≤ (P \ preds).card then
               P ∩ preds else P \ preds]) from by
          rw [if_pos hc], ih]
        have hpieces : pieces preds P = [P ∩ preds, P \ preds] := by
          unfold pieces
          rw [if_pos hc]
        have hpushes : pushes preds P =
            [if (P ∩ preds).card ≤ (P \ preds).card then
              P ∩ preds else P \ preds] := by
          unfold pushes
          rw [if_pos hc]
        simp [hpieces, hpushes, List.append_assoc]
      · rw [show (if P ∩ preds ≠ ∅ ∧ P \ preds ≠ ∅ then
            ((accP, accQ).1 ++ [P ∩ preds, P \ preds],
             (accP, accQ).2 ++
               [if (P ∩ preds).card ≤ (P \ preds).card then
                 P ∩ preds else P \ preds])
          else ((accP, accQ).1 ++ [P], (accP, accQ).2)) =
            (accP ++ [P], accQ) from by
          rw [if_neg hc], ih]
        have hpieces : pieces preds P = [P] := by
          unfold pieces
          rw [if_neg hc]
        have hpushes : pushes preds P = [] := by
          unfold pushes
          rw [if_neg hc]
        simp [hpieces, hpushes, List.append_assoc]

theorem minSym_char (d : DFA) (splitter : Finset Nat) (st : MinState)
    (c : Char) :
    (predC d c splitter = ∅ ∧ minSym d splitter st c = st) ∨
    (predC d c splitter ≠ ∅ ∧ minSym d splitter st c =
      { partitions :=
          (st.partitions.map (pieces (predC d c splitter))).join,
        queue := st.queue ++
          (st.partitions.map (pushes (predC d c splitter))).join }) := by
  by_cases h : predC d c splitter = ∅
  · left
    refine ⟨h, ?_⟩
    simp only [minSym]
    rw [if_pos h]
  · right
    refine ⟨h, ?_⟩
    simp only [minSym]
    rw [if_neg h,
      partFold_char (predC d c splitter) st.partitions [] st.queue]
    simp

theorem pieces_subset {preds P Q : Finset Nat} (h : Q ∈ pieces preds P) :
    Q ⊆ P := by
  unfold pieces at h
  split at h
  · rcases List.mem_cons.mp h with h1 | h1
    · rw [h1]
      exact Finset.inter_subset_left
    · rw [List.mem_singleton] at h1
      rw [h1]
      exact Finset.sdiff_subset
  · rw [List.mem_singleton] at h
    rw [h]

theorem pieces_cover {preds P : Finset Nat} {x : Nat} (hx : x ∈ P) :
    ∃ Q ∈ pieces preds P, x ∈ Q := by
  unfold pieces
  split
  · by_cases hxp : x ∈ preds
    · exact ⟨P ∩ preds, List.mem_cons_self _ _,
        Finset.mem_inter.mpr ⟨hx, hxp⟩⟩
    · exact ⟨P \ preds, List.mem_cons_of_mem _ (List.mem_singleton.mpr rfl),
        Finset.mem_sdiff.mpr ⟨hx, hxp⟩⟩
  · exact ⟨P, List.mem_singleton.mpr rfl, hx⟩

theorem pieces_nonempty {preds P : Finset Nat} (hP : P ≠ ∅) :
    ∀ Q ∈ pieces preds P, Q ≠ ∅ := by
  intro Q hQ
  unfold pieces at hQ
  split at hQ
  · rename_i hc
    rcases List.mem_cons.mp hQ with h1 | h1
    · rw [h1]
      exact hc.1
    · rw [List.mem_singleton] at h1
      rw [h1]
      exact hc.2
  · rw [List.mem_singleton] at hQ
    rw [hQ]
    exact hP

theorem pieces_pairwise {preds P : Finset Nat} :
    (pieces preds P).Pairwise (fun A B => ∀ x ∈ A, x ∉ B) := by
  unfold pieces
  split
  · refine List.pairwise_cons.mpr ⟨?_, List.pairwise_singleton _ _⟩
    intro B hB
    rw [List.mem_singleton] at hB
    subst hB
    intro x hx hx2
    rw [Finset.mem_inter] at hx
    rw [Finset.mem_sdiff] at hx2
    exact hx2.2 hx.2
  · exact List.pairwise_singleton _ _

theorem pieces_stab {preds P : Finset Nat} :
    ∀ Q ∈ pieces preds P, Q ⊆ preds ∨ Q ∩ preds = ∅ := by
  intro Q hQ
  unfold pieces at hQ
  split at hQ
  · rcases List.mem_cons.mp hQ with h1 | h1
    · left
      rw [h1]
      exact Finset.inter_subset_right
    · right
      rw [List.mem_singleton] at h1
      rw [h1, Finset.eq_empty_iff_forall_not_mem]
      intro x hx
      rw [Finset.mem_inter, Finset.mem_sdiff] at hx
      exact hx.1.2 hx.2
  · rename_i hc
    rw [List.mem_singleton] at hQ
    subst hQ
    rw [not_and_or] at hc
    rcases hc with h1 | h1
    · right
      rw [not_not] at h1
      exact h1
    · left
      rw [not_not, Finset.sdiff_eq_empty_iff_subset] at h1
      exact h1

theorem pushes_mem_pieces {preds P : Finset Nat} :
    ∀ Q ∈ pushes preds P, Q ∈ pieces preds P := by
  intro Q hQ
  unfold pushes at hQ
  unfold pieces
  split at hQ
  · rename_i hc
    rw [List.mem_singleton] at hQ
    subst hQ
    rw [if_pos hc]
    split
    · exact List.mem_cons_self _ _
    · exact List.mem_cons_of_mem _ (List.mem_singleton.mpr rfl)
  · cases hQ

theorem pieces_length (preds P : Finset Nat) :
    (pieces preds P).length = 1 + (pushes preds P).length := by
  unfold pieces pushes
  split <;> rfl

theorem pieces_derive {preds P : Finset Nat} :
    ∀ Q ∈ pieces preds P, Q = P ∨ Q ∈ pushes preds P ∨
      ∃ R ∈ pushes preds P, Q = P \ R := by
  intro Q hQ
  unfold pieces at hQ
  unfold pushes
  split at hQ
  · rename_i hc
    rw [if_pos hc]
    rcases List.mem_cons.mp hQ with h1 | h1
    · subst h1
      by_cases hcard : (P ∩ preds).card ≤ (P \ preds).card
      · right; left
        rw [if_pos hcard]
        exact List.mem_singleton.mpr rfl
      · right; right
        refine ⟨P \ preds, ?_, ?_⟩
        · rw [if_neg hcard]
          exact List.mem_singleton.mpr rfl
        · rw [Finset.sdiff_sdiff_self_left]
    · rw [List.mem_singleton] at h1
      subst h1
      by_cases hcard : (P ∩ preds).card ≤ (P \ preds).card
      · right; right
        refine ⟨P ∩ preds, ?_, ?_⟩
        · rw [if_pos hcard]
          exact List.mem_singleton.mpr rfl
        · rw [Finset.sdiff_inter_self_left]
      · right; left
        rw [if_neg hcard]
        exact List.mem_singleton.mpr rfl
  · rw [List.mem_singleton] at hQ
    exact Or.inl hQ

theorem pieces_join_length (preds : Finset Nat) :
    ∀ parts : List (Finset Nat),
      ((parts.map (pieces preds)).join).length =
        parts.length + ((parts.map (pushes preds)).join).length := by
  intro parts
  induction parts with
  | nil => rfl
  | cons P rest ih =>
      rw [List.map_cons, List.map_cons,
        show ((pieces preds P :: List.map (pieces preds) rest).join) =
          pieces preds P ++ (List.map (pieces preds) rest).join from rfl,
        show ((pushes preds P :: List.map (pushes preds) rest).join) =
          pushes preds P ++ (List.map (pushes preds) rest).join from rfl,
        List.length_append, List.length_append, ih, pieces_length,
        List.length_cons]
      omega

/-- What one symbol pass of the refinement loop establishes. -/
structure SymSpec (d : DFA) (splitter : Finset Nat) (c : Char)
    (a0 a1 : MinState) : Prop where
  refines : Refines a1.partitions a0.partitions
  cover : ∀ s, (∃ P ∈ a0.partitions, s ∈ P) → ∃ P ∈ a1.partitions, s ∈ P
  nonempty : (∀ P ∈ a0.partitions, P ≠ ∅) → ∀ P ∈ a1.partitions, P ≠ ∅
  disj : a0.partitions.Pairwise (fun A B => ∀ x ∈ A, x ∉ B) →
    a1.partitions.Pairwise (fun A B => ∀ x ∈ A, x ∉ B)
  queue_mono : ∀ S ∈ a0.queue, S ∈ a1.queue
  queue_new : (∀ P ∈ a0.partitions, P ⊆ all_statesOf d ∧ P ≠ ∅) →
    ∀ S ∈ a1.queue, S ∈ a0.queue ∨ (S ⊆ all_statesOf d ∧ S ≠ ∅)
  der : ∀ P ∈ a1.partitions,
    DerFrom (fun S => S ∈ a0.partitions ∨ S ∈ a1.queue) P
  stab : StabAt d a1.partitions c splitter
  count : a1.queue.length + a0.partitions.length =
    a0.queue.length + a1.partitions.length
  len_mono : a0.partitions.length ≤ a1.partitions.length

theorem minSym_spec (d : DFA) (splitter : Finset Nat) (a0 : MinState)
    (c : Char) : SymSpec d splitter c a0 (minSym d splitter a0 c) := by
  rcases minSym_char d splitter a0 c with ⟨hp, heq⟩ | ⟨hp, heq⟩
  · rw [heq]
    refine ⟨refines_refl _, fun s h => h, fun h => h, fun h => h,
      fun S h => h, fun _ S h => Or.inl h,
      fun P hP => DerFrom.of P (Or.inl hP), ?_, rfl, le_refl _⟩
    intro P hP
    right
    rw [hp, Finset.inter_empty]
  · rw [heq]
    have hmemP : ∀ Q, Q ∈ ((a0.partitions.map
        (pieces (predC d c splitter))).join) ↔
        ∃ P ∈ a0.partitions, Q ∈ pieces (predC d c splitter) P := by
      intro Q
      rw [List.mem_join]
      constructor
      · rintro ⟨l, hl, hQ⟩
        rw [List.mem_map] at hl
        obtain ⟨P, hP, hPl⟩ := hl
        exact ⟨P, hP, hPl ▸ hQ⟩
      · rintro ⟨P, hP, hQ⟩
        exact ⟨pieces (predC d c splitter) P,
          List.mem_map_of_mem _ hP, hQ⟩
    have hmemQ : ∀ S, S ∈ ((a0.partitions.map
        (pushes (predC d c splitter))).join) ↔
        ∃ P ∈ a0.partitions, S ∈ pushes (predC d c splitter) P := by
      intro S
      rw [List.mem_join]
      constructor
      · rintro ⟨l, hl, hS⟩
        rw [List.mem_map] at hl
        obtain ⟨P, hP, hPl⟩ := hl
        exact ⟨P, hP, hPl ▸ hS⟩
      · rintro ⟨P, hP, hS⟩
        exact ⟨pushes (predC d c splitter) P,
          List.mem_map_of_mem _ hP, hS⟩
    refine ⟨?_, ?_, ?_, ?_, ?_, ?_, ?_, ?_, ?_, ?_⟩
    · intro Q hQ
      rw [hmemP] at hQ
      obtain ⟨P, hP, hQ⟩ := hQ
      exact ⟨P, hP, pieces_subset hQ⟩
    · intro s hs
      obtain ⟨P, hP, hsP⟩ := hs
      obtain ⟨Q, hQ, hsQ⟩ := @pieces_cover (predC d c splitter) _ _ hsP
      exact ⟨Q, (hmemP Q).mpr ⟨P, hP, hQ⟩, hsQ⟩
    · intro h Q hQ
      rw [hmemP] at hQ
      obtain ⟨P, hP, hQ⟩ := hQ
      exact pieces_nonempty (h P hP) Q hQ
    · intro h
      rw [List.pairwise_join]
      constructor
      · intro l hl
        rw [List.mem_map] at hl
        obtain ⟨P, hP, hPl⟩ := hl
        rw [← hPl]
        exact pieces_pairwise
      · rw [List.pairwise_map]
        refine h.imp ?_
        intro A B hAB x hx y hy z hz hzy
        exact hAB z (pieces_subset hx hz) (pieces_subset hy hzy)
    · intro S hS
      exact List.mem_append_left _ hS
    · intro h S hS
      rcases List.mem_append.mp hS with h1 | h1
      · exact Or.inl h1
      · right
        rw [hmemQ] at h1
        obtain ⟨P, hP, hSp⟩ := h1
        have hSpieces := pushes_mem_pieces S hSp
        refine ⟨fun x hx => (h P hP).1 (pieces_subset hSpieces hx), ?_⟩
        exact pieces_nonempty (h P hP).2 S hSpieces
    · intro Q hQ
      rw [hmemP] at hQ
      obtain ⟨P, hP, hQp⟩ := hQ
      rcases pieces_derive Q hQp with h1 | h1 | ⟨R, hR, h1⟩
      · exact DerFrom.of Q (h1 ▸ Or.inl hP)
      · refine DerFrom.of Q (Or.inr ?_)
        exact List.mem_append_right _ ((hmemQ Q).mpr ⟨P, hP, h1⟩)
      · rw [h1]
        refine DerFrom.diff P R (DerFrom.of P (Or.inl hP))
          (DerFrom.of R (Or.inr ?_))
        exact List.mem_append_right _ ((hmemQ R).mpr ⟨P, hP, hR⟩)
    · intro Q hQ
      rw [hmemP] at hQ
      obtain ⟨P, hP, hQp⟩ := hQ
      exact pieces_stab Q hQp
    · rw [List.length_append, pieces_join_length]
      omega
    · rw [pieces_join_length]
      omega

/-- What the whole symbol loop of one refinement iteration establishes. -/
structure FoldMin (d : DFA) (splitter : Finset Nat) (cs : List Char)
    (a0 res : MinState) : Prop where
  refines : Refines res.partitions a0.partitions
  cover : ∀ s, (∃ P ∈ a0.partitions, s ∈ P) → ∃ P ∈ res.partitions, s ∈ P
  nonempty : ∀ P ∈ res.partitions, P ≠ ∅
  subU : ∀ P ∈ res.partitions, P ⊆ all_statesOf d
  disj : res.partitions.Pairwise (fun A B => ∀ x ∈ A, x ∉ B)
  queue_mono : ∀ S ∈ a0.queue, S ∈ res.queue
  queue_new : ∀ S ∈ res.queue, S ∈ a0.queue ∨
    (S ⊆ all_statesOf d ∧ S ≠ ∅)
  der : ∀ P ∈ res.partitions,
    DerFrom (fun S => S ∈ a0.partitions ∨ S ∈ res.queue) P
  stab_in : ∀ c ∈ cs, StabAt d res.partitions c splitter
  count : res.queue.length + a0.partitions.length =
    a0.queue.length + res.partitions.length
  len_mono : a0.partitions.length ≤ res.partitions.length

theorem symFold_spec (d : DFA) (splitter : Finset Nat) (cs : List Char) :
    ∀ a0 : MinState,
      (∀ P ∈ a0.partitions, P ⊆ all_statesOf d) →
      (∀ P ∈ a0.partitions, P ≠ ∅) →
      a0.partitions.Pairwise (fun A B => ∀ x ∈ A, x ∉ B) →
      FoldMin d splitter cs a0 (cs.foldl (minSym d splitter) a0) := by
  induction cs with
  | nil =>
      intro a0 hU hne hdisj
      exact ⟨refines_refl _, fun s h => h, hne, hU, hdisj, fun S h => h,
        fun S h => Or.inl h, fun P hP => DerFrom.of P (Or.inl hP),
        fun c hc => absurd hc (List.not_mem_nil c), rfl, le_refl _⟩
  | cons c rest ih =>
      intro a0 hU hne hdisj
      rw [List.foldl_cons]
      have S1 := minSym_spec d splitter a0 c
      have hU1 : ∀ P ∈ (minSym d splitter a0 c).partitions,
          P ⊆ all_statesOf d := by
        intro P hP
        obtain ⟨Q, hQ, hPQ⟩ := S1.refines P hP
        exact fun x hx => hU Q hQ (hPQ hx)
      have hne1 := S1.nonempty hne
      have hdisj1 := S1.disj hdisj
      have F := ih (minSym d splitter a0 c) hU1 hne1 hdisj1
      refine ⟨refines_trans F.refines S1.refines, ?_, F.nonempty, F.subU,
        F.disj, ?_, ?_, ?_, ?_, ?_, ?_⟩
      · intro s hs
        exact F.cover s (S1.cover s hs)
      · intro S hS
        exact F.queue_mono S (S1.queue_mono S hS)
      · intro S hS
        rcases F.queue_new S hS with h1 | h1
        · exact S1.queue_new (fun P hP => ⟨hU P hP, hne P hP⟩) S h1
        · exact Or.inr h1
      · intro P hP
        refine derFrom_mono ?_ (F.der P hP)
        intro S hS
        rcases hS with h1 | h1
        · refine derFrom_mono ?_ (S1.der S h1)
          intro T hT
          rcases hT with h2 | h2
          · exact DerFrom.of T (Or.inl h2)
          · exact DerFrom.of T (Or.inr (F.queue_mono T h2))
        · exact DerFrom.of S (Or.inr h1)
      · intro c2 hc2
        rcases List.mem_cons.mp hc2 with h1 | h1
        · subst h1
          exact stabAt_of_refines F.refines S1.stab
        · exact F.stab_in c2 h1
      · have h1 := S1.count
        have h2 := F.count
        omega
      · have h1 := S1.len_mono
        have h2 := F.len_mono
        omega

theorem disjoint_nonempty_length_le :
    ∀ (parts : List (Finset Nat)) (U : Finset Nat),
      parts.Pairwise (fun A B => ∀ x ∈ A, x ∉ B) →
      (∀ P ∈ parts, P ≠ ∅) → (∀ P ∈ parts, P ⊆ U) →
      parts.length ≤ U.card := by
  intro parts
  induction parts with
  | nil =>
      intro U _ _ _
      exact Nat.zero_le _
  | cons P rest ih =>
      intro U hdisj hne hU
      have hd := List.pairwise_cons.mp hdisj
      have hPne : P ≠ ∅ := hne P (List.mem_cons_self _ _)
      have hPU : P ⊆ U := hU P (List.mem_cons_self _ _)
      have hrest : rest.length ≤ (U \ P).card := by
        refine ih (U \ P) hd.2
          (fun Q hQ => hne Q (List.mem_cons_of_mem _ hQ)) ?_
        intro Q hQ x hx
        rw [Finset.mem_sdiff]
        refine ⟨hU Q (List.mem_cons_of_mem _ hQ) hx, ?_⟩
        intro hxP
        exact hd.1 Q hQ x hxP hx
      have hcard : (U \ P).card = U.card - P.card :=
        Finset.card_sdiff hPU
      have hPpos : 0 < P.card :=
        Finset.card_pos.mpr (Finset.nonempty_iff_ne_empty.mpr hPne)
      have hPle : P.card ≤ U.card := Finset.card_le_card hPU
      rw [List.length_cons]
      omega

/-- Invariant of the `minimize_dfa` refinement loop. -/
structure MinInv (d : DFA) (st : MinState) : Prop where
  cover : ∀ s ∈ all_statesOf d, ∃ P ∈ st.partitions, s ∈ P
  subU : ∀ P ∈ st.partitions, P ⊆ all_statesOf d
  disj : st.partitions.Pairwise (fun A B => ∀ x ∈ A, x ∉ B)
  nonempty : ∀ P ∈ st.partitions, P ≠ ∅
  init_ref : Refines st.partitions (minInit d).partitions
  qgood : ∀ S ∈ st.queue, S ⊆ all_statesOf d ∧ S ≠ ∅
  der : ∀ P ∈ st.partitions,
    DerFrom (fun S => Stab d st.partitions S ∨ S ∈ st.queue) P

theorem minStep_inv (d : DFA) :
    ∀ st, MinInv d st → minHalt st = false → MinInv d (minStep d st) := by
  intro st hinv hhalt
  obtain ⟨hcover, hsubU, hdisj, hne, hinit, hqgood, hder⟩ := hinv
  cases hq : st.queue with
  | nil =>
      unfold minHalt at hhalt
      rw [hq] at hhalt
      simp at hhalt
  | cons T rest =>
      have hstep : minStep d st = (finList (dsymbols d)).foldl
          (minSym d T) { partitions := st.partitions, queue := rest } := by
        unfold minStep
        rw [hq]
      have F := symFold_spec d T (finList (dsymbols d))
        { partitions := st.partitions, queue := rest } hsubU hne hdisj
      have hstabT : Stab d (minStep d st).partitions T := by
        intro c
        by_cases hc : c ∈ dsymbols d
        · rw [hstep]
          exact F.stab_in c (mem_finList.mpr hc)
        · intro P hP
          right
          rw [predC_not_symbol T hc, Finset.inter_empty]
      rw [hstep]
      rw [hstep] at hstabT
      refine ⟨?_, F.subU, F.disj, F.nonempty, ?_, ?_, ?_⟩
      · intro s hs
        exact F.cover s (hcover s hs)
      · exact refines_trans F.refines hinit
      · intro S hS
        rcases F.queue_new S hS with h1 | h1
        · exact hqgood S (by rw [hq]; exact List.mem_cons_of_mem _ h1)
        · exact h1
      · intro P hP
        refine derFrom_mono ?_ (F.der P hP)
        intro S hS
        rcases hS with h1 | h1
        · refine derFrom_mono ?_ (hder S h1)
          intro S2 hS2
          rcases hS2 with h2 | h2
          · exact DerFrom.of S2 (Or.inl (stab_of_refines F.refines h2))
          · rw [hq] at h2
            rcases List.mem_cons.mp h2 with h3 | h3
            · subst h3
              exact DerFrom.of S2 (Or.inl hstabT)
            · exact DerFrom.of S2 (Or.inr (F.queue_mono S2 h3))
        · exact DerFrom.of S (Or.inr h1)

/-- Termination measure of the refinement loop. -/
def minMeasure (d : DFA) (st : MinState) : Nat :=
  st.queue.length + 2 * ((all_statesOf d).card - st.partitions.length)

theorem minStep_dec (d : DFA) :
    ∀ st, MinInv d st → minHalt st = false →
      minMeasure d (minStep d st) < minMeasure d st := by
  intro st hinv hhalt
  obtain ⟨hcover, hsubU, hdisj, hne, hinit, hqgood, hder⟩ := hinv
  cases hq : st.queue with
  | nil =>
      unfold minHalt at hhalt
      rw [hq] at hhalt
      simp at hhalt
  | cons T rest =>
      have hstep : minStep d st = (finList (dsymbols d)).foldl
          (minSym d T) { partitions := st.partitions, queue := rest } := by
        unfold minStep
        rw [hq]
      have F := symFold_spec d T (finList (dsymbols d))
        { partitions := st.partitions, queue := rest } hsubU hne hdisj
      have hcnt := F.count
      dsimp only at hcnt
      have hlen := F.len_mono
      dsimp only at hlen
      have hbound := disjoint_nonempty_length_le _ (all_statesOf d)
        F.disj F.nonempty F.subU
      have hbound0 := disjoint_nonempty_length_le st.partitions
        (all_statesOf d) hdisj hne hsubU
      have hqlen : st.queue.length = rest.length + 1 := by
        rw [hq]
        rfl
      unfold minMeasure
      rw [hstep]
      omega

theorem minInit_inv (d : DFA) : MinInv d (minInit d) := by
  have hpart : (minInit d).partitions =
      (if (all_statesOf d).filter (fun s => s ∉ d.accepts) ≠ ∅ then
        [(all_statesOf d).filter (fun s => s ∉ d.accepts)] else []) ++
      (if d.accepts ≠ ∅ then [d.accepts] else []) := rfl
  have hqueue : (minInit d).queue = (minInit d).partitions := rfl
  have hmem : ∀ P ∈ (minInit d).partitions,
      (P = (all_statesOf d).filter (fun s => s ∉ d.accepts) ∧ P ≠ ∅) ∨
      (P = d.accepts ∧ P ≠ ∅) := by
    intro P hP
    rw [hpart] at hP
    rcases List.mem_append.mp hP with h | h
    · by_cases h1 : (all_statesOf d).filter (fun s => s ∉ d.accepts) ≠ ∅
      · rw [if_pos h1, List.mem_singleton] at h
        subst h
        exact Or.inl ⟨rfl, h1⟩
      · rw [if_neg h1] at h
        cases h
    · by_cases h2 : d.accepts ≠ ∅
      · rw [if_pos h2, List.mem_singleton] at h
        subst h
        exact Or.inr ⟨rfl, h2⟩
      · rw [if_neg h2] at h
        cases h
  refine ⟨?_, ?_, ?_, ?_, refines_refl _, ?_, ?_⟩
  · intro s hs
    by_cases hacc : s ∈ d.accepts
    · refine ⟨d.accepts, ?_, hacc⟩
      rw [hpart]
      refine List.mem_append_right _ ?_
      rw [if_pos (Finset.ne_empty_of_mem hacc)]
      exact List.mem_singleton.mpr rfl
    · have hsna : s ∈ (all_statesOf d).filter (fun s => s ∉ d.accepts) :=
        Finset.mem_filter.mpr ⟨hs, hacc⟩
      refine ⟨_, ?_, hsna⟩
      rw [hpart]
      refine List.mem_append_left _ ?_
      rw [if_pos (Finset.ne_empty_of_mem hsna)]
      exact List.mem_singleton.mpr rfl
  · intro P hP
    rcases hmem P hP with ⟨h, -⟩ | ⟨h, -⟩
    · rw [h]
      exact Finset.filter_subset _ _
    · rw [h]
      exact accepts_sub_all d
  · rw [hpart]
    by_cases h1 : (all_statesOf d).filter (fun s => s ∉ d.accepts) ≠ ∅ <;>
      by_cases h2 : d.accepts ≠ ∅
    · rw [if_pos h1, if_pos h2]
      refine List.pairwise_cons.mpr ⟨?_, List.pairwise_singleton _ _⟩
      intro B hB x hx
      have hB2 : B ∈ [d.accepts] := hB
      rw [List.mem_singleton] at hB2
      subst hB2
      exact (Finset.mem_filter.mp hx).2
    · rw [if_pos h1, if_neg h2]
      exact List.pairwise_singleton _ _
    · rw [if_neg h1, if_pos h2]
      exact List.pairwise_singleton _ _
    · rw [if_neg h1, if_neg h2]
      exact List.Pairwise.nil
  · intro P hP
    rcases hmem P hP with ⟨-, h⟩ | ⟨-, h⟩ <;> exact h
  · intro S hS
    rw [hqueue] at hS
    rcases hmem S hS with ⟨h, hne⟩ | ⟨h, hne⟩
    · exact ⟨h ▸ Finset.filter_subset _ _, hne⟩
    · exact ⟨h ▸ accepts_sub_all d, hne⟩
  · intro P hP
    refine DerFrom.of P (Or.inr ?_)
    rw [hqueue]
    exact hP

theorem min_loop_inv (d : DFA) :
    MinInv d (iterFuel (minStep d) minHalt (minFuel d) (minInit d)) :=
  iterFuel_invariant (minStep d) minHalt (MinInv d) (minStep_inv d)
    (minFuel d) (minInit d) (minInit_inv d)

theorem min_loop_halts (d : DFA) :
    minHalt (iterFuel (minStep d) minHalt (minFuel d) (minInit d)) =
      true := by
  refine iterFuel_halts (minStep d) minHalt (MinInv d) (minMeasure d)
    (minStep_inv d) (minStep_dec d) (minFuel d) (minInit d)
    (minInit_inv d) ?_
  have hq : (minInit d).queue.length ≤ 2 := by
    show ((if (all_statesOf d).filter (fun s => s ∉ d.accepts) ≠ ∅ then
        [(all_statesOf d).filter (fun s => s ∉ d.accepts)] else []) ++
      (if d.accepts ≠ ∅ then [d.accepts] else [])).length ≤ 2
    rw [List.length_append]
    by_cases h1 : (all_statesOf d).filter (fun s => s ∉ d.accepts) ≠ ∅ <;>
      by_cases h2 : d.accepts ≠ ∅
    · rw [if_pos h1, if_pos h2]
      rfl
    · rw [if_pos h1, if_neg h2]
      simp
    · rw [if_neg h1, if_pos h2]
      simp
    · rw [if_neg h1, if_neg h2]
      simp
  unfold minMeasure minFuel
  omega

theorem classInner_lookup (i : Nat) :
    ∀ (l : List Nat) (m : List (Nat × Nat)) (s : Nat),
      alLookup (l.foldl (fun m2 x => alUpdate m2 x (fun _ => i)) m) s =
        if s ∈ l then some i else alLookup m s := by
  intro l
  induction l with
  | nil =>
      intro m s
      simp
  | cons x xs ih =>
      intro m s
      rw [List.foldl_cons, ih]
      by_cases hs : s ∈ xs
      · rw [if_pos hs, if_pos (List.mem_cons_of_mem _ hs)]
      · rw [if_neg hs]
        by_cases hsx : s = x
        · subst hsx
          rw [if_pos (List.mem_cons_self _ _), alLookup_alUpdate_self]
        · rw [if_neg (fun h => (List.mem_cons.mp h).elim hsx hs),
            alLookup_alUpdate_ne _ _ hsx]

theorem classFold_not_mem :
    ∀ (ips : List (Nat × Finset Nat)) (m : List (Nat × Nat)) (s : Nat),
      (∀ p ∈ ips, s ∉ p.2) →
      alLookup (ips.foldl (fun m p =>
        (finList p.2).foldl (fun m2 x => alUpdate m2 x (fun _ => p.1)) m)
          m) s = alLookup m s := by
  intro ips
  induction ips with
  | nil =>
      intro m s _
      rfl
  | cons q rest ih =>
      intro m s h
      rw [List.foldl_cons, ih _ _ (fun p hp =>
        h p (List.mem_cons_of_mem _ hp)), classInner_lookup,
        if_neg (fun hm => h q (List.mem_cons_self _ _) (mem_finList.mp hm))]

theorem classFold_mem_unique :
    ∀ (ips : List (Nat × Finset Nat)) (m : List (Nat × Nat)) (s i : Nat)
      (P : Finset Nat), (i, P) ∈ ips → s ∈ P →
      (∀ q ∈ ips, s ∈ q.2 → q = (i, P)) →
      alLookup (ips.foldl (fun m p =>
        (finList p.2).foldl (fun m2 x => alUpdate m2 x (fun _ => p.1)) m)
          m) s = some i := by
  intro ips
  induction ips with
  | nil =>
      intro m s i P hmem
      cases hmem
  | cons q rest ih =>
      intro m s i P hmem hs huniq
      rw [List.foldl_cons]
      by_cases hrest : ∃ p ∈ rest, s ∈ p.2
      · obtain ⟨p, hp, hsp⟩ := hrest
        have hpq : p = (i, P) := huniq p (List.mem_cons_of_mem _ hp) hsp
        subst hpq
        exact ih _ s i P hp hs
          (fun q' hq' hsq' => huniq q' (List.mem_cons_of_mem _ hq') hsq')
      · push_neg at hrest
        rw [classFold_not_mem rest _ s hrest, classInner_lookup]
        by_cases hq : s ∈ q.2
        · have : q = (i, P) := huniq q (List.mem_cons_self _ _) hq
          subst this
          rw [if_pos (mem_finList.mpr hq)]
        · exfalso
          rcases List.mem_cons.mp hmem with h1 | h1
          · refine hq ?_
            rw [← h1]
            exact hs
          · exact hrest (i, P) h1 hs

theorem classMap_lookup {parts : List (Finset Nat)}
    (hdisj : parts.Pairwise (fun A B => ∀ x ∈ A, x ∉ B))
    {i : Nat} {P : Finset Nat} (hget : parts.get? i = some P)
    {s : Nat} (hs : s ∈ P) :
    alLookup (classMap parts) s = some i := by
  unfold classMap
  refine classFold_mem_unique parts.enum [] s i P
    (List.mk_mem_enum_iff_get?.mpr hget) hs ?_
  intro q hq hsq
  have hgq : parts.get? q.1 = some q.2 := by
    have : (q.1, q.2) ∈ parts.enum := by
      rw [show ((q.1, q.2) : Nat × Finset Nat) = q from rfl]
      exact hq
    exact List.mk_mem_enum_iff_get?.mp this
  have hpair := List.pairwise_iff_get.mp hdisj
  have hlti : i < parts.length := (List.get?_eq_some.mp hget).1
  have hltq : q.1 < parts.length := (List.get?_eq_some.mp hgq).1
  have hgi : parts.get ⟨i, hlti⟩ = P := by
    have := List.get?_eq_get hlti
    rw [hget] at this
    exact (Option.some.inj this).symm
  have hgq2 : parts.get ⟨q.1, hltq⟩ = q.2 := by
    have := List.get?_eq_get hltq
    rw [hgq] at this
    exact (Option.some.inj this).symm
  by_cases heq : q.1 = i
  · have : q.2 = P := by
      rw [← hgq2, ← hgi]
      congr 1
      exact Fin.ext heq
    calc q = (q.1, q.2) := rfl
      _ = (i, P) := by rw [heq, this]
  · exfalso
    rcases Nat.lt_or_ge q.1 i with hlt | hge
    · have := hpair ⟨q.1, hltq⟩ ⟨i, hlti⟩ hlt
      rw [hgq2, hgi] at this
      exact this s hsq hs
    · have hlt2 : i < q.1 := by omega
      have := hpair ⟨i, hlti⟩ ⟨q.1, hltq⟩ hlt2
      rw [hgq2, hgi] at this
      exact this s hs hsq

theorem classFold_some :
    ∀ (ips : List (Nat × Finset Nat)) (m : List (Nat × Nat)) (s i : Nat),
      alLookup (ips.foldl (fun m p =>
        (finList p.2).foldl (fun m2 x => alUpdate m2 x (fun _ => p.1)) m)
          m) s = some i →
      (∃ p ∈ ips, p.1 = i ∧ s ∈ p.2) ∨ alLookup m s = some i := by
  intro ips
  induction ips with
  | nil =>
      intro m s i h
      exact Or.inr h
  | cons q rest ih =>
      intro m s i h
      rw [List.foldl_cons] at h
      rcases ih _ s i h with h1 | h1
      · obtain ⟨p, hp, hpi, hsp⟩ := h1
        exact Or.inl ⟨p, List.mem_cons_of_mem _ hp, hpi, hsp⟩
      · rw [classInner_lookup] at h1
        by_cases hq : s ∈ finList q.2
        · rw [if_pos hq] at h1
          have : q.1 = i := by injection h1
          exact Or.inl ⟨q, List.mem_cons_self _ _, this, mem_finList.mp hq⟩
        · rw [if_neg hq] at h1
          exact Or.inr h1

theorem classMap_lookup_mem {parts : List (Finset Nat)} {s i : Nat}
    (h : alLookup (classMap parts) s = some i) :
    ∃ P, parts.get? i = some P ∧ s ∈ P := by
  unfold classMap at h
  rcases classFold_some parts.enum [] s i h with h1 | h1
  · obtain ⟨p, hp, hpi, hsp⟩ := h1
    refine ⟨p.2, ?_, hsp⟩
    rw [← hpi]
    refine List.mk_mem_enum_iff_get?.mp ?_
    rw [show ((p.1, p.2) : Nat × Finset Nat) = p from rfl]
    exact hp
  · cases h1

theorem alUpdate_ne_nil {α β : Type} [DecidableEq α] (l : List (α × β))
    (k : α) (f : Option β → β) : alUpdate l k f ≠ [] := by
  cases l with
  | nil => simp [alUpdate]
  | cons p rest =>
      obtain ⟨k2, v⟩ := p
      unfold alUpdate
      split <;> simp

theorem target_mem_all {d : DFA} {s : Nat} {tm : List (Char × Nat)}
    (hm : (s, tm) ∈ d.transitions) {c : Char} {t : Nat}
    (ht : (c, t) ∈ tm) : t ∈ all_statesOf d := by
  unfold all_statesOf
  refine Finset.mem_insert_of_mem (Finset.mem_union_right _ ?_)
  rw [List.mem_toFinset, List.mem_join]
  refine ⟨s :: tm.map Prod.snd, ?_, ?_⟩
  · exact List.mem_map_of_mem (fun p => p.1 :: p.2.map Prod.snd) hm
  · exact List.mem_cons_of_mem _ (List.mem_map_of_mem Prod.snd ht)

theorem ntFold_not_mem (stp : List (Nat × Nat)) :
    ∀ (tm : List (Char × Nat)) (nt0 : List (Char × Nat)) (c : Char),
      c ∉ tm.map Prod.fst →
      alLookup (tm.foldl (fun nt e =>
        match alLookup stp e.2 with
        | none => nt
        | some tp => alUpdate nt e.1 (fun _ => tp)) nt0) c =
        alLookup nt0 c := by
  intro tm
  induction tm with
  | nil =>
      intro nt0 c _
      rfl
  | cons e rest ih =>
      intro nt0 c hc
      simp only [List.map_cons, List.mem_cons, not_or] at hc
      rw [List.foldl_cons, ih _ c hc.2]
      cases hl : alLookup stp e.2 with
      | none => rfl
      | some tp => exact alLookup_alUpdate_ne _ _ hc.1

theorem ntFold_mem (stp : List (Nat × Nat)) :
    ∀ (tm : List (Char × Nat)) (nt0 : List (Char × Nat)) (c : Char)
      (t : Nat), (c, t) ∈ tm → (tm.map Prod.fst).Nodup →
      alLookup (tm.foldl (fun nt e =>
        match alLookup stp e.2 with
        | none => nt
        | some tp => alUpdate nt e.1 (fun _ => tp)) nt0) c =
        (match alLookup stp t with
         | none => alLookup nt0 c
         | some tp => some tp) := by
  intro tm
  induction tm with
  | nil =>
      intro nt0 c t hmem
      cases hmem
  | cons e rest ih =>
      intro nt0 c t hmem hnd
      simp only [List.map_cons, List.nodup_cons] at hnd
      rw [List.foldl_cons]
      rcases List.mem_cons.mp hmem with h1 | h1
      · have hce : c = e.1 := congrArg Prod.fst h1
        have hte : t = e.2 := congrArg Prod.snd h1
        have hcr : c ∉ rest.map Prod.fst := by
          rw [hce]
          exact hnd.1
        rw [ntFold_not_mem stp rest _ c hcr]
        cases hl : alLookup stp e.2 with
        | none =>
            rw [hte, hl]
        | some tp =>
            rw [hte, hl, hce, alLookup_alUpdate_self]
      · have hcr : c ∈ rest.map Prod.fst := List.mem_map_of_mem Prod.fst h1
        have hce : c ≠ e.1 := fun h => hnd.1 (h ▸ hcr)
        rw [ih _ c t h1 hnd.2]
        cases hl : alLookup stp t with
        | none =>
            cases hl2 : alLookup stp e.2 with
            | none => rfl
            | some tp => exact alLookup_alUpdate_ne _ _ hce
        | some tp => rfl

theorem ntFold_preserve_ne (stp : List (Nat × Nat)) :
    ∀ (tm : List (Char × Nat)) (nt0 : List (Char × Nat)), nt0 ≠ [] →
      tm.foldl (fun nt e =>
        match alLookup stp e.2 with
        | none => nt
        | some tp => alUpdate nt e.1 (fun _ => tp)) nt0 ≠ [] := by
  intro tm
  induction tm with
  | nil =>
      intro nt0 h
      exact h
  | cons e rest ih =>
      intro nt0 h
      rw [List.foldl_cons]
      refine ih _ ?_
      cases hl : alLookup stp e.2 with
      | none => exact h
      | some tp => exact alUpdate_ne_nil _ _ _

theorem ntFold_ne (stp : List (Nat × Nat)) (tm : List (Char × Nat))
    (hsome : ∀ e ∈ tm, (alLookup stp e.2).isSome = true) (hne : tm ≠ []) :
    ntFold stp tm ≠ [] := by
  unfold ntFold
  cases tm with
  | nil => exact absurd rfl hne
  | cons e rest =>
      rw [List.foldl_cons]
      refine ntFold_preserve_ne stp rest _ ?_
      have h := hsome e (List.mem_cons_self _ _)
      cases hl : alLookup stp e.2 with
      | none =>
          rw [hl] at h
          simp at h
      | some tp => exact alUpdate_ne_nil _ _ _

theorem trFold_not_mem (original : DFA) (stp : List (Nat × Nat)) :
    ∀ (ips : List (Nat × Finset Nat))
      (tr0 : List (Nat × List (Char × Nat))) (i : Nat),
      (∀ p ∈ ips, p.1 ≠ i) →
      alLookup (ips.foldl (fun tr p =>
        match repTrans original stp p.2 with
        | none => tr
        | some nt => alUpdate tr p.1 (fun _ => nt)) tr0) i =
        alLookup tr0 i := by
  intro ips
  induction ips with
  | nil =>
      intro tr0 i _
      rfl
  | cons q rest ih =>
      intro tr0 i h
      rw [List.foldl_cons, ih _ i (fun p hp =>
        h p (List.mem_cons_of_mem _ hp))]
      cases hl : repTrans original stp q.2 with
      | none => rfl
      | some nt =>
          exact alLookup_alUpdate_ne _ _
            (fun he => h q (List.mem_cons_self _ _) he.symm)

theorem trFold_mem (original : DFA) (stp : List (Nat × Nat)) :
    ∀ (ips : List (Nat × Finset Nat))
      (tr0 : List (Nat × List (Char × Nat))) (i : Nat) (P : Finset Nat),
      (i, P) ∈ ips → (∀ q ∈ ips, q.1 = i → q.2 = P) →
      alLookup (ips.foldl (fun tr p =>
        match repTrans original stp p.2 with
        | none => tr
        | some nt => alUpdate tr p.1 (fun _ => nt)) tr0) i =
        (match repTrans original stp P with
         | none => alLookup tr0 i
         | some nt => some nt) := by
  intro ips
  induction ips with
  | nil =>
      intro tr0 i P hmem
      cases hmem
  | cons q rest ih =>
      intro tr0 i P hmem huniq
      rw [List.foldl_cons]
      by_cases hrest : ∃ p ∈ rest, p.1 = i
      · obtain ⟨p, hp, hpi⟩ := hrest
        have hp2 : p.2 = P := huniq p (List.mem_cons_of_mem _ hp) hpi
        have hpeq : p = (i, P) := by
          calc p = (p.1, p.2) := rfl
            _ = (i, P) := by rw [hpi, hp2]
        have hih := ih (match repTrans original stp q.2 with
            | none => tr0
            | some nt => alUpdate tr0 q.1 (fun _ => nt)) i P (hpeq ▸ hp)
          (fun q2 hq2 hq2i => huniq q2 (List.mem_cons_of_mem _ hq2) hq2i)
        cases hl : repTrans original stp P with
        | some nt =>
            rw [hl] at hih
            exact hih
        | none =>
            rw [hl] at hih
            rw [hih]
            by_cases hqi : q.1 = i
            · have hq2 : q.2 = P := huniq q (List.mem_cons_self _ _) hqi
              rw [hq2, hl]
            · cases hl2 : repTrans original stp q.2 with
              | none => rfl
              | some nt =>
                  exact alLookup_alUpdate_ne _ _ (fun he => hqi he.symm)
      · push_neg at hrest
        rw [trFold_not_mem original stp rest _ i hrest]
        rcases List.mem_cons.mp hmem with h1 | h1
        · have hq1 : q.1 = i := (congrArg Prod.fst h1).symm
          have hq2 : q.2 = P := (congrArg Prod.snd h1).symm
          cases hl : repTrans original stp q.2 with
          | none =>
              rw [hq2] at hl
              rw [hl]
          | some nt =>
              rw [hq2] at hl
              rw [hl, hq1, alLookup_alUpdate_self]
        · exact absurd h1 (by
            intro hcon
            exact hrest (i, P) hcon rfl)

/-- The fixed point of the refinement loop of `minimize_dfa`. -/
def minFin (d : DFA) : MinState :=
  iterFuel (minStep d) minHalt (minFuel d) (minInit d)

theorem minFin_queue_nil (d : DFA) : (minFin d).queue = [] := by
  have h : (minFin d).queue.isEmpty = true := min_loop_halts d
  cases hq : (minFin d).queue with
  | nil => rfl
  | cons a l =>
      rw [hq] at h
      simp at h

theorem final_stab (d : DFA) :
    ∀ P ∈ (minFin d).partitions, Stab d (minFin d).partitions P := by
  intro P hP
  have hder := (min_loop_inv d).der P hP
  refine derFrom_stab ?_ hder
  intro S hS
  rcases hS with h | h
  · exact h
  · rw [show (iterFuel (minStep d) minHalt (minFuel d) (minInit d)).queue =
      (minFin d).queue from rfl, minFin_queue_nil] at h
    cases h

theorem minInit_mem (d : DFA) :
    ∀ Q ∈ (minInit d).partitions,
      Q = (all_statesOf d).filter (fun s => s ∉ d.accepts) ∨
        Q = d.accepts := by
  intro Q hQ
  have h : Q ∈ (if (all_statesOf d).filter (fun s => s ∉ d.accepts) ≠ ∅ then
      [(all_statesOf d).filter (fun s => s ∉ d.accepts)] else []) ++
      (if d.accepts ≠ ∅ then [d.accepts] else []) := hQ
  rcases List.mem_append.mp h with h1 | h1
  · left
    by_cases hc : (all_statesOf d).filter (fun s => s ∉ d.accepts) ≠ ∅
    · rw [if_pos hc] at h1
      exact List.mem_singleton.mp h1
    · rw [if_neg hc] at h1
      cases h1
  · right
    by_cases hc : d.accepts ≠ ∅
    · rw [if_pos hc] at h1
      exact List.mem_singleton.mp h1
    · rw [if_neg hc] at h1
      cases h1

theorem class_accept_uniform (d : DFA) {P : Finset Nat}
    (hP : P ∈ (minFin d).partitions) {a s : Nat} (ha : a ∈ P) (hs : s ∈ P)
    (hacc : a ∈ d.accepts) : s ∈ d.accepts := by
  obtain ⟨Q, hQ, hsub⟩ := (min_loop_inv d).init_ref P hP
  rcases minInit_mem d Q hQ with h1 | h1
  · exfalso
    have h2 := hsub ha
    rw [h1, Finset.mem_filter] at h2
    exact h2.2 hacc
  · have h2 := hsub hs
    rw [h1] at h2
    exact h2

theorem minimize_eq (d : DFA) (m : DFA) (hm : minimize_dfa d = some m) :
    ∃ st0, alLookup (classMap (minFin d).partitions) d.start = some st0 ∧
      m.start = st0 ∧
      m.accepts = ((finList d.accepts).filterMap
        (fun a => alLookup (classMap (minFin d).partitions) a)).toFinset ∧
      m.transitions = (minFin d).partitions.enum.foldl (fun tr p =>
        match repTrans d (classMap (minFin d).partitions) p.2 with
        | none => tr
        | some nt => alUpdate tr p.1 (fun _ => nt)) [] := by
  have he : minimize_dfa d =
      (match alLookup (classMap (minFin d).partitions) d.start with
       | none => none
       | some start =>
           some
             { start := start,
               accepts := ((finList d.accepts).filterMap
                 (fun a =>
                   alLookup (classMap (minFin d).partitions) a)).toFinset,
               transitions := (minFin d).partitions.enum.foldl (fun tr p =>
                 match repTrans d (classMap (minFin d).partitions) p.2 with
                 | none => tr
                 | some nt => alUpdate tr p.1 (fun _ => nt)) [] }) := rfl
  rw [he] at hm
  cases hl : alLookup (classMap (minFin d).partitions) d.start with
  | none =>
      rw [hl] at hm
      cases hm
  | some st0 =>
      rw [hl] at hm
      injection hm with h2
      refine ⟨st0, rfl, ?_, ?_, ?_⟩ <;> rw [← h2]

theorem M_lookup (d : DFA) (m : DFA) (hm : minimize_dfa d = some m)
    {i : Nat} {P : Finset Nat}
    (hget : (minFin d).partitions.get? i = some P) :
    alLookup m.transitions i =
      repTrans d (classMap (minFin d).partitions) P := by
  obtain ⟨st0, -, -, -, htr⟩ := minimize_eq d m hm
  rw [htr]
  have huniq : ∀ q ∈ (minFin d).partitions.enum, q.1 = i → q.2 = P := by
    intro q hq hqi
    have hgq : (minFin d).partitions.get? q.1 = some q.2 := by
      refine List.mk_mem_enum_iff_get?.mp ?_
      rw [show ((q.1, q.2) : Nat × Finset Nat) = q from rfl]
      exact hq
    rw [hqi, hget] at hgq
    exact (Option.some.inj hgq).symm
  have hmem : (i, P) ∈ (minFin d).partitions.enum :=
    List.mk_mem_enum_iff_get?.mpr hget
  rw [trFold_mem d (classMap (minFin d).partitions)
    (minFin d).partitions.enum [] i P hmem huniq]
  cases hrt : repTrans d (classMap (minFin d).partitions) P with
  | none => rfl
  | some nt => rfl

theorem classMap_covers (d : DFA) {s : Nat} (hs : s ∈ all_statesOf d) :
    ∃ j Q, (minFin d).partitions.get? j = some Q ∧ s ∈ Q ∧
      alLookup (classMap (minFin d).partitions) s = some j := by
  obtain ⟨Q, hQ, hsQ⟩ := (min_loop_inv d).cover s hs
  obtain ⟨j, hj⟩ := List.mem_iff_get?.mp hQ
  exact ⟨j, Q, hj, hsQ, classMap_lookup (min_loop_inv d).disj hj hsQ⟩

theorem min_bisim (d : DFA)
    (hwf2 : ∀ p ∈ d.transitions, (p.2.map Prod.fst).Nodup)
    (m : DFA) (hm : minimize_dfa d = some m) :
    ∀ (w : List Char) (s i : Nat), s ∈ all_statesOf d →
      alLookup (classMap (minFin d).partitions) s = some i →
      m.acceptsFrom i w = d.acceptsFrom s w := by
  intro w
  induction w with
  | nil =>
      intro s i hs hsi
      obtain ⟨st0, -, -, hacc, -⟩ := minimize_eq d m hm
      show decide (i ∈ m.accepts) = decide (s ∈ d.accepts)
      rw [decide_eq_decide, hacc, List.mem_toFinset, List.mem_filterMap]
      constructor
      · rintro ⟨a, hamem, hai⟩
        have haacc : a ∈ d.accepts := mem_finList.mp hamem
        obtain ⟨P, hgetP, haP⟩ := classMap_lookup_mem hai
        obtain ⟨P2, hgetP2, hsP2⟩ := classMap_lookup_mem hsi
        rw [hgetP] at hgetP2
        have hPP : P = P2 := Option.some.inj hgetP2
        have hsP : s ∈ P := by
          rw [hPP]
          exact hsP2
        exact class_accept_uniform d (List.get?_mem hgetP) haP hsP haacc
      · intro hsacc
        exact ⟨s, mem_finList.mpr hsacc, hsi⟩
  | cons c cs ih =>
      intro s i hs hsi
      obtain ⟨P, hgetP, hsP⟩ := classMap_lookup_mem hsi
      have hPmem : P ∈ (minFin d).partitions := List.get?_mem hgetP
      have hlookM := M_lookup d m hm hgetP
      have hmacc : m.acceptsFrom i (c :: cs) =
          (match m.stepD i c with
           | some next => m.acceptsFrom next cs
           | none => false) := rfl
      have hdacc : d.acceptsFrom s (c :: cs) =
          (match d.stepD s c with
           | some next => d.acceptsFrom next cs
           | none => false) := rfl
      rw [hmacc, hdacc]
      cases hds : d.stepD s c with
      | some t =>
          have htall : t ∈ all_statesOf d := stepD_target_mem hds
          obtain ⟨j, S, hgetS, htS, hstpt⟩ := classMap_covers d htall
          have hSmem : S ∈ (minFin d).partitions := List.get?_mem hgetS
          have hspred : s ∈ predC d c S := mem_predC.mpr ⟨hs, t, hds, htS⟩
          have hPsub : P ⊆ predC d c S := by
            rcases final_stab d S hSmem c P hPmem with h1 | h1
            · exact h1
            · exfalso
              rw [Finset.eq_empty_iff_forall_not_mem] at h1
              exact h1 s (Finset.mem_inter.mpr ⟨hsP, hspred⟩)
          have hPne : P ≠ ∅ := (min_loop_inv d).nonempty P hPmem
          cases hfl : finList P with
          | nil =>
              exfalso
              refine hPne ?_
              rw [← finList_toFinset P, hfl]
              rfl
          | cons rep rest =>
              have hrepP : rep ∈ P := mem_finList.mp (by
                rw [hfl]
                exact List.mem_cons_self _ _)
              obtain ⟨-, u, hdru, huS⟩ := mem_predC.mp (hPsub hrepP)
              have hstep2 : (alLookup d.transitions rep).bind
                  (fun mm => alLookup mm c) = some u := hdru
              cases hrt : alLookup d.transitions rep with
              | none =>
                  rw [hrt] at hstep2
                  simp at hstep2
              | some tm =>
                  rw [hrt] at hstep2
                  have hluc : alLookup tm c = some u := hstep2
                  have hmemtm : (c, u) ∈ tm := alLookup_mem hluc
                  have hnd : (tm.map Prod.fst).Nodup :=
                    hwf2 (rep, tm) (alLookup_mem hrt)
                  have hstpu : alLookup (classMap (minFin d).partitions) u =
                      some j :=
                    classMap_lookup (min_loop_inv d).disj hgetS huS
                  have hntl : alLookup
                      (ntFold (classMap (minFin d).partitions) tm) c =
                      (match alLookup (classMap (minFin d).partitions) u with
                       | none => alLookup ([] : List (Char × Nat)) c
                       | some tp => some tp) :=
                    ntFold_mem (classMap (minFin d).partitions) tm [] c u
                      hmemtm hnd
                  rw [hstpu] at hntl
                  have hntne : ntFold (classMap (minFin d).partitions) tm ≠
                      [] := by
                    intro hnil
                    rw [hnil] at hntl
                    cases hntl
                  have hrtr : repTrans d (classMap (minFin d).partitions) P =
                      some (ntFold (classMap (minFin d).partitions) tm) := by
                    unfold repTrans
                    rw [hfl]
                    dsimp only
                    rw [hrt]
                    dsimp only
                    rw [if_neg hntne]
                  have hms : m.stepD i c = some j := by
                    show (alLookup m.transitions i).bind
                      (fun mm => alLookup mm c) = some j
                    rw [hlookM, hrtr]
                    exact hntl
                  rw [hms]
                  show m.acceptsFrom j cs = d.acceptsFrom t cs
                  exact ih t j htall hstpt
      | none =>
          cases hrtr : repTrans d (classMap (minFin d).partitions) P with
          | none =>
              have hms : m.stepD i c = none := by
                show (alLookup m.transitions i).bind
                  (fun mm => alLookup mm c) = none
                rw [hlookM, hrtr]
                rfl
              rw [hms]
          | some nt =>
              have hPne : P ≠ ∅ := (min_loop_inv d).nonempty P hPmem
              cases hfl : finList P with
              | nil =>
                  exfalso
                  refine hPne ?_
                  rw [← finList_toFinset P, hfl]
                  rfl
              | cons rep rest =>
                  have hrepP : rep ∈ P := mem_finList.mp (by
                    rw [hfl]
                    exact List.mem_cons_self _ _)
                  have hrtr0 := hrtr
                  unfold repTrans at hrtr
                  rw [hfl] at hrtr
                  dsimp only at hrtr
                  cases hrt : alLookup d.transitions rep with
                  | none =>
                      rw [hrt] at hrtr
                      cases hrtr
                  | some tm =>
                      rw [hrt] at hrtr
                      dsimp only at hrtr
                      by_cases hne : ntFold (classMap
                          (minFin d).partitions) tm = []
                      · rw [if_pos hne] at hrtr
                        cases hrtr
                      · rw [if_neg hne] at hrtr
                        have hnt2 : nt =
                            ntFold (classMap (minFin d).partitions) tm := by
                          injection hrtr with hv
                          exact hv.symm
                        by_cases hc : c ∈ tm.map Prod.fst
                        · exfalso
                          cases hluc : alLookup tm c with
                          | none =>
                              exact alLookup_eq_none.mp hluc hc
                          | some u =>
                              have hdru : d.stepD rep c = some u := by
                                show (alLookup d.transitions rep).bind
                                  (fun mm => alLookup mm c) = some u
                                rw [hrt]
                                exact hluc
                              have huall : u ∈ all_statesOf d :=
                                stepD_target_mem hdru
                              obtain ⟨j, S, hgetS, huS, -⟩ :=
                                classMap_covers d huall
                              have hSmem : S ∈ (minFin d).partitions :=
                                List.get?_mem hgetS
                              have hrepall : rep ∈ all_statesOf d :=
                                (min_loop_inv d).subU P hPmem hrepP
                              have hreppred : rep ∈ predC d c S :=
                                mem_predC.mpr ⟨hrepall, u, hdru, huS⟩
                              have hPsub : P ⊆ predC d c S := by
                                rcases final_stab d S hSmem c P hPmem with
                                  h1 | h1
                                · exact h1
                                · exfalso
                                  rw [Finset.eq_empty_iff_forall_not_mem]
                                    at h1
                                  exact h1 rep (Finset.mem_inter.mpr
                                    ⟨hrepP, hreppred⟩)
                              obtain ⟨-, t, hdst, -⟩ :=
                                mem_predC.mp (hPsub hsP)
                              rw [hds] at hdst
                              cases hdst
                        · have hnf : alLookup (ntFold (classMap
                              (minFin d).partitions) tm) c =
                              alLookup ([] : List (Char × Nat)) c :=
                            ntFold_not_mem (classMap
                              (minFin d).partitions) tm [] c hc
                          have hms : m.stepD i c = none := by
                            show (alLookup m.transitions i).bind
                              (fun mm => alLookup mm c) = none
                            rw [hlookM, hrtr0]
                            show alLookup nt c = none
                            rw [hnt2, hnf]
                            rfl
                          rw [hms]

theorem minimize_isSome (d : DFA) : (minimize_dfa d).isSome = true := by
  obtain ⟨j, Q, hj, hsQ, hl⟩ := classMap_covers d (start_mem_all d)
  have he : minimize_dfa d =
      (match alLookup (classMap (minFin d).partitions) d.start with
       | none => none
       | some start =>
           some
             { start := start,
               accepts := ((finList d.accepts).filterMap
                 (fun a =>
                   alLookup (classMap (minFin d).partitions) a)).toFinset,
               transitions := (minFin d).partitions.enum.foldl (fun tr p =>
                 match repTrans d (classMap (minFin d).partitions) p.2 with
                 | none => tr
                 | some nt => alUpdate tr p.1 (fun _ => nt)) [] }) := rfl
  rw [he, hl]
  rfl

/-- **C1.** `minimize_dfa` preserves the language: for every DFA `d` whose
per-state edge maps have no duplicate keys (the `HashMap` representation
invariant of the Rust `DFA` type), every automaton `m` that `minimize_dfa`
returns accepts exactly the strings `d` accepts, where acceptance walks
the transition maps from the start state. -/
theorem C1_minimization_preserves_language (d : DFA)
    (hwf2 : ∀ p ∈ d.transitions, (p.2.map Prod.fst).Nodup)
    (m : DFA) (hm : minimize_dfa d = some m) (w : List Char) :
    m.acceptsInput w = d.acceptsInput w := by
  obtain ⟨st0, hst0, hstart, -, -⟩ := minimize_eq d m hm
  show m.acceptsFrom m.start w = d.acceptsFrom d.start w
  rw [hstart]
  exact min_bisim d hwf2 m hm w d.start st0 (start_mem_all d) hst0

theorem C1_minimization_preserves_language_witness :
    (∀ p ∈ (DFA.mk 0 {1} [(0, [('a', 1)]), (1, [])]).transitions,
      (p.2.map Prod.fst).Nodup) ∧
    minimize_dfa (DFA.mk 0 {1} [(0, [('a', 1)]), (1, [])]) =
      some (DFA.mk 0 {1} [(0, [('a', 1)])]) ∧
    (DFA.mk 0 {1} [(0, [('a', 1)])]).acceptsInput ['a'] =
      (DFA.mk 0 {1} [(0, [('a', 1)]), (1, [])]).acceptsInput ['a'] :=
  ⟨by decide, by decide,
    C1_minimization_preserves_language _ (by decide) _ (by decide) ['a']⟩

/-- **C5 (counterexample).** The claim that a DFA with empty accept set
collapses to a single class is false: on the DFA with start 0, no
accepting states and the single edge 0 --c--> 1, `minimize_dfa` returns an
automaton whose collected state set has two states, because the
refinement loop splits the all-states class on transition presence (state
0 has a `c`-edge into the splitter, state 1 has none). -/
theorem C5_empty_accepts_single_class_counterexample :
    (DFA.mk 0 ∅ [(0, [('c', 1)]), (1, [])]).accepts = ∅ ∧
    minimize_dfa (DFA.mk 0 ∅ [(0, [('c', 1)]), (1, [])]) =
      some (DFA.mk 0 ∅ [(0, [('c', 1)])]) ∧
    (all_statesOf (DFA.mk 0 ∅ [(0, [('c', 1)])])).card = 2 ∧
    (minFin (DFA.mk 0 ∅ [(0, [('c', 1)]), (1, [])])).partitions.length =
      2 :=
  ⟨rfl, by decide, by decide, by decide⟩

/-- **C5 (amended).** For a DFA with empty accept set the initial
partition is the single class of all collected states, and any minimized
automaton returned has an empty accept set and accepts no string; the
refinement loop may however still split that class, so the result need
not have exactly one state. -/
theorem C5_empty_accepts_single_class_amended (d : DFA)
    (h : d.accepts = ∅) :
    (minInit d).partitions = [all_statesOf d] ∧
    ∀ m, minimize_dfa d = some m →
      m.accepts = ∅ ∧ ∀ w, m.acceptsInput w = false := by
  have hfilter : (all_statesOf d).filter (fun s => s ∉ d.accepts) =
      all_statesOf d := by
    rw [h]
    simp
  have hne : (all_statesOf d).filter (fun s => s ∉ d.accepts) ≠ ∅ := by
    rw [hfilter]
    exact Finset.ne_empty_of_mem (start_mem_all d)
  constructor
  · show (if (all_statesOf d).filter (fun s => s ∉ d.accepts) ≠ ∅ then
        [(all_statesOf d).filter (fun s => s ∉ d.accepts)] else []) ++
        (if d.accepts ≠ ∅ then [d.accepts] else []) = [all_statesOf d]
    rw [if_pos hne, hfilter, h]
    simp
  · intro m hm
    obtain ⟨st0, -, -, hacc, -⟩ := minimize_eq d m hm
    have haccm : m.accepts = ∅ := by
      rw [hacc, h]
      rfl
    refine ⟨haccm, ?_⟩
    have hall : ∀ (w : List Char) (s : Nat), m.acceptsFrom s w = false := by
      intro w
      induction w with
      | nil =>
          intro s
          show decide (s ∈ m.accepts) = false
          rw [haccm]
          simp
      | cons c cs ih =>
          intro s
          show (match m.stepD s c with
                | some next => m.acceptsFrom next cs
                | none => false) = false
          cases m.stepD s c with
          | some next => exact ih next
          | none => rfl
    intro w
    exact hall w m.start

theorem C5_empty_accepts_single_class_amended_witness :
    (DFA.mk 0 ∅ [(0, [('c', 1)]), (1, [])]).accepts = ∅ ∧
    (minInit (DFA.mk 0 ∅ [(0, [('c', 1)]), (1, [])])).partitions =
      [all_statesOf (DFA.mk 0 ∅ [(0, [('c', 1)]), (1, [])])] ∧
    (DFA.mk 0 ∅ [(0, [('c', 1)])]).accepts = ∅ ∧
    (DFA.mk 0 ∅ [(0, [('c', 1)])]).acceptsInput ['c'] = false :=
  ⟨rfl,
   (C5_empty_accepts_single_class_amended
     (DFA.mk 0 ∅ [(0, [('c', 1)]), (1, [])]) rfl).1,
   ((C5_empty_accepts_single_class_amended
     (DFA.mk 0 ∅ [(0, [('c', 1)]), (1, [])]) rfl).2
     (DFA.mk 0 ∅ [(0, [('c', 1)])]) (by decide)).1,
   ((C5_empty_accepts_single_class_amended
     (DFA.mk 0 ∅ [(0, [('c', 1)]), (1, [])]) rfl).2
     (DFA.mk 0 ∅ [(0, [('c', 1)])]) (by decide)).2 ['c']⟩

/-- **C8.** Both worklist stages terminate on every input: the BFS of
`remove_epsilon` and the refinement loop of `minimize_dfa` each reach
their halting condition (an empty work queue) within the stated fuel. -/
theorem C8_stages_terminate (nfa : NFA) (d : DFA) :
    elimHalt (iterFuel (elimStep nfa) elimHalt (elimFuel nfa)
      (elimInit nfa)) = true ∧
    minHalt (iterFuel (minStep d) minHalt (minFuel d) (minInit d)) =
      true :=
  ⟨elim_loop_halts nfa, min_loop_halts d⟩

/-- **C10.** `minimize_dfa` never panics: at every iterate of the
refinement loop the partition classes are pairwise disjoint and cover
every collected state; consequently the class lookup of the start state
(the `.expect` of `build_minimized_dfa`) succeeds, `minimize_dfa` always
returns a DFA, and the class mapping of every transition target of every
class representative succeeds. -/
theorem C10_minimize_never_panics (d : DFA) :
    (∀ fuel : Nat,
      (iterFuel (minStep d) minHalt fuel (minInit d)).partitions.Pairwise
          (fun A B => ∀ x ∈ A, x ∉ B) ∧
        ∀ s ∈ all_statesOf d,
          ∃ P ∈ (iterFuel (minStep d) minHalt fuel (minInit d)).partitions,
            s ∈ P) ∧
      (alLookup (classMap (minFin d).partitions) d.start).isSome = true ∧
      (minimize_dfa d).isSome = true ∧
      ∀ P ∈ (minFin d).partitions, ∀ rep rest, finList P = rep :: rest →
        ∀ tm, alLookup d.transitions rep = some tm →
          ∀ e ∈ tm,
            (alLookup (classMap (minFin d).partitions) e.2).isSome =
              true := by
  refine ⟨?_, ?_, minimize_isSome d, ?_⟩
  · intro fuel
    have hinv := iterFuel_invariant (minStep d) minHalt (MinInv d)
      (minStep_inv d) fuel (minInit d) (minInit_inv d)
    exact ⟨hinv.disj, hinv.cover⟩
  · obtain ⟨j, Q, hj, hsQ, hl⟩ := classMap_covers d (start_mem_all d)
    rw [hl]
    rfl
  · intro P hP rep rest hfl tm htm e he
    have hmem : (rep, tm) ∈ d.transitions := alLookup_mem htm
    have hall : e.2 ∈ all_statesOf d :=
      target_mem_all hmem (show (e.1, e.2) ∈ tm from he)
    obtain ⟨j, Q, hj, hsQ, hl⟩ := classMap_covers d hall
    rw [hl]
    rfl

end Kleeners
